import Mathlib

/-!
# A verification development for the `btree` container and its iterators

Shallow embedding of `src/btree.h` and `src/btree_iterator.h`, the shared-ownership
variant of the container: `insert`, `find`, `begin`/`end`/`rbegin`/`rend`, the cursor
steps `operator++` and `operator--`, and the copy and move operations.  Of the
raw-pointer variant in `src/btree.cpp` the pass of `insert` over one node is embedded
(`rawInsertNode`).

## Modelling decisions

* A `btree` exclusively owns its root and every node exclusively owns its children,
  so the owned nodes form a tree: `Node` is a recursive structure whose `children`
  field is the vector of child slots (`none` is a null `shared_ptr`).
* A pointer to a node (`weak_ptr<Node>`, or the `shared_ptr` it locks to) is the
  `Path` of child-slot indices leading from the root to that node.  Nodes are never
  moved or removed individually, so a path names the same node for the whole life of
  the tree.  A null or expired pointer is `none`.
* The `parent` back-reference of a node is set once, in the `Node` constructor call
  of `insert`, to the node whose child slot receives the new node.  It is therefore
  not stored: the parent of the node at path `p` is the node at `p.dropLast`, and the
  parent of the root is null.
* Behaviour that C++ leaves undefined (dereferencing a null pointer, indexing a
  vector out of range, `back()` on an empty vector) is reported as a `Fault`.  The
  loops of the container are run with a step budget derived from the tree, the loops
  of client code with a budget given by the caller; `Fault.outOfFuel` reports an
  exhausted budget and the theorems show where it cannot occur.
* `size_t` values are natural numbers.  Decrements wrap modulo `2 ^ 64` as in the
  source; increments (`btree_size`, `search_count`, `traverse_index`, indices) are
  taken not to overflow.
* The element type `T` is any linearly ordered type (`operator<`, `operator==`,
  `operator>`).
-/

namespace Btree

/-- A pointer to a node: the child-slot indices followed from the root. -/
abbrev Path := List Nat

/-- The ways in which an operation can leave defined behaviour. -/
inductive Fault where
  | nullDeref
  | outOfRange
  | outOfFuel
  deriving DecidableEq, Repr

/-- The number of values of a `size_t`. -/
def SIZE_MOD : Nat := 2 ^ 64

/-- The `struct Node` of `btree.h` (lines 207-235), without the derived `parent`. -/
structure Node (T : Type) where
  element : List T
  children : List (Option (Node T))
  capacity : Nat
  traverse_index : Nat

/-- The constructor `Node(const T& elem, size_t cap, shared_ptr<Node> parent)`. -/
def Node.withElem {T : Type} (elem : T) (cap : Nat) : Node T :=
  ⟨[elem], List.replicate (cap + 1) none, cap, 0⟩

/-- The constructor `Node(size_t cap, shared_ptr<Node> parent)`. -/
def Node.empty {T : Type} (cap : Nat) : Node T :=
  ⟨[], List.replicate (cap + 1) none, cap, 0⟩

/-- The member `int get_size()`. -/
def Node.get_size {T : Type} (n : Node T) : Nat := n.element.length

/-- The member `bool full()`. -/
def Node.full {T : Type} (n : Node T) : Bool := n.element.length == n.capacity

/-- The node a pointer refers to, starting from the root. -/
def Node.get? {T : Type} : Path → Node T → Option (Node T)
  | [], n => some n
  | i :: p, n =>
    match n.children[i]? with
    | some (some c) => Node.get? p c
    | _ => none

/-- Update in place of the node a pointer refers to. -/
def Node.modify {T : Type} (f : Node T → Node T) : Path → Node T → Node T
  | [], n => f n
  | i :: p, n =>
    match n.children[i]? with
    | some (some c) => { n with children := n.children.set i (some (Node.modify f p c)) }
    | _ => n

mutual
/-- Number of nodes plus number of elements below and including a node; it bounds the
number of iterations of every descent loop. -/
def Node.weight {T : Type} : Node T → Nat
  | ⟨es, cs, _, _⟩ => 1 + es.length + weightSlots cs
/-- Sum of the weights of the nodes held by a vector of child slots. -/
def weightSlots {T : Type} : List (Option (Node T)) → Nat
  | [] => 0
  | none :: cs => weightSlots cs
  | some n :: cs => n.weight + weightSlots cs
end

mutual
/-- Every element stored in a node or below it: the node's own elements first, then
those of its children slot by slot. -/
def Node.elems {T : Type} : Node T → List T
  | ⟨es, cs, _, _⟩ => es ++ elemsSlots cs
/-- Every element stored below a vector of child slots. -/
def elemsSlots {T : Type} : List (Option (Node T)) → List T
  | [] => []
  | none :: cs => elemsSlots cs
  | some n :: cs => n.elems ++ elemsSlots cs
end

/-- The `btree_iterator` / `const_btree_iterator` state: `pointee` and `index`.  The
`bt` field is the owning tree, the same for all cursors of one tree. -/
structure btree_iterator where
  pointee : Option Path
  index : Nat
  deriving DecidableEq, Repr

/-- The data members of `class btree` (lines 237-241). -/
structure btree (T : Type) where
  root : Option (Node T)
  tail : Option Path
  max_element : Nat
  btree_size : Nat
  search_count : Nat

/-- The constructor `btree(size_t maxNodeElems)` (line 262). -/
def btree.new {T : Type} (maxNodeElems : Nat) : btree T :=
  ⟨none, none, maxNodeElems, 0, 0⟩

/-- The node a pointer refers to in a tree. -/
def btree.node? {T : Type} (t : btree T) (p : Path) : Option (Node T) :=
  t.root.bind (Node.get? p)

/-- Every element stored in the tree. -/
def btree.elems {T : Type} (t : btree T) : List T :=
  match t.root with
  | none => []
  | some r => r.elems

/-- The members `end()` and `cend()` (lines 124, 126): the cursor is built from a
temporary node that is destroyed at once, so its `pointee` is expired and its index
is 0. -/
def btree.end_ : btree_iterator := ⟨none, 0⟩

/-- What `insert` returns, together with the tree it leaves behind. -/
structure InsertResult (T : Type) where
  tree : btree T
  first : btree_iterator
  second : Bool

/-- The statements of `insert` that hang a new one-element node in child slot
`index` of `cur` (lines 403-406 and 417-420): store the child, count it, move `tail`
when `elem > tail.lock()->element.back()`, and return a cursor at `(cur, ret)`. -/
def attach {T : Type} [LinearOrder T] (elem : T) (t : btree T) (root : Node T)
    (cur : Path) (index ret : Nat) : Except Fault (InsertResult T) :=
  let root1 := root.modify
    (fun n => { n with children := n.children.set index (some (Node.withElem elem t.max_element)) })
    cur
  match t.tail with
  | none => .error .nullDeref
  | some tl =>
    match root1.get? tl with
    | none => .error .nullDeref
    | some tn =>
      match tn.element.getLast? with
      | none => .error .outOfRange
      | some back =>
        .ok ⟨{ t with
                root := some root1
                btree_size := t.btree_size + 1
                tail := if elem > back then some (cur ++ [index]) else t.tail },
             ⟨some cur, ret⟩, true⟩

/-- The statements of `insert` that put `elem` at position `index` of the element
vector of `cur` (lines 408-411 and 425-428). -/
def grow {T : Type} (elem : T) (t : btree T) (root : Node T) (cur : Path) (index : Nat) :
    Except Fault (InsertResult T) :=
  .ok ⟨{ t with
          root := some (root.modify
            (fun n => { n with element := n.element.insertIdx index elem }) cur)
          btree_size := t.btree_size + 1 },
       ⟨some cur, index⟩, true⟩

/-- The loop `while (index < cur.lock()->element.size())` of `insert` (lines 393-414),
one iteration per unit of fuel.  It either returns from `insert` (`Sum.inl`) or falls
out of the loop with the final `cur` and `index` (`Sum.inr`). -/
def insertWhile {T : Type} [LinearOrder T] (elem : T) (t : btree T) (root : Node T) :
    Nat → Path → Nat → Except Fault (InsertResult T ⊕ (Path × Nat))
  | 0, _, _ => .error .outOfFuel
  | fuel + 1, cur, index =>
    match root.get? cur with
    | none => .error .nullDeref
    | some n =>
      if index < n.element.length then
        match n.element[index]? with
        | none => .error .outOfRange
        | some x =>
          if elem = x then
            .ok (.inl ⟨t, ⟨some cur, 0⟩, false⟩)
          else if elem < x then
            if n.full then
              match n.children[index]? with
              | none => .error .outOfRange
              | some (some _) => insertWhile elem t root fuel (cur ++ [index]) 0
              | some none =>
                match attach elem t root cur index 0 with
                | .error f => .error f
                | .ok r => .ok (.inl r)
            else
              match grow elem t root cur index with
              | .error f => .error f
              | .ok r => .ok (.inl r)
          else insertWhile elem t root fuel cur (index + 1)
      else .ok (.inr (cur, index))

/-- The statements of `insert` after the loop (lines 415-431), entered with the final
`cur` and `index`.  When the last child slot is occupied `cur` moves to that child
and the function returns a cursor on a temporary node with `false`. -/
def insertAfter {T : Type} [LinearOrder T] (elem : T) (t : btree T) (root : Node T)
    (cur : Path) (index : Nat) : Except Fault (InsertResult T) :=
  match root.get? cur with
  | none => .error .nullDeref
  | some n =>
    if index = n.capacity then
      match n.children[index]? with
      | none => .error .outOfRange
      | some none => attach elem t root cur index index
      | some (some _) => .ok ⟨t, ⟨none, 0⟩, false⟩
    else grow elem t root cur index

/-- The loop of `insert` followed by the statements after it. -/
def insertFrom {T : Type} [LinearOrder T] (elem : T) (t : btree T) (root : Node T)
    (fuel : Nat) (cur : Path) (index : Nat) : Except Fault (InsertResult T) :=
  match insertWhile elem t root fuel cur index with
  | .error f => .error f
  | .ok (.inl r) => .ok r
  | .ok (.inr (cur1, index1)) => insertAfter elem t root cur1 index1

/-- The member `insert` of `btree.h` (lines 382-432). -/
def btree.insert {T : Type} [LinearOrder T] (t : btree T) (elem : T) :
    Except Fault (InsertResult T) :=
  match t.root with
  | none =>
    .ok ⟨{ t with
            root := some (Node.withElem elem t.max_element)
            tail := some []
            btree_size := t.btree_size + 1 },
         ⟨none, 0⟩, true⟩
  | some root => insertFrom elem t root root.weight [] 0

/-- The `for` loop of `find` (lines 365-373), one iteration per unit of fuel.  It
either returns from `find` (`Sum.inl`) or ends with the final `cur`, `index` and
`loop` (`Sum.inr`).  After `cur` moves to a child the loop goes on with the next
index on the child: the body has no `break`. -/
def findFor {T : Type} [LinearOrder T] (elem : T) (root : Node T) :
    Nat → Path → Nat → Bool → Except Fault (btree_iterator ⊕ (Path × Nat × Bool))
  | 0, _, _, _ => .error .outOfFuel
  | fuel + 1, cur, index, loop =>
    match root.get? cur with
    | none => .error .nullDeref
    | some n =>
      if index < n.element.length then
        match n.element[index]? with
        | none => .error .outOfRange
        | some x =>
          if elem = x then
            .ok (.inl ⟨some cur, index⟩)
          else if elem < x then
            match n.children[index]? with
            | none => .error .outOfRange
            | some none => .ok (.inl btree.end_)
            | some (some _) => findFor elem root fuel (cur ++ [index]) (index + 1) false
          else findFor elem root fuel cur (index + 1) loop
      else .ok (.inr (cur, index, loop))

/-- The loop `while (loop)` of `find` (lines 364-378), one pass per unit of fuel,
entered with `loop == true`. -/
def findWhile {T : Type} [LinearOrder T] (elem : T) (root : Node T) :
    Nat → Path → Except Fault btree_iterator
  | 0, _ => .error .outOfFuel
  | fuel + 1, cur =>
    match findFor elem root root.weight cur 0 true with
    | .error f => .error f
    | .ok (.inl it) => .ok it
    | .ok (.inr (cur1, index, loop)) =>
      match root.get? cur1 with
      | none => .error .nullDeref
      | some n =>
        if index = n.element.length then
          match n.children[index]? with
          | none => .error .outOfRange
          | some none => .ok btree.end_
          | some (some _) =>
            if loop then findWhile elem root fuel (cur1 ++ [index]) else .ok btree.end_
        else if loop then findWhile elem root fuel cur1 else .ok btree.end_

/-- The member `find` of `btree.h` (lines 359-380; the non-const overload of lines
336-357 has the same body). -/
def btree.find {T : Type} [LinearOrder T] (t : btree T) (elem : T) :
    Except Fault btree_iterator :=
  match t.root with
  | none => .error .nullDeref
  | some root => findWhile elem root root.weight []

/-- The tree left by inserting the elements of a list in order into `t`, with the
`second` field of every call. -/
def insertAll {T : Type} [LinearOrder T] :
    btree T → List T → Except Fault (btree T × List Bool)
  | t, [] => .ok (t, [])
  | t, e :: es =>
    match t.insert e with
    | .error f => .error f
    | .ok r =>
      match insertAll r.tree es with
      | .error f => .error f
      | .ok (t1, bs) => .ok (t1, r.second :: bs)

/-- The `parent` back-reference of the node at `p`: null for the root. -/
def parentOf (p : Path) : Option Path :=
  match p with
  | [] => none
  | _ :: _ => some p.dropLast

/-- The member `begin` (lines 245-251), loop `while (cur->children[0] != nullptr)`,
one iteration per unit of fuel. -/
def beginWhile {T : Type} (root : Node T) : Nat → Path → Except Fault Path
  | 0, _ => .error .outOfFuel
  | fuel + 1, cur =>
    match root.get? cur with
    | none => .error .nullDeref
    | some n =>
      match n.children[0]? with
      | none => .error .outOfRange
      | some none => .ok cur
      | some (some _) => beginWhile root fuel (cur ++ [0])

/-- The members `begin` and `cbegin` (lines 245-259): reset `search_count`, walk down
child slot 0, return a cursor at slot 0.  The root is dereferenced unconditionally. -/
def btree.begin {T : Type} (t : btree T) : Except Fault (btree T × btree_iterator) :=
  match t.root with
  | none => .error .nullDeref
  | some root =>
    match beginWhile root root.weight [] with
    | .error f => .error f
    | .ok cur => .ok ({ t with search_count := 0 }, ⟨some cur, 0⟩)

/-- The dereference `operator*` (lines 88-90). -/
def btree_iterator.deref {T : Type} (t : btree T) (it : btree_iterator) : Except Fault T :=
  match it.pointee with
  | none => .error .nullDeref
  | some p =>
    match t.node? p with
    | none => .error .nullDeref
    | some n =>
      match n.element[it.index]? with
      | none => .error .outOfRange
      | some x => .ok x

/-- The loops `while (!pointee.expired())` of `operator++` (lines 102-106) and
`operator--` (lines 137-140): store `f` applied to the node in `traverse_index` and
move to the parent, one iteration per unit of fuel.  Returns the updated root. -/
def ascendWhile {T : Type} (f : Node T → Nat) :
    Nat → Node T → Option Path → Except Fault (Node T)
  | _, root, none => .ok root
  | 0, _, some _ => .error .outOfFuel
  | fuel + 1, root, some p =>
    match root.get? p with
    | none => .error .nullDeref
    | some _ =>
      ascendWhile f fuel
        (root.modify (fun n => { n with traverse_index := f n }) p) (parentOf p)

/-- The pre-increment `operator++` of `btree_iterator` and `const_btree_iterator`
(lines 92-118 and 182-208). -/
def btree_iterator.inc {T : Type} (t : btree T) (it : btree_iterator) :
    Except Fault (btree T × btree_iterator) :=
  let sc := t.search_count + 1
  match it.pointee, t.root with
  | none, _ => .error .nullDeref
  | some _, none => .error .nullDeref
  | some p, some root =>
    match root.get? p with
    | none => .error .nullDeref
    | some n =>
      match n.children[it.index + 1]? with
      | none => .error .outOfRange
      | some (some _) =>
        .ok ({ t with
                search_count := sc
                root := some (root.modify
                  (fun m => { m with traverse_index := m.traverse_index + 1 }) p) },
             ⟨some (p ++ [it.index + 1]), 0⟩)
      | some none =>
        if it.index = (n.element.length + SIZE_MOD - 1) % SIZE_MOD then
          if sc = t.btree_size then
            match ascendWhile (fun _ => 0) (p.length + 1) root (some p) with
            | .error f => .error f
            | .ok root1 => .ok ({ t with search_count := sc, root := some root1 }, ⟨none, 0⟩)
          else
            let root1 := root.modify (fun m => { m with traverse_index := 0 }) p
            match parentOf p with
            | none => .error .nullDeref
            | some q =>
              match root1.get? q with
              | none => .error .nullDeref
              | some pn =>
                .ok ({ t with search_count := sc, root := some root1 },
                     ⟨some q, pn.traverse_index⟩)
        else
          .ok ({ t with
                  search_count := sc
                  root := some (root.modify
                    (fun m => { m with traverse_index := m.traverse_index + 1 }) p) },
               ⟨some p, it.index + 1⟩)

/-- The pre-decrement `operator--` of `btree_iterator` (lines 127-153); the one of
`const_btree_iterator` (lines 217-243) reaches the same states. -/
def btree_iterator.dec {T : Type} (t : btree T) (it : btree_iterator) :
    Except Fault (btree T × btree_iterator) :=
  let sc := t.search_count + 1
  match it.pointee, t.root with
  | none, _ => .error .nullDeref
  | some _, none => .error .nullDeref
  | some p, some root =>
    match root.get? p with
    | none => .error .nullDeref
    | some n =>
      match n.children[it.index]? with
      | none => .error .outOfRange
      | some (some _) =>
        .ok ({ t with
                search_count := sc
                root := some (root.modify
                  (fun m => { m with
                    traverse_index := (m.traverse_index + SIZE_MOD - 1) % SIZE_MOD }) p) },
             ⟨some (p ++ [it.index]), 0⟩)
      | some none =>
        if it.index = 0 then
          if sc = t.btree_size then
            match ascendWhile (fun m => m.element.length) (p.length + 1) root (some p) with
            | .error f => .error f
            | .ok root1 => .ok ({ t with search_count := sc, root := some root1 }, ⟨none, 0⟩)
          else
            let root1 := root.modify (fun m => { m with traverse_index := m.element.length }) p
            match parentOf p with
            | none => .error .nullDeref
            | some q =>
              match root1.get? q with
              | none => .error .nullDeref
              | some pn =>
                .ok ({ t with search_count := sc, root := some root1 },
                     ⟨some q, pn.traverse_index⟩)
        else
          .ok ({ t with
                  search_count := sc
                  root := some (root.modify
                    (fun m => { m with
                      traverse_index := (m.traverse_index + SIZE_MOD - 1) % SIZE_MOD }) p) },
               ⟨some p, it.index - 1⟩)

/-- The client loop `for (it = t.begin(); it != t.end(); ++it) out.push_back(*it)`,
one iteration per unit of fuel. -/
def forwardLoop {T : Type} :
    Nat → btree T → btree_iterator → List T → Except Fault (btree T × List T)
  | 0, _, _, _ => .error .outOfFuel
  | fuel + 1, t, it, out =>
    if it = btree.end_ then .ok (t, out)
    else
      match it.deref t with
      | .error f => .error f
      | .ok x =>
        match it.inc t with
        | .error f => .error f
        | .ok (t1, it1) => forwardLoop fuel t1 it1 (out ++ [x])

/-- The elements visited by stepping from `begin()` with `operator++` until the
cursor equals `end()`, with the tree the walk leaves behind. -/
def btree.forward {T : Type} (fuel : Nat) (t : btree T) : Except Fault (btree T × List T) :=
  match t.begin with
  | .error f => .error f
  | .ok (t1, it) => forwardLoop fuel t1 it []

/-- The adaptor `std::reverse_iterator<iterator>`: it holds the base cursor
`current`; `*r` decrements a copy of `current` and dereferences it, `++r` decrements
`current`, and two adaptors are equal when their bases are. -/
structure reverse_iterator where
  current : btree_iterator
  deriving DecidableEq, Repr

/-- The dereference `*r` of a reverse cursor: `tmp = current; --tmp; return *tmp`. -/
def reverse_iterator.deref {T : Type} (t : btree T) (r : reverse_iterator) :
    Except Fault (btree T × T) :=
  match r.current.dec t with
  | .error f => .error f
  | .ok (t1, tmp) =>
    match tmp.deref t1 with
    | .error f => .error f
    | .ok x => .ok (t1, x)

/-- The increment `++r` of a reverse cursor: `--current`. -/
def reverse_iterator.inc {T : Type} (t : btree T) (r : reverse_iterator) :
    Except Fault (btree T × reverse_iterator) :=
  match r.current.dec t with
  | .error f => .error f
  | .ok (t1, it) => .ok (t1, ⟨it⟩)

/-- The members `rbegin` and `crbegin` (lines 127-135). -/
def btree.rbegin {T : Type} (t : btree T) : Except Fault (btree T × reverse_iterator) :=
  match t.tail with
  | none => .error .nullDeref
  | some tl =>
    match t.node? tl with
    | none => .error .nullDeref
    | some n => .ok ({ t with search_count := 0 }, ⟨⟨some tl, n.element.length⟩⟩)

/-- The members `rend` and `crend` (lines 131, 136). -/
def btree.rend {T : Type} (t : btree T) : Except Fault (btree T × reverse_iterator) :=
  match t.begin with
  | .error f => .error f
  | .ok (t1, it) => .ok (t1, ⟨it⟩)

/-- The client loop `for (r = t.rbegin(); r != t.rend(); ++r) out.push_back(*r)`, one
iteration per unit of fuel; `rend()` is evaluated at every comparison. -/
def reverseLoop {T : Type} :
    Nat → btree T → reverse_iterator → List T → Except Fault (btree T × List T)
  | 0, _, _, _ => .error .outOfFuel
  | fuel + 1, t, r, out =>
    match t.rend with
    | .error f => .error f
    | .ok (t1, e) =>
      if r = e then .ok (t1, out)
      else
        match r.deref t1 with
        | .error f => .error f
        | .ok (t2, x) =>
          match r.inc t2 with
          | .error f => .error f
          | .ok (t3, r1) => reverseLoop fuel t3 r1 (out ++ [x])

/-- The elements visited by stepping a reverse cursor from `rbegin()` until it equals
`rend()`. -/
def btree.backward {T : Type} (fuel : Nat) (t : btree T) : Except Fault (btree T × List T) :=
  match t.rbegin with
  | .error f => .error f
  | .ok (t1, r) => reverseLoop fuel t1 r []

/-- The same walk with `rend()` evaluated once, before the loop. -/
def reverseLoopTo {T : Type} (e : reverse_iterator) :
    Nat → btree T → reverse_iterator → List T → Except Fault (btree T × List T)
  | 0, _, _, _ => .error .outOfFuel
  | fuel + 1, t, r, out =>
    if r = e then .ok (t, out)
    else
      match r.deref t with
      | .error f => .error f
      | .ok (t2, x) =>
        match r.inc t2 with
        | .error f => .error f
        | .ok (t3, r1) => reverseLoopTo e fuel t3 r1 (out ++ [x])

/-- The client code `e = t.rend(); for (r = t.rbegin(); r != e; ++r) out.push_back(*r)`. -/
def btree.backwardTo {T : Type} (fuel : Nat) (t : btree T) : Except Fault (btree T × List T) :=
  match t.rend with
  | .error f => .error f
  | .ok (t0, e) =>
    match t0.rbegin with
    | .error f => .error f
    | .ok (t1, r) => reverseLoopTo e fuel t1 r []

/-- The slots of a child vector that hold a node, numbered from `i`. -/
def occupiedFrom {T : Type} : Nat → List (Option (Node T)) → List Nat
  | _, [] => []
  | i, none :: cs => occupiedFrom (i + 1) cs
  | i, some _ :: cs => i :: occupiedFrom (i + 1) cs

/-- The loop `while (copy_queue.size() != 0)` of the copy constructor and of copy
assignment (lines 269-279 and 303-313), one pass per unit of fuel.  `src` is the root
of the tree being copied, the queue holds pointers into it, and the `second` fields
of the `insert` calls made so far are collected in `log`. -/
def copyWhile {T : Type} [LinearOrder T] (src : Option (Node T)) :
    Nat → List Path → btree T → List Bool → Except Fault (btree T × List Bool)
  | _, [], this, log => .ok (this, log)
  | 0, _ :: _, _, _ => .error .outOfFuel
  | fuel + 1, cur :: queue, this, log =>
    match src.bind (Node.get? cur) with
    | none => .error .nullDeref
    | some n =>
      match insertAll this n.element with
      | .error f => .error f
      | .ok (this1, bs) =>
        copyWhile src fuel
          (queue ++ (if n.full then (occupiedFrom 0 n.children).map (fun i => cur ++ [i]) else []))
          this1 (log ++ bs)

/-- The step budget of the copy loop: one pass per node of the source. -/
def copyFuel {T : Type} (src : Option (Node T)) : Nat :=
  match src with
  | none => 1
  | some r => r.weight

/-- The copy constructor `btree(const btree<T>& original)` (lines 264-280): the new
tree and the `second` field of every `insert` it made. -/
def btree.copy {T : Type} [LinearOrder T] (original : btree T) :
    Except Fault (btree T × List Bool) :=
  copyWhile original.root (copyFuel original.root) [[]]
    ⟨none, none, original.max_element, 0, 0⟩ []

/-- The right operand of an assignment: the assigned object itself, or another tree. -/
inductive Operand (T : Type) where
  | self
  | other (rhs : btree T)

/-- The copy assignment `operator=(const btree<T>& rhs)` (lines 294-316): the
assigned tree and the `second` field of every `insert` it made. -/
def btree.copyAssign {T : Type} [LinearOrder T] (this : btree T) :
    Operand T → Except Fault (btree T × List Bool)
  | .self => .ok (this, [])
  | .other rhs =>
    copyWhile rhs.root (copyFuel rhs.root) [[]]
      { this with
        root := none
        tail := none
        max_element := rhs.max_element
        btree_size := rhs.btree_size } []

/-- The move constructor `btree(btree<T>&& original)` (lines 282-292): the new tree
and the state it leaves `original` in. -/
def btree.move {T : Type} (original : btree T) : btree T × btree T :=
  (⟨original.root, original.tail, original.max_element, original.btree_size, 0⟩,
   { original with root := none, tail := none, max_element := 0, btree_size := 0 })

/-- The move assignment `operator=(btree<T>&& rhs)` (lines 318-334): the assigned
tree and, when `rhs` is another object, the state `rhs` is left in. -/
def btree.moveAssign {T : Type} (this : btree T) : Operand T → btree T × Option (btree T)
  | .self => (this, none)
  | .other rhs =>
    ({ this with
       root := rhs.root
       tail := rhs.tail
       max_element := rhs.max_element
       btree_size := rhs.btree_size },
     some { rhs with root := none, tail := none, max_element := 0, btree_size := 0 })

/-! ## Specification-level notions -/

/-- Two values of a node that agree on everything but what lies below its children:
same elements, capacity and traverse index, and the same child slots occupied. -/
def SameLocal {T : Type} (n n1 : Node T) : Prop :=
  n1.element = n.element ∧ n1.capacity = n.capacity ∧
  n1.traverse_index = n.traverse_index ∧
  n1.children.map Option.isSome = n.children.map Option.isSome

/-- The loop of `insert`, started at the root with `elem`, moves `cur` down to `P`: at
every node above `P` the scan stops at the slot the path takes, the node is full and
the element at that slot is greater than `elem`. -/
def Descends {T : Type} [LinearOrder T] (root : Node T) (elem : T) (P : Path) : Prop :=
  ∀ (p : Path) (i : Nat) (q : Path) (n : Node T), P = p ++ i :: q → root.get? p = some n →
    n.full = true ∧ (∃ y, n.element[i]? = some y ∧ elem < y) ∧
    ∀ (j : Nat) (y : T), j < i → n.element[j]? = some y → y < elem

/-- The scan of `n` for `elem` passes the first `k` elements: they are all smaller. -/
def Passes {T : Type} [LinearOrder T] (n : Node T) (elem : T) (k : Nat) : Prop :=
  ∀ (j : Nat) (y : T), j < k → n.element[j]? = some y → y < elem

/-- The scan of `n` for `elem` stops at `k`: the elements before `k` are smaller and
the element at `k`, when there is one, is greater. -/
def StopsAt {T : Type} [LinearOrder T] (n : Node T) (elem : T) (k : Nat) : Prop :=
  k ≤ n.element.length ∧ Passes n elem k ∧ ∀ y, n.element[k]? = some y → elem < y

/-- The four ways in which `insert` of `elem` into a tree with root `root` ends. -/
inductive InsertOutcome {T : Type} [LinearOrder T] (elem : T) (t : btree T) (root : Node T) :
    InsertResult T → Prop
  | found (P : Path) (n : Node T) (k : Nat) :
      Descends root elem P → root.get? P = some n → n.element[k]? = some elem →
      Passes n elem k →
      InsertOutcome elem t root ⟨t, ⟨some P, 0⟩, false⟩
  | dropped (P : Path) (n c : Node T) :
      Descends root elem P → root.get? P = some n → n.element.length = n.capacity →
      Passes n elem n.element.length → n.children[n.capacity]? = some (some c) →
      InsertOutcome elem t root ⟨t, ⟨none, 0⟩, false⟩
  | grown (P : Path) (n : Node T) (k : Nat) :
      Descends root elem P → root.get? P = some n → StopsAt n elem k →
      n.element.length ≠ n.capacity →
      InsertOutcome elem t root
        ⟨{ t with
            root := some (root.modify
              (fun n => { n with element := n.element.insertIdx k elem }) P)
            btree_size := t.btree_size + 1 },
         ⟨some P, k⟩, true⟩
  | attached (P : Path) (n : Node T) (k ret : Nat) (tl : Path) (tn : Node T) (back : T) :
      Descends root elem P → root.get? P = some n → StopsAt n elem k →
      n.element.length = n.capacity → n.children[k]? = some none →
      t.tail = some tl → root.get? tl = some tn → tn.element.getLast? = some back →
      InsertOutcome elem t root
        ⟨{ t with
            root := some (root.modify
              (fun n => { n with
                children := n.children.set k (some (Node.withElem elem t.max_element)) }) P)
            btree_size := t.btree_size + 1
            tail := if elem > back then some (P ++ [k]) else t.tail },
         ⟨some P, ret⟩, true⟩

/-- The trees reachable by `insert` calls from an empty tree of capacity `c`. -/
inductive Reachable {T : Type} [LinearOrder T] (c : Nat) : btree T → Prop
  | new : Reachable c (btree.new c)
  | insert (t : btree T) (elem : T) (r : InsertResult T) :
      Reachable c t → t.insert elem = .ok r → Reachable c r.tree

/-- The shape every node of a tree of capacity `c` has. -/
structure NodeOK {T : Type} (c : Nat) (n : Node T) : Prop where
  capacity_eq : n.capacity = c
  slots : n.children.length = c + 1
  nonempty : n.element ≠ []
  size_le : n.element.length ≤ c
  childless : n.element.length < c → ∀ s ∈ n.children, s = none
  fresh : n.traverse_index = 0

/-- The shape of a tree of capacity `c`: every node has the shape `NodeOK`, and
`tail` refers to a node of the tree exactly when there is a root. -/
structure Shape {T : Type} (c : Nat) (t : btree T) : Prop where
  max_element_eq : t.max_element = c
  search_count_eq : t.search_count = 0
  nodes : ∀ (root : Node T) (p : Path) (n : Node T),
    t.root = some root → root.get? p = some n → NodeOK c n
  tail_ok : ∀ root : Node T, t.root = some root →
    ∃ (tl : Path) (tn : Node T), t.tail = some tl ∧ root.get? tl = some tn
  tail_none : t.root = none → t.tail = none

/-- The search-tree ordering below a root: the elements of every node are strictly
increasing, and every element stored below child slot `i` of a node lies strictly
between the node's elements `i - 1` and `i`. -/
structure Ordered {T : Type} [LinearOrder T] (root : Node T) : Prop where
  sorted : ∀ (p : Path) (n : Node T), root.get? p = some n → n.element.Pairwise (· < ·)
  bounded : ∀ (p : Path) (i : Nat) (q : Path) (n m : Node T),
    root.get? p = some n → root.get? (p ++ i :: q) = some m →
    ∀ x ∈ m.element, (∀ y, n.element[i]? = some y → x < y) ∧
      ∀ (j : Nat) (y : T), j < i → n.element[j]? = some y → y < x

/-- A cursor that `find` may return for `x`: the end sentinel, or a position of the
tree that holds `x`. -/
def FindsOrEnd {T : Type} (root : Node T) (x : T) (it : btree_iterator) : Prop :=
  it = btree.end_ ∨
  ∃ (p : Path) (m : Node T), it.pointee = some p ∧ root.get? p = some m ∧
    m.element[it.index]? = some x

/-- The tree built by inserting the elements of `es` in order into an empty tree of
capacity `c` (the tree is left as it is should a call fail). -/
def build {T : Type} [LinearOrder T] (c : Nat) (es : List T) : btree T :=
  match insertAll (btree.new c) es with
  | .ok (t, _) => t
  | .error _ => btree.new c

/-- The state of the source object after the move assignment `this = std::move(src)`. -/
def btree.moveAssignSource {T : Type} (this : btree T) (src : Operand T) : btree T :=
  match this.moveAssign src with
  | (_, some rhs1) => rhs1
  | (this1, none) => this1

/-- The child in the last slot of a node of a tree of capacity `c` holds one element
and has no children: `insert` hangs it there and never enters it again. -/
def LastLeaf {T : Type} (c : Nat) (root : Node T) : Prop :=
  ∀ (p : Path) (m : Node T), root.get? (p ++ [c]) = some m →
    m.element.length = 1 ∧ ∀ s ∈ m.children, s = none

/-- The tree with root `r1` is a partial copy of the tree with root `r`: it has a node
at `p` exactly when `1 ≤ m p`, and that node holds the first `m p` elements of the
node of `r` at `p`. -/
structure PartialCopy {T : Type} (r r1 : Node T) (m : Path → Nat) : Prop where
  sub : ∀ (p : Path) (n1 : Node T), r1.get? p = some n1 →
    ∃ n, r.get? p = some n ∧ n1.element = n.element.take (m p) ∧ 1 ≤ m p ∧
      m p ≤ n.element.length
  sup : ∀ (p : Path) (n : Node T), r.get? p = some n → 1 ≤ m p → ∃ n1, r1.get? p = some n1

/-- The tree `t` under construction is a partial copy of the tree with root `r`, the
node at `p` holding the first `m p` elements of the original. -/
def CopyState {T : Type} (r : Node T) (t : btree T) (m : Path → Nat) : Prop :=
  match t.root with
  | none => ∀ p, m p = 0
  | some r1 => PartialCopy r r1 m

/-- The weight of the subtree a pointer refers to, 0 for a dangling pointer. -/
def weightAt {T : Type} (r : Node T) (p : Path) : Nat :=
  match r.get? p with
  | some n => n.weight
  | none => 0

/-- The weight of the subtrees a queue of pointers refers to. -/
def queueWeight {T : Type} (r : Node T) (queue : List Path) : Nat :=
  (queue.map (weightAt r)).sum

/-- The invariant of the copy loop between two passes: the nodes copied so far are
copied in full, the queue holds the roots of the subtrees still to be copied, each
once and each below a copied node. -/
structure QueueInv {T : Type} [LinearOrder T] (c : Nat) (r : Node T) (queue : List Path)
    (t : btree T) (m : Path → Nat) : Prop where
  reach : Reachable c t
  state : CopyState r t m
  done : ∀ (p : Path) (n : Node T), r.get? p = some n → m p = 0 ∨ m p = n.element.length
  pending : ∀ q ∈ queue, (∃ n, r.get? q = some n) ∧ m q = 0 ∧
    (q = [] ∨ ∃ (p0 : Path) (i0 : Nat), q = p0 ++ [i0] ∧ 1 ≤ m p0)
  nodup : queue.Nodup
  cover : ∀ (p : Path) (n : Node T), r.get? p = some n → m p = 0 → ∃ x ∈ queue, x <+: p
  start : t.root = none → queue = [[]]

/-- The cached `tail` of a tree with root `root`: it refers to a node of the tree whose
last element is at least every stored element, and it is the root unless the root is
full. -/
def TailMax {T : Type} [LinearOrder T] (c : Nat) (t : btree T) (root : Node T) : Prop :=
  ∃ (tl : Path) (tn : Node T) (back : T), t.tail = some tl ∧ root.get? tl = some tn ∧
    tn.element.getLast? = some back ∧ (∀ x ∈ root.elems, x ≤ back) ∧
    (tl = [] ∨ root.element.length = c)

/-- The elements of the node held by a child slot, none for an empty slot. -/
def slotElems {T : Type} : Option (Node T) → List T
  | none => []
  | some d => d.element

/-- The in-order sequence of a node whose children are leaves, from one of its
elements on: `es` are the node's elements from that element, `cs` the child slots
that follow it. -/
def afterSlot {T : Type} : List T → List (Option (Node T)) → List T
  | [], _ => []
  | e :: es, [] => e :: es
  | e :: es, c :: cs => e :: (slotElems c ++ afterSlot es cs)

/-- The in-order sequence of a node whose children are leaves: the elements under
slot 0, then each element of the node followed by the elements under the next slot. -/
def inorderShallow {T : Type} (root : Node T) : List T :=
  match root.children with
  | [] => root.element
  | c :: cs => slotElems c ++ afterSlot root.element cs

/-- A cursor and the tree it belongs to after a sequence of cursor operations, or the
fault the sequence ran into. -/
abbrev CursorState (T : Type) := Except Fault (btree T × btree_iterator)

/-- The client statement `++it`, applied to the state the statements before it gave. -/
def thenInc {T : Type} : CursorState T → CursorState T
  | .ok (t, it) => it.inc t
  | .error f => .error f

/-- The client statement `--it`, applied to the state the statements before it gave. -/
def thenDec {T : Type} : CursorState T → CursorState T
  | .ok (t, it) => it.dec t
  | .error f => .error f

/-- The client statement `it = t.begin()`, applied to the tree the statements before it
left. -/
def thenBegin {T : Type} : CursorState T → CursorState T
  | .ok (t, _) => t.begin
  | .error f => .error f

/-- The node and index a cursor state refers to and the element `*it`, when the
dereference is defined. -/
def CursorState.view {T : Type} : CursorState T → Option (Option Path × Nat × Option T)
  | .ok (t, it) =>
    some (it.pointee, it.index,
      match it.deref t with
      | .ok x => some x
      | .error _ => none)
  | .error _ => none

/-! ## The raw-pointer variant of `insert` (btree.cpp) -/

/-- The two members of the raw-pointer `Node` that `insert` of btree.cpp reads and
writes while it stays in one node: the array `__elem_`, allocated with
`new T[__max_size_]`, and the count `__occupied_size_`.  The declaration of the struct
is not among the sources; the array is a list of `__max_size_` values and the result
of the member `is_full()` is a parameter of the functions below. -/
structure RawNode (T : Type) where
  __elem_ : List T
  __occupied_size_ : Nat
  deriving DecidableEq, Repr

/-- The ways in which one pass of the `while (true)` loop of `insert` (btree.cpp, lines
363-408) over a node ends: `elem` found at index `i`; the node full and the loop
continued below slot `i`; `elem` stored at index `i` of the node. -/
inductive RawPass (T : Type) where
  | found (i : Nat)
  | descend (i : Nat)
  | inserted (node : RawNode T) (i : Nat)
  deriving DecidableEq, Repr

/-- The shift loop `for (size_t j = __occupied_size_ - 1; j >= i && j > 0; --j)
__elem_[j + 1] = __elem_[j];` (btree.cpp, lines 379-381), one iteration per unit of
fuel. -/
def rawShift {T : Type} (i : Nat) : Nat → Nat → List T → Except Fault (List T)
  | 0, _, _ => .error .outOfFuel
  | fuel + 1, j, arr =>
    if i ≤ j ∧ 0 < j then
      match arr[j]? with
      | none => .error .outOfRange
      | some x =>
        if j + 1 < arr.length then
          rawShift i fuel ((j + SIZE_MOD - 1) % SIZE_MOD) (arr.set (j + 1) x)
        else .error .outOfRange
    else .ok arr

/-- The scan `for (i = 0; i < tmp_->__occupied_size_; ++i)` of `insert` (btree.cpp,
lines 365-386), one iteration per unit of fuel: the pass ends with `elem` found, or
the loop is left with the array and the index `i` it reached. -/
def rawFor {T : Type} [LinearOrder T] (elem : T) (is_full : Bool) (occ : Nat) :
    Nat → Nat → List T → Except Fault (Sum Nat (List T × Nat))
  | 0, _, _ => .error .outOfFuel
  | fuel + 1, i, arr =>
    if i < occ then
      match arr[i]? with
      | none => .error .outOfRange
      | some y =>
        if y = elem then .ok (.inl i)
        else if y > elem then
          if is_full then .ok (.inr (arr, i))
          else
            match rawShift i (occ + 1) ((occ + SIZE_MOD - 1) % SIZE_MOD) arr with
            | .error f => .error f
            | .ok arr1 =>
              if i < arr1.length then .ok (.inr (arr1.set i elem, i))
              else .error .outOfRange
        else rawFor elem is_full occ fuel (i + 1) arr
    else .ok (.inr (arr, i))

/-- One pass of the `while (true)` loop of `insert` (btree.cpp, lines 363-408) over an
existing node: the scan, then the handling of the boundary cases. -/
def rawInsertNode {T : Type} [LinearOrder T] (elem : T) (is_full : Bool) (n : RawNode T) :
    Except Fault (RawPass T) :=
  match rawFor elem is_full n.__occupied_size_ (n.__occupied_size_ + 1) 0 n.__elem_ with
  | .error f => .error f
  | .ok (.inl i) => .ok (.found i)
  | .ok (.inr (arr, i)) =>
    if is_full then .ok (.descend i)
    else if n.__occupied_size_ = i then
      if i < arr.length then .ok (.inserted ⟨arr.set i elem, n.__occupied_size_ + 1⟩ i)
      else .error .outOfRange
    else .ok (.inserted ⟨arr, n.__occupied_size_ + 1⟩ i)

/-- The tree with root `root1` is the tree with root `root` in which the node at `P`,
not full, has gained `elem` at index `k`, its sorted position: every node is still at
its place, with the same capacity, traverse index and occupied child slots, and with
the same elements, the node at `P` apart. -/
def GrowsAt {T : Type} [LinearOrder T] (elem : T) (root root1 : Node T) (P : Path)
    (k : Nat) : Prop :=
  ∃ n, root.get? P = some n ∧ n.full = false ∧ StopsAt n elem k ∧
    (∀ (p : Path) (m : Node T), root.get? p = some m →
      ∃ m1, root1.get? p = some m1 ∧ m1.capacity = m.capacity ∧
        m1.traverse_index = m.traverse_index ∧
        m1.children.map Option.isSome = m.children.map Option.isSome ∧
        m1.element = if p = P then m.element.insertIdx k elem else m.element) ∧
    ∀ p : Path, root.get? p = none → root1.get? p = none

/-- The tree with root `root1` is the tree with root `root` in which the empty child
slot `k` of the full node at `P` has received a new node of capacity `cap` holding
`elem` alone: every node is still at its place, with the same elements, capacity and
traverse index and, slot `k` of the node at `P` apart, the same occupied child slots,
and the new node is the only new one. -/
def AttachesAt {T : Type} (elem : T) (cap : Nat) (root root1 : Node T) (P : Path)
    (k : Nat) : Prop :=
  ∃ n, root.get? P = some n ∧ n.full = true ∧ n.children[k]? = some none ∧
    root1.get? (P ++ [k]) = some (Node.withElem elem cap) ∧
    (∀ (p : Path) (m : Node T), root.get? p = some m →
      ∃ m1, root1.get? p = some m1 ∧ m1.element = m.element ∧ m1.capacity = m.capacity ∧
        m1.traverse_index = m.traverse_index ∧
        m1.children.map Option.isSome =
          if p = P then (m.children.map Option.isSome).set k true
          else m.children.map Option.isSome) ∧
    ∀ p : Path, root.get? p = none → p ≠ P ++ [k] → root1.get? p = none

/-- The change `insert` of `elem` makes to the nodes of a tree, taking `t` to `t1`, is in
one place: one node that is not full gains `elem`, or one empty child slot of a full
node receives a new node holding `elem`. -/
def ChangesOnePlace {T : Type} [LinearOrder T] (elem : T) (t t1 : btree T) : Prop :=
  ∃ (root root1 : Node T) (P : Path) (k : Nat), t.root = some root ∧ t1.root = some root1 ∧
    (GrowsAt elem root root1 P k ∨ AttachesAt elem t.max_element root root1 P k)

/-! ## Pointers, weights and stored elements -/

section Lemmas
variable {T : Type}

theorem Node.elems_eq (n : Node T) : n.elems = n.element ++ elemsSlots n.children := by
  cases n; simp [Node.elems]

theorem Node.weight_eq (n : Node T) :
    n.weight = 1 + n.element.length + weightSlots n.children := by
  cases n; simp [Node.weight]

theorem weightSlots_child : ∀ (cs : List (Option (Node T))) (i : Nat) (c : Node T),
    cs[i]? = some (some c) → c.weight ≤ weightSlots cs
  | [], i, c, h => by simp at h
  | none :: cs, 0, c, h => by simp at h
  | some d :: cs, 0, c, h => by
    simp at h; subst h; simp [weightSlots]
  | none :: cs, i + 1, c, h => by
    simp at h; simpa [weightSlots] using weightSlots_child cs i c h
  | some d :: cs, i + 1, c, h => by
    simp at h
    have := weightSlots_child cs i c h
    simp [weightSlots]; omega

theorem Node.weight_child (n c : Node T) (i : Nat) (h : n.children[i]? = some (some c)) :
    c.weight + n.element.length + 1 ≤ n.weight := by
  have := weightSlots_child n.children i c h
  rw [n.weight_eq]; omega

theorem Node.get?_nil (r : Node T) : r.get? [] = some r := rfl

theorem Node.get?_cons (r : Node T) (i : Nat) (p : Path) :
    r.get? (i :: p) = (r.children[i]?).join.bind (Node.get? p) := by
  rw [Node.get?]
  rcases h : r.children[i]? with _ | _ | c <;> simp [Option.join]

theorem Node.get?_append : ∀ (p q : Path) (r : Node T),
    r.get? (p ++ q) = (r.get? p).bind (Node.get? q)
  | [], q, r => by simp [Node.get?_nil]
  | i :: p, q, r => by
    simp only [List.cons_append, Node.get?_cons]
    rcases (r.children[i]?).join with _ | c
    · simp
    · simpa using Node.get?_append p q c

theorem Node.get?_snoc (p : Path) (i : Nat) (r n : Node T) (h : r.get? p = some n) :
    r.get? (p ++ [i]) = (n.children[i]?).join := by
  rw [Node.get?_append, h]
  simp [Node.get?_cons]
  rcases (n.children[i]?).join with _ | c <;> simp [Node.get?_nil]

theorem Node.get?_prefix (p q : Path) (r m : Node T) (h : r.get? (p ++ q) = some m) :
    ∃ n, r.get? p = some n ∧ n.get? q = some m := by
  rw [Node.get?_append] at h
  rcases hp : r.get? p with _ | n
  · simp [hp] at h
  · exact ⟨n, rfl, by simpa [hp] using h⟩

theorem mem_elemsSlots_of_child : ∀ (cs : List (Option (Node T))) (i : Nat) (c : Node T) (x : T),
    cs[i]? = some (some c) → x ∈ c.elems → x ∈ elemsSlots cs
  | [], i, c, x, h, _ => by simp at h
  | none :: cs, 0, c, x, h, _ => by simp at h
  | some d :: cs, 0, c, x, h, hx => by
    simp at h; subst h; simp [elemsSlots, hx]
  | none :: cs, i + 1, c, x, h, hx => by
    simp at h; simpa [elemsSlots] using mem_elemsSlots_of_child cs i c x h hx
  | some d :: cs, i + 1, c, x, h, hx => by
    simp at h
    simp [elemsSlots, mem_elemsSlots_of_child cs i c x h hx]

theorem Node.mem_elems_of_get? : ∀ (p : Path) (r n : Node T) (x : T),
    r.get? p = some n → x ∈ n.element → x ∈ r.elems
  | [], r, n, x, h, hx => by
    simp [Node.get?_nil] at h; subst h; rw [Node.elems_eq]; simp [hx]
  | i :: p, r, n, x, h, hx => by
    rw [Node.get?_cons] at h
    rcases hc : r.children[i]? with _ | _ | c
    · simp [hc] at h
    · simp [hc] at h
    · simp [hc] at h
      have := Node.mem_elems_of_get? p c n x h hx
      rw [Node.elems_eq]
      exact List.mem_append_right _ (mem_elemsSlots_of_child _ i c x hc this)

mutual
theorem Node.exists_of_mem_elems : ∀ (r : Node T) (x : T), x ∈ r.elems →
    ∃ (p : Path) (n : Node T), r.get? p = some n ∧ x ∈ n.element
  | ⟨es, cs, cap, ti⟩, x, h => by
    simp only [Node.elems, List.mem_append] at h
    rcases h with h | h
    · exact ⟨[], _, rfl, h⟩
    · obtain ⟨i, c, p, n, hc, hp, hx⟩ := exists_of_mem_elemsSlots cs x h
      refine ⟨i :: p, n, ?_, hx⟩
      rw [Node.get?_cons]; simp [hc, hp]
theorem exists_of_mem_elemsSlots : ∀ (cs : List (Option (Node T))) (x : T), x ∈ elemsSlots cs →
    ∃ (i : Nat) (c : Node T) (p : Path) (n : Node T),
      cs[i]? = some (some c) ∧ c.get? p = some n ∧ x ∈ n.element
  | [], x, h => by simp [elemsSlots] at h
  | none :: cs, x, h => by
    simp only [elemsSlots] at h
    obtain ⟨i, c, p, n, hc, hp, hx⟩ := exists_of_mem_elemsSlots cs x h
    exact ⟨i + 1, c, p, n, by simpa using hc, hp, hx⟩
  | some d :: cs, x, h => by
    simp only [elemsSlots, List.mem_append] at h
    rcases h with h | h
    · obtain ⟨p, n, hp, hx⟩ := Node.exists_of_mem_elems d x h
      exact ⟨0, d, p, n, by simp, hp, hx⟩
    · obtain ⟨i, c, p, n, hc, hp, hx⟩ := exists_of_mem_elemsSlots cs x h
      exact ⟨i + 1, c, p, n, by simpa using hc, hp, hx⟩
end

end Lemmas

/-! ## Updating a node in place -/

section Modify
variable {T : Type}

theorem Node.get?_cons_some {r n : Node T} {i : Nat} {p : Path}
    (h : r.get? (i :: p) = some n) :
    ∃ c, r.children[i]? = some (some c) ∧ c.get? p = some n := by
  rw [Node.get?] at h
  rcases hc : r.children[i]? with _ | _ | c
  · simp [hc] at h
  · simp [hc] at h
  · exact ⟨c, rfl, by simpa [hc] using h⟩

theorem Node.get?_cons_of_child {r c : Node T} {i : Nat} (p : Path)
    (hc : r.children[i]? = some (some c)) : r.get? (i :: p) = c.get? p := by
  rw [Node.get?]; simp [hc]

theorem Node.modify_cons (f : Node T → Node T) {r c : Node T} {i : Nat} (p : Path)
    (hc : r.children[i]? = some (some c)) :
    r.modify f (i :: p) = { r with children := r.children.set i (some (c.modify f p)) } := by
  rw [Node.modify]; simp [hc]

theorem map_isSome_set {α : Type} (cs : List (Option α)) (i : Nat) (a b : α)
    (h : cs[i]? = some (some a)) :
    (cs.set i (some b)).map Option.isSome = cs.map Option.isSome := by
  apply List.ext_getElem?
  intro j
  by_cases hj : i = j
  · subst hj
    have hlt : i < cs.length := by
      rcases List.getElem?_eq_some.1 h with ⟨hl, _⟩; exact hl
    have hlt2 : i < (cs.map Option.isSome).length := by simpa using hlt
    rw [List.map_set, List.getElem?_set_self hlt2]
    simp [List.getElem?_map, h]
  · simp [List.getElem?_map, List.getElem?_set_ne hj]

theorem SameLocal.refl (n : Node T) : SameLocal n n := ⟨rfl, rfl, rfl, rfl⟩

theorem Node.get?_modify_append (f : Node T → Node T) : ∀ (P q : Path) (r n0 : Node T),
    r.get? P = some n0 → (r.modify f P).get? (P ++ q) = (f n0).get? q
  | [], q, r, n0, h => by
    simp [Node.get?_nil] at h; subst h; rfl
  | i :: P, q, r, n0, h => by
    obtain ⟨c, hc, hP⟩ := Node.get?_cons_some h
    have hlt : i < r.children.length := by
      rcases List.getElem?_eq_some.1 hc with ⟨hl, _⟩; exact hl
    rw [Node.modify_cons f P hc, List.cons_append]
    have e1 : ({ r with children := r.children.set i (some (c.modify f P)) } : Node T).get?
        (i :: (P ++ q)) = (c.modify f P).get? (P ++ q) :=
      Node.get?_cons_of_child (P ++ q) (by simp [List.getElem?_set_self hlt])
    rw [e1]
    exact Node.get?_modify_append f P q c n0 hP

theorem Node.get?_modify_self (f : Node T → Node T) (P : Path) (r n0 : Node T)
    (h : r.get? P = some n0) : (r.modify f P).get? P = some (f n0) := by
  simpa [Node.get?_nil] using Node.get?_modify_append f P [] r n0 h

theorem Node.get?_modify_local (f : Node T → Node T) : ∀ (P p : Path) (r n0 : Node T),
    r.get? P = some n0 → ¬ P <+: p →
    (∀ n, r.get? p = some n → ∃ n1, (r.modify f P).get? p = some n1 ∧ SameLocal n n1) ∧
    (r.get? p = none → (r.modify f P).get? p = none)
  | [], p, r, n0, _, hp => absurd List.nil_prefix hp
  | i :: P, p, r, n0, h, hp => by
    obtain ⟨c, hc, hP⟩ := Node.get?_cons_some h
    have hlt : i < r.children.length := by
      rcases List.getElem?_eq_some.1 hc with ⟨hl, _⟩; exact hl
    rw [Node.modify_cons f P hc]
    cases p with
    | nil =>
      refine ⟨?_, by simp [Node.get?_nil]⟩
      intro n hn
      simp [Node.get?_nil] at hn; subst hn
      exact ⟨_, rfl, rfl, rfl, rfl, map_isSome_set _ _ _ _ hc⟩
    | cons j p =>
      by_cases hj : i = j
      · subst hj
        have hp1 : ¬ P <+: p := fun hpp => hp (by simpa [List.cons_prefix_cons] using hpp)
        have e1 : ({ r with children := r.children.set i (some (c.modify f P)) } : Node T).get? (i :: p)
            = (c.modify f P).get? p :=
          Node.get?_cons_of_child p (by simp [List.getElem?_set_self hlt])
        rw [e1, Node.get?_cons_of_child p hc]
        exact Node.get?_modify_local f P p c n0 hP hp1
      · have : ({ r with children := r.children.set i (some (c.modify f P)) } : Node T).get? (j :: p)
            = r.get? (j :: p) := by
          rw [Node.get?_cons, Node.get?_cons]; simp [List.getElem?_set_ne hj]
        rw [this]
        exact ⟨fun n hn => ⟨n, hn, SameLocal.refl n⟩, fun hn => hn⟩

theorem Node.get?_modify_local_inv (f : Node T → Node T) (P p : Path) (r n0 n1 : Node T)
    (h : r.get? P = some n0) (hp : ¬ P <+: p) (h1 : (r.modify f P).get? p = some n1) :
    ∃ n, r.get? p = some n ∧ SameLocal n n1 := by
  obtain ⟨ha, hb⟩ := Node.get?_modify_local f P p r n0 h hp
  rcases hn : r.get? p with _ | n
  · rw [hb hn] at h1; cases h1
  · obtain ⟨n2, h2, hs⟩ := ha n hn
    rw [h1] at h2; cases h2
    exact ⟨n, rfl, hs⟩

end Modify

/-! ## The four outcomes of `insert` -/

section InsertOutcomes
variable {T : Type}

/-- Hanging a node in an empty child slot keeps every node of the tree in place. -/
theorem Node.get?_attach_old (d : Node T) (P p : Path) (k : Nat) (r n m : Node T)
    (hP : r.get? P = some n) (hk : n.children[k]? = some none) (hp : r.get? p = some m) :
    ∃ m1, (r.modify (fun n => { n with children := n.children.set k (some d) }) P).get? p
        = some m1 ∧
      m1.element = m.element ∧ m1.capacity = m.capacity ∧
      m1.traverse_index = m.traverse_index ∧
      m1.children.length = m.children.length ∧
      (p ≠ P → m1.children.map Option.isSome = m.children.map Option.isSome) ∧
      (p = P → m1.children = m.children.set k (some d)) := by
  by_cases hpre : P <+: p
  · obtain ⟨q, rfl⟩ := hpre
    rw [Node.get?_modify_append _ P q r n hP]
    cases q with
    | nil =>
      simp only [List.append_nil] at hp
      rw [hP] at hp; cases hp
      exact ⟨_, rfl, rfl, rfl, rfl, by simp, fun h => absurd (by simp) h, fun _ => rfl⟩
    | cons j q =>
      rw [Node.get?_append, hP] at hp
      change n.get? (j :: q) = some m at hp
      obtain ⟨c, hc, hq⟩ := Node.get?_cons_some hp
      have hj : k ≠ j := by
        rintro rfl
        rw [hk] at hc; cases hc
      have e1 : ({ n with children := n.children.set k (some d) } : Node T).get? (j :: q)
          = c.get? q :=
        Node.get?_cons_of_child q (by simpa [List.getElem?_set_ne hj] using hc)
      rw [e1, hq]
      refine ⟨m, rfl, rfl, rfl, rfl, rfl, fun _ => rfl, fun h => ?_⟩
      have := congrArg List.length h
      simp at this
  · obtain ⟨m1, h1, hs⟩ := (Node.get?_modify_local _ P p r n hP hpre).1 m hp
    refine ⟨m1, h1, hs.1, hs.2.1, hs.2.2.1, ?_, fun _ => hs.2.2.2, fun h => ?_⟩
    · simpa using congrArg List.length hs.2.2.2
    · exact absurd (h ▸ List.prefix_refl _) hpre

theorem attach_ok [LinearOrder T] (elem : T) (t : btree T) (root : Node T) (cur : Path)
    (index ret : Nat) (n : Node T) (tl : Path) (tn : Node T)
    (hcur : root.get? cur = some n) (hslot : n.children[index]? = some none)
    (ht : t.tail = some tl) (htl : root.get? tl = some tn) (hne : tn.element ≠ []) :
    ∃ back, tn.element.getLast? = some back ∧
      attach elem t root cur index ret = .ok
        ⟨{ t with
            root := some (root.modify
              (fun n => { n with
                children := n.children.set index (some (Node.withElem elem t.max_element)) }) cur)
            btree_size := t.btree_size + 1
            tail := if elem > back then some (cur ++ [index]) else t.tail },
         ⟨some cur, ret⟩, true⟩ := by
  obtain ⟨m1, h1, he, -⟩ :=
    Node.get?_attach_old (Node.withElem elem t.max_element) cur tl index root n tn hcur hslot htl
  rcases hb : tn.element.getLast? with _ | back
  · exact absurd (List.getLast?_eq_none_iff.1 hb) hne
  · refine ⟨back, rfl, ?_⟩
    unfold attach
    simp only [ht, h1, he, hb]

theorem descends_snoc [LinearOrder T] (root n : Node T) (elem x : T) (cur : Path) (index : Nat)
    (hd : Descends root elem cur) (hcur : root.get? cur = some n) (hfull : n.full = true)
    (hx : n.element[index]? = some x) (hlt : elem < x) (hpass : Passes n elem index) :
    Descends root elem (cur ++ [index]) := by
  intro p i q m hsplit hp
  rcases List.eq_nil_or_concat q with rfl | ⟨q1, b, rfl⟩
  · have h2 : cur ++ [index] = p ++ [i] := hsplit
    obtain ⟨h3, h4⟩ := List.append_inj' h2 rfl
    subst h3
    simp only [List.cons.injEq, and_true] at h4
    subst h4
    rw [hcur] at hp; cases hp
    exact ⟨hfull, ⟨x, hx, hlt⟩, hpass⟩
  · have h2 : cur ++ [index] = (p ++ i :: q1) ++ [b] := by
      rw [hsplit]; simp
    obtain ⟨h3, -⟩ := List.append_inj' h2 rfl
    exact hd p i q1 m h3 hp

theorem insertFrom_outcome [LinearOrder T] (elem : T) (t : btree T) (root : Node T)
    (hshape : ∀ (p : Path) (n : Node T), root.get? p = some n →
      n.children.length = n.capacity + 1 ∧ n.element.length ≤ n.capacity)
    (htail : ∃ (tl : Path) (tn : Node T), t.tail = some tl ∧ root.get? tl = some tn ∧
      tn.element ≠ []) :
    ∀ (fuel : Nat) (cur : Path) (index : Nat) (n : Node T), root.get? cur = some n →
      index ≤ n.element.length → n.weight ≤ fuel + index → Descends root elem cur →
      Passes n elem index →
      ∃ r, insertFrom elem t root fuel cur index = .ok r ∧ InsertOutcome elem t root r := by
  obtain ⟨tl, tn, ht, htl, hne⟩ := htail
  intro fuel
  induction fuel with
  | zero =>
    intro cur index n _ hle hw _ _
    rw [n.weight_eq] at hw; omega
  | succ fuel ih =>
    intro cur index n hcur hle hw hd hpass
    obtain ⟨hslots, hcap⟩ := hshape cur n hcur
    by_cases hlt : index < n.element.length
    · obtain ⟨x, hx⟩ : ∃ x, n.element[index]? = some x :=
        ⟨n.element[index], List.getElem?_eq_getElem hlt⟩
      by_cases heq : elem = x
      · refine ⟨⟨t, ⟨some cur, 0⟩, false⟩, ?_, InsertOutcome.found cur n index hd hcur (heq ▸ hx) hpass⟩
        simp only [insertFrom, insertWhile, hcur, hlt, hx, heq, if_true]
      · by_cases hless : elem < x
        · cases hfull : n.full with
          | true =>
            have hidx : index < n.children.length := by omega
            rcases hslot : n.children[index]? with _ | _ | c
            · rw [List.getElem?_eq_none_iff] at hslot; omega
            · obtain ⟨back, hb, ha⟩ := attach_ok elem t root cur index 0 n tl tn hcur hslot ht htl hne
              refine ⟨_, ?_, InsertOutcome.attached cur n index 0 tl tn back hd hcur
                ⟨hle, hpass, fun y hy => by rw [hx] at hy; cases hy; exact hless⟩
                (by simpa [Node.full] using hfull) hslot ht htl hb⟩
              simp only [insertFrom, insertWhile, hcur, hlt, hx, heq, hless, hfull, hslot, ha,
                if_true, if_false]
            · have hc : root.get? (cur ++ [index]) = some c := by
                rw [Node.get?_snoc cur index root n hcur, hslot]; rfl
              have hwc := Node.weight_child n c index hslot
              obtain ⟨r, hr, ho⟩ := ih (cur ++ [index]) 0 c hc (Nat.zero_le _) (by omega)
                (descends_snoc root n elem x cur index hd hcur hfull hx hless hpass)
                (fun j y hj => absurd hj (Nat.not_lt_zero _))
              refine ⟨r, ?_, ho⟩
              rw [← hr]
              simp only [insertFrom, insertWhile, hcur, hlt, hx, heq, hless, hfull, hslot,
                if_true, if_false]
          | false =>
            refine ⟨_, ?_, InsertOutcome.grown cur n index hd hcur
              ⟨hle, hpass, fun y hy => by rw [hx] at hy; cases hy; exact hless⟩
              (by simpa [Node.full] using hfull)⟩
            simp only [insertFrom, insertWhile, hcur, hlt, hx, heq, hless, hfull, grow,
              if_true, if_false, Bool.false_eq_true]
        · have hxlt : x < elem := lt_of_le_of_ne (not_lt.1 hless) (fun h => heq h.symm)
          obtain ⟨r, hr, ho⟩ := ih cur (index + 1) n hcur (by omega) (by omega) hd
            (fun j y hj hy => by
              rcases Nat.lt_succ_iff_lt_or_eq.1 hj with h | h
              · exact hpass j y h hy
              · subst h; rw [hx] at hy; cases hy; exact hxlt)
          refine ⟨r, ?_, ho⟩
          rw [← hr]
          simp only [insertFrom, insertWhile, hcur, hlt, hx, heq, hless, if_true, if_false]
    · have hidx : index = n.element.length := by omega
      have hw1 : insertFrom elem t root (fuel + 1) cur index = insertAfter elem t root cur index := by
        simp only [insertFrom, insertWhile, hcur, hlt, if_false]
      rw [hw1]
      by_cases hc : index = n.capacity
      · have hlen : index < n.children.length := by omega
        rcases hslot : n.children[index]? with _ | _ | c
        · rw [List.getElem?_eq_none_iff] at hslot; omega
        · obtain ⟨back, hb, ha⟩ := attach_ok elem t root cur index index n tl tn hcur hslot ht htl hne
          refine ⟨_, ?_, InsertOutcome.attached cur n index index tl tn back hd hcur
            ⟨hle, hpass, fun y hy => ?_⟩ (by omega) hslot ht htl hb⟩
          · rw [← ha]
            simp only [insertAfter, hcur, hslot, if_pos hc]
          · rw [hidx] at hy; simp at hy
        · refine ⟨_, ?_, InsertOutcome.dropped cur n c hd hcur (by omega) (hidx ▸ hpass)
            (hc ▸ hslot)⟩
          simp only [insertAfter, hcur, hslot, if_pos hc]
      · refine ⟨_, ?_, InsertOutcome.grown cur n index hd hcur
          ⟨hle, hpass, fun y hy => ?_⟩ (by omega)⟩
        · simp only [insertAfter, hcur, if_neg hc, grow]
        · rw [hidx] at hy; simp at hy

end InsertOutcomes

/-! ## Nodes of the tree after an update -/

section AfterUpdate
variable {T : Type}

theorem Node.withElem_get? (elem : T) (c : Nat) (p : Path) (n : Node T)
    (h : (Node.withElem elem c).get? p = some n) : p = [] ∧ n = Node.withElem elem c := by
  cases p with
  | nil => simp [Node.get?_nil] at h; exact ⟨rfl, h.symm⟩
  | cons i p =>
    obtain ⟨d, hd, -⟩ := Node.get?_cons_some h
    simp only [Node.withElem, List.getElem?_replicate] at hd
    split at hd <;> cases hd

/-- An update that keeps the children of the node keeps every pointer valid. -/
theorem Node.get?_modify_keep (f : Node T → Node T) (hf : ∀ n, (f n).children = n.children)
    (P p : Path) (r n0 : Node T) (hP : r.get? P = some n0) :
    (∀ m, r.get? p = some m → ∃ m1, (r.modify f P).get? p = some m1 ∧
      (p = P → m1 = f m) ∧ (p ≠ P → SameLocal m m1)) ∧
    (r.get? p = none → (r.modify f P).get? p = none) := by
  by_cases hpre : P <+: p
  · obtain ⟨q, rfl⟩ := hpre
    rw [Node.get?_modify_append f P q r n0 hP, Node.get?_append, hP]
    cases q with
    | nil =>
      refine ⟨fun m hm => ?_, fun h => by cases h⟩
      have : n0 = m := by simpa [Node.get?_nil] using hm
      subst this
      exact ⟨_, rfl, fun _ => rfl, fun h => absurd (by simp) h⟩
    | cons j q =>
      have e : (f n0).get? (j :: q) = n0.get? (j :: q) := by
        rw [Node.get?_cons, Node.get?_cons, hf]
      rw [e]
      refine ⟨fun m hm => ⟨m, hm, fun h => ?_, fun _ => SameLocal.refl m⟩, fun h => h⟩
      have := congrArg List.length h
      simp at this
  · obtain ⟨ha, hb⟩ := Node.get?_modify_local f P p r n0 hP hpre
    refine ⟨fun m hm => ?_, hb⟩
    obtain ⟨m1, h1, hs⟩ := ha m hm
    exact ⟨m1, h1, fun h => absurd (h ▸ List.prefix_refl _) hpre, fun _ => hs⟩

theorem Node.get?_modify_keep_inv (f : Node T → Node T) (hf : ∀ n, (f n).children = n.children)
    (P p : Path) (r n0 m1 : Node T) (hP : r.get? P = some n0)
    (h1 : (r.modify f P).get? p = some m1) :
    ∃ m, r.get? p = some m ∧ (p = P → m1 = f m) ∧ (p ≠ P → SameLocal m m1) := by
  obtain ⟨ha, hb⟩ := Node.get?_modify_keep f hf P p r n0 hP
  rcases hm : r.get? p with _ | m
  · rw [hb hm] at h1; cases h1
  · obtain ⟨m2, h2, hs⟩ := ha m hm
    rw [h1] at h2; cases h2
    exact ⟨m, rfl, hs⟩

/-- The nodes of the tree after a childless node `d` is hung in an empty slot: the
new node, and the old ones in place. -/
theorem Node.get?_attach_new (d : Node T) (hd : ∀ (i : Nat) (p : Path), d.get? (i :: p) = none)
    (P p : Path) (k : Nat) (r n m1 : Node T)
    (hP : r.get? P = some n)
    (h1 : (r.modify (fun n => { n with children := n.children.set k (some d) }) P).get? p
        = some m1) :
    (p = P ++ [k] ∧ m1 = d) ∨
    ∃ m, r.get? p = some m ∧
      m1.element = m.element ∧ m1.capacity = m.capacity ∧
      m1.traverse_index = m.traverse_index ∧
      m1.children.length = m.children.length ∧
      (p ≠ P → m1.children.map Option.isSome = m.children.map Option.isSome) ∧
      (p = P → m1.children = m.children.set k (some d)) := by
  by_cases hpre : P <+: p
  · obtain ⟨q, rfl⟩ := hpre
    rw [Node.get?_modify_append _ P q r n hP] at h1
    cases q with
    | nil =>
      simp only [Node.get?_nil, Option.some.injEq] at h1
      subst h1
      refine Or.inr ⟨n, by simpa using hP, rfl, rfl, rfl, by simp, fun h => absurd (by simp) h,
        fun _ => rfl⟩
    | cons j q =>
      obtain ⟨c, hc, hq⟩ := Node.get?_cons_some h1
      by_cases hj : k = j
      · subst hj
        simp only at hc
        have hlt : k < n.children.length := by
          by_contra hge
          rw [List.set_eq_of_length_le (by omega)] at hc
          rw [List.getElem?_eq_none_iff.2 (by omega)] at hc
          cases hc
        rw [List.getElem?_set_self hlt] at hc
        cases hc
        cases q with
        | nil =>
          simp only [Node.get?_nil, Option.some.injEq] at hq
          exact Or.inl ⟨rfl, hq.symm⟩
        | cons i q => rw [hd] at hq; cases hq
      · simp only [List.getElem?_set_ne hj] at hc
        have e : r.get? (P ++ j :: q) = some m1 := by
          rw [Node.get?_append, hP]
          change n.get? (j :: q) = some m1
          rw [Node.get?_cons_of_child q hc, hq]
        refine Or.inr ⟨m1, e, rfl, rfl, rfl, rfl, fun _ => rfl, fun h => ?_⟩
        have := congrArg List.length h
        simp at this
  · obtain ⟨m, hm, hs⟩ := Node.get?_modify_local_inv _ P p r n m1 hP hpre h1
    refine Or.inr ⟨m, hm, hs.1, hs.2.1, hs.2.2.1, ?_, fun _ => hs.2.2.2, fun h => ?_⟩
    · simpa using congrArg List.length hs.2.2.2
    · exact absurd (h ▸ List.prefix_refl _) hpre

theorem Node.withElem_leaf (elem : T) (c : Nat) (i : Nat) (p : Path) :
    (Node.withElem elem c).get? (i :: p) = none := by
  rcases h : (Node.withElem elem c).get? (i :: p) with _ | n
  · rfl
  · have := (Node.withElem_get? elem c (i :: p) n h).1
    cases this

theorem Node.get?_attach_self (d : Node T) (P : Path) (k : Nat) (r n : Node T)
    (hP : r.get? P = some n) (hk : k < n.children.length) :
    (r.modify (fun n => { n with children := n.children.set k (some d) }) P).get? (P ++ [k])
      = some d := by
  rw [Node.get?_modify_append _ P [k] r n hP]
  rw [Node.get?_cons_of_child (c := d) [] (by simp [List.getElem?_set_self hk])]
  rfl

end AfterUpdate

/-! ## The shape of reachable trees, and totality of `insert` -/

section ShapeLemmas
variable {T : Type}

theorem NodeOK.of_sameLocal {c : Nat} {m m1 : Node T} (h : NodeOK c m) (hs : SameLocal m m1) :
    NodeOK c m1 := by
  obtain ⟨he, hcap, hti, hch⟩ := hs
  have hlen : m1.children.length = m.children.length := by
    simpa using congrArg List.length hch
  refine ⟨hcap.trans h.capacity_eq, hlen.trans h.slots, he ▸ h.nonempty, he ▸ h.size_le, ?_,
    hti.trans h.fresh⟩
  intro hlt s hs
  have h1 : s.isSome ∈ m1.children.map Option.isSome := List.mem_map_of_mem _ hs
  rw [hch] at h1
  obtain ⟨s0, hs0, e⟩ := List.mem_map.1 h1
  rw [h.childless (he ▸ hlt) s0 hs0] at e
  cases s with
  | none => rfl
  | some v => cases e

theorem NodeOK.withElem_ok (elem : T) {c : Nat} (hc : 1 ≤ c) : NodeOK c (Node.withElem elem c) := by
  refine ⟨rfl, by simp [Node.withElem], by simp [Node.withElem], by simpa [Node.withElem] using hc,
    ?_, rfl⟩
  intro _ s hs
  simp only [Node.withElem] at hs
  exact (List.mem_replicate.1 hs).2

theorem btree.insert_none [LinearOrder T] (t : btree T) (elem : T) (h : t.root = none) :
    t.insert elem = .ok
      ⟨{ t with
          root := some (Node.withElem elem t.max_element)
          tail := some []
          btree_size := t.btree_size + 1 },
       ⟨none, 0⟩, true⟩ := by
  simp only [btree.insert, h]

theorem btree.insert_some [LinearOrder T] (t : btree T) (elem : T) (root : Node T)
    (h : t.root = some root) :
    t.insert elem = insertFrom elem t root root.weight [] 0 := by
  simp only [btree.insert, h]

theorem descends_nil [LinearOrder T] (root : Node T) (elem : T) : Descends root elem [] := by
  intro p i q n h _
  cases p <;> cases h

theorem insert_outcome [LinearOrder T] {c : Nat} {t : btree T} (hs : Shape c t) (root : Node T)
    (h : t.root = some root) (elem : T) :
    ∃ r, t.insert elem = .ok r ∧ InsertOutcome elem t root r := by
  rw [btree.insert_some t elem root h]
  refine insertFrom_outcome elem t root ?_ ?_ root.weight [] 0 root rfl (Nat.zero_le _)
    (by omega) (descends_nil root elem) (fun j y hj => absurd hj (Nat.not_lt_zero _))
  · intro p n hp
    have := hs.nodes root p n h hp
    exact ⟨by rw [this.slots, this.capacity_eq], by rw [this.capacity_eq]; exact this.size_le⟩
  · obtain ⟨tl, tn, ht, htl⟩ := hs.tail_ok root h
    exact ⟨tl, tn, ht, htl, (hs.nodes root tl tn h htl).nonempty⟩

theorem Shape.grown_shape {c : Nat} {t : btree T} (hs : Shape c t) (root n : Node T) (P : Path)
    (k : Nat) (elem : T) (sz : Nat) (h : t.root = some root) (hP : root.get? P = some n)
    (hk : k ≤ n.element.length) (hfull : n.element.length ≠ n.capacity) :
    Shape c { t with
      root := some (root.modify (fun n => { n with element := n.element.insertIdx k elem }) P)
      btree_size := sz } := by
  have hn := hs.nodes root P n h hP
  refine ⟨hs.max_element_eq, hs.search_count_eq, ?_, ?_, fun h => by cases h⟩
  · intro root1 p m1 hr hg
    cases hr
    obtain ⟨m, hm, h1, h2⟩ := Node.get?_modify_keep_inv
      (fun n => { n with element := n.element.insertIdx k elem }) (fun _ => rfl) P p root n m1 hP hg
    have hm0 := hs.nodes root p m h hm
    by_cases hp : p = P
    · subst hp
      rw [hP] at hm; cases hm
      rw [h1 rfl]
      have hlen := List.length_insertIdx k n.element hk (a := elem)
      refine ⟨hn.capacity_eq, hn.slots, ?_, ?_, ?_, hn.fresh⟩
      · intro he
        have := congrArg List.length he
        rw [hlen] at this
        simp at this
      · simp only [hlen]
        have := hn.size_le
        have := hn.capacity_eq
        omega
      · intro _
        apply hn.childless
        have := hn.size_le
        have := hn.capacity_eq
        omega
    · exact hm0.of_sameLocal (h2 hp)
  · intro root1 hr
    cases hr
    obtain ⟨tl, tn, ht, htl⟩ := hs.tail_ok root h
    obtain ⟨m1, hm1, -⟩ := (Node.get?_modify_keep
      (fun n => { n with element := n.element.insertIdx k elem }) (fun _ => rfl) P tl root n hP).1 tn htl
    exact ⟨tl, m1, ht, hm1⟩

theorem Shape.attached_shape {c : Nat} (hc : 1 ≤ c) {t : btree T} (hs : Shape c t) (root n : Node T)
    (P : Path) (k : Nat) (elem : T) (sz : Nat) (b : Bool) (h : t.root = some root)
    (hP : root.get? P = some n) (hfull : n.element.length = n.capacity)
    (hk : n.children[k]? = some none) :
    Shape c { t with
      root := some (root.modify
        (fun n => { n with
          children := n.children.set k (some (Node.withElem elem t.max_element)) }) P)
      btree_size := sz
      tail := if b then some (P ++ [k]) else t.tail } := by
  have hn := hs.nodes root P n h hP
  have hklt : k < n.children.length := by
    rcases List.getElem?_eq_some.1 hk with ⟨hl, _⟩; exact hl
  refine ⟨hs.max_element_eq, hs.search_count_eq, ?_, ?_, fun h => by cases h⟩
  · intro root1 p m1 hr hg
    cases hr
    rcases Node.get?_attach_new _ (Node.withElem_leaf elem t.max_element) P p k root n m1 hP hg
      with ⟨-, rfl⟩ | ⟨m, hm, he, hcap, hti, hlen, hne, heq⟩
    · rw [hs.max_element_eq]; exact NodeOK.withElem_ok elem hc
    · have hm0 := hs.nodes root p m h hm
      refine ⟨hcap.trans hm0.capacity_eq, hlen.trans hm0.slots, he ▸ hm0.nonempty,
        he ▸ hm0.size_le, ?_, hti.trans hm0.fresh⟩
      intro hlt s hsm
      by_cases hp : p = P
      · subst hp
        rw [hP] at hm; cases hm
        rw [he] at hlt
        have := hn.capacity_eq
        omega
      · have h1 : s.isSome ∈ m1.children.map Option.isSome := List.mem_map_of_mem _ hsm
        rw [hne hp] at h1
        obtain ⟨s0, hs0, e⟩ := List.mem_map.1 h1
        rw [hm0.childless (he ▸ hlt) s0 hs0] at e
        cases s with
        | none => rfl
        | some v => cases e
  · intro root1 hr
    cases hr
    cases b with
    | true => exact ⟨P ++ [k], _, rfl, Node.get?_attach_self _ P k root n hP hklt⟩
    | false =>
      obtain ⟨tl, tn, ht, htl⟩ := hs.tail_ok root h
      obtain ⟨m1, hm1, -⟩ := Node.get?_attach_old (Node.withElem elem t.max_element) P tl k
        root n tn hP hk htl
      exact ⟨tl, m1, ht, hm1⟩

theorem Shape.insert_shape [LinearOrder T] {c : Nat} (hc : 1 ≤ c) {t : btree T} (hs : Shape c t)
    (elem : T) (r : InsertResult T) (h : t.insert elem = .ok r) : Shape c r.tree := by
  rcases hroot : t.root with _ | root
  · rw [btree.insert_none t elem hroot] at h
    cases h
    refine ⟨hs.max_element_eq, hs.search_count_eq, ?_, ?_, fun h => by cases h⟩
    · intro root1 p n hr hg
      cases hr
      rw [(Node.withElem_get? _ _ p n hg).2, hs.max_element_eq]
      exact NodeOK.withElem_ok elem hc
    · intro root1 hr
      cases hr
      exact ⟨[], _, rfl, rfl⟩
  · obtain ⟨r1, hr1, ho⟩ := insert_outcome hs root hroot elem
    rw [h] at hr1; cases hr1
    cases ho with
    | found => exact hs
    | dropped => exact hs
    | grown P n k hd hP hstop hfull => exact hs.grown_shape root n P k elem _ hroot hP hstop.1 hfull
    | attached P n k ret tl tn back hd hP hstop hfull hk ht htl hb =>
      have := hs.attached_shape hc root n P k elem (t.btree_size + 1) (decide (elem > back)) hroot hP hfull hk
      simpa using this

theorem Shape.new_shape (c : Nat) : Shape c (btree.new c : btree T) :=
  ⟨rfl, rfl, (fun _ _ _ h => by cases h), (fun _ h => by cases h), (fun _ => rfl)⟩

theorem Reachable.shape [LinearOrder T] {c : Nat} (hc : 1 ≤ c) {t : btree T}
    (h : Reachable c t) : Shape c t := by
  induction h with
  | new => exact Shape.new_shape c
  | insert t elem r _ hins ih => exact ih.insert_shape hc elem r hins

/-- On a reachable tree `insert` runs to completion: no undefined behaviour and no
exhausted budget. -/
theorem Reachable.insert_ok [LinearOrder T] {c : Nat} (hc : 1 ≤ c) {t : btree T}
    (h : Reachable c t) (elem : T) : ∃ r, t.insert elem = .ok r := by
  rcases hroot : t.root with _ | root
  · exact ⟨_, btree.insert_none t elem hroot⟩
  · obtain ⟨r, hr, -⟩ := insert_outcome (h.shape hc) root hroot elem
    exact ⟨r, hr⟩

end ShapeLemmas

/-! ## The stored elements after an update, and the size counter -/

section Counting
variable {T : Type}

theorem elemsSlots_set_perm (l : List T) : ∀ (cs : List (Option (Node T))) (i : Nat)
    (c c1 : Node T), cs[i]? = some (some c) → List.Perm c1.elems (l ++ c.elems) →
    List.Perm (elemsSlots (cs.set i (some c1))) (l ++ elemsSlots cs)
  | [], i, c, c1, h, _ => by simp at h
  | none :: cs, 0, c, c1, h, _ => by simp at h
  | some d :: cs, 0, c, c1, h, hp => by
    simp only [List.getElem?_cons_zero, Option.some.injEq] at h
    subst h
    simp only [List.set_cons_zero, elemsSlots]
    rw [← List.append_assoc]
    exact hp.append_right _
  | none :: cs, i + 1, c, c1, h, hp => by
    simp only [List.getElem?_cons_succ] at h
    simpa only [List.set_cons_succ, elemsSlots] using elemsSlots_set_perm l cs i c c1 h hp
  | some d :: cs, i + 1, c, c1, h, hp => by
    simp only [List.getElem?_cons_succ] at h
    simp only [List.set_cons_succ, elemsSlots]
    refine ((elemsSlots_set_perm l cs i c c1 h hp).append_left d.elems).trans ?_
    rw [← List.append_assoc, ← List.append_assoc]
    exact List.perm_append_comm.append_right _

theorem elemsSlots_set_none_perm : ∀ (cs : List (Option (Node T))) (k : Nat) (d : Node T),
    cs[k]? = some none →
    List.Perm (elemsSlots (cs.set k (some d))) (d.elems ++ elemsSlots cs)
  | [], k, d, h => by simp at h
  | some c :: cs, 0, d, h => by simp at h
  | none :: cs, 0, d, _ => by simp only [List.set_cons_zero, elemsSlots]; exact List.Perm.refl _
  | none :: cs, k + 1, d, h => by
    simp only [List.getElem?_cons_succ] at h
    simpa only [List.set_cons_succ, elemsSlots] using elemsSlots_set_none_perm cs k d h
  | some c :: cs, k + 1, d, h => by
    simp only [List.getElem?_cons_succ] at h
    simp only [List.set_cons_succ, elemsSlots]
    refine ((elemsSlots_set_none_perm cs k d h).append_left c.elems).trans ?_
    rw [← List.append_assoc, ← List.append_assoc]
    exact List.perm_append_comm.append_right _

theorem Node.elems_modify_perm (f : Node T → Node T) (l : List T) : ∀ (P : Path) (r n0 : Node T),
    r.get? P = some n0 → List.Perm (f n0).elems (l ++ n0.elems) →
    List.Perm (r.modify f P).elems (l ++ r.elems)
  | [], r, n0, h, hp => by
    simp only [Node.get?_nil, Option.some.injEq] at h
    subst h
    exact hp
  | i :: P, r, n0, h, hp => by
    obtain ⟨c, hc, hP⟩ := Node.get?_cons_some h
    rw [Node.modify_cons f P hc, Node.elems_eq, r.elems_eq]
    refine ((elemsSlots_set_perm l r.children i c _ hc
      (Node.elems_modify_perm f l P c n0 hP hp)).append_left r.element).trans ?_
    rw [← List.append_assoc, ← List.append_assoc]
    exact List.perm_append_comm.append_right _

theorem elemsSlots_replicate_none (k : Nat) :
    elemsSlots (List.replicate k (none : Option (Node T))) = [] := by
  induction k with
  | zero => rfl
  | succ k ih => simpa [List.replicate_succ, elemsSlots] using ih

theorem Node.withElem_elems (elem : T) (c : Nat) : (Node.withElem elem c).elems = [elem] := by
  simp [Node.withElem, Node.elems, elemsSlots_replicate_none]

theorem Node.elems_grown_perm (P : Path) (r n : Node T) (k : Nat) (elem : T)
    (hP : r.get? P = some n) (hk : k ≤ n.element.length) :
    List.Perm (r.modify (fun n => { n with element := n.element.insertIdx k elem }) P).elems
      (elem :: r.elems) := by
  refine Node.elems_modify_perm _ [elem] P r n hP ?_
  rw [Node.elems_eq, n.elems_eq]
  exact (List.perm_insertIdx elem n.element hk).append_right _

theorem Node.elems_attached_perm (P : Path) (r n : Node T) (k : Nat) (elem : T) (c : Nat)
    (hP : r.get? P = some n) (hk : n.children[k]? = some none) :
    List.Perm
      (r.modify (fun n => { n with children := n.children.set k (some (Node.withElem elem c)) })
        P).elems
      (elem :: r.elems) := by
  refine Node.elems_modify_perm _ [elem] P r n hP ?_
  rw [Node.elems_eq, n.elems_eq]
  refine ((elemsSlots_set_none_perm n.children k (Node.withElem elem c) hk).append_left
    n.element).trans ?_
  rw [Node.withElem_elems]
  simp

/-- What one `insert` does to the stored elements and to the size counter. -/
theorem insert_effect [LinearOrder T] {c : Nat} {t : btree T} (hs : Shape c t) (elem : T)
    (r : InsertResult T) (h : t.insert elem = .ok r) :
    (r.second = false ∧ r.tree = t) ∨
    (r.second = true ∧ r.tree.btree_size = t.btree_size + 1 ∧
      List.Perm r.tree.elems (elem :: t.elems) ∧ r.tree.max_element = t.max_element) := by
  rcases hroot : t.root with _ | root
  · rw [btree.insert_none t elem hroot] at h
    cases h
    refine Or.inr ⟨rfl, rfl, ?_, rfl⟩
    simp [btree.elems, hroot, Node.withElem_elems]
  · obtain ⟨r1, hr1, ho⟩ := insert_outcome hs root hroot elem
    rw [h] at hr1; cases hr1
    cases ho with
    | found => exact Or.inl ⟨rfl, rfl⟩
    | dropped => exact Or.inl ⟨rfl, rfl⟩
    | grown P n k hd hP hstop hfull =>
      refine Or.inr ⟨rfl, rfl, ?_, rfl⟩
      simpa [btree.elems, hroot] using Node.elems_grown_perm P root n k elem hP hstop.1
    | attached P n k ret tl tn back hd hP hstop hfull hk ht htl hb =>
      refine Or.inr ⟨rfl, rfl, ?_, rfl⟩
      simpa [btree.elems, hroot] using
        Node.elems_attached_perm P root n k elem t.max_element hP hk

theorem insertAll_counts [LinearOrder T] {c : Nat} (hc : 1 ≤ c) :
    ∀ (es : List T) (t0 : btree T), Reachable c t0 →
    ∃ (t : btree T) (bs : List Bool), insertAll t0 es = .ok (t, bs) ∧ Reachable c t ∧
      bs.length = es.length ∧
      t.btree_size = t0.btree_size + bs.count true ∧
      t.elems.length = t0.elems.length + bs.count true
  | [], t0, h0 => ⟨t0, [], rfl, h0, rfl, rfl, rfl⟩
  | e :: es, t0, h0 => by
    obtain ⟨r, hr⟩ := h0.insert_ok hc e
    obtain ⟨t, bs, hall, hreach, hlen, hsize, helems⟩ :=
      insertAll_counts hc es r.tree (Reachable.insert t0 e r h0 hr)
    refine ⟨t, r.second :: bs, ?_, hreach, by simp [hlen], ?_, ?_⟩
    · simp only [insertAll, hr, hall]
    · rcases insert_effect (h0.shape hc) e r hr with ⟨hb, ht⟩ | ⟨hb, hsz, -, -⟩
      · rw [hsize, hb, ht]; simp
      · rw [hsize, hb, hsz]; simp; omega
    · rcases insert_effect (h0.shape hc) e r hr with ⟨hb, ht⟩ | ⟨hb, -, hp, -⟩
      · rw [helems, hb, ht]; simp
      · rw [helems, hb, hp.length_eq]; simp; omega

end Counting

/-! ## Claims -/

section Claims
variable {T : Type}

/-- C6: after any finite sequence of `insert` calls on an initially empty tree of
capacity at least 1, every call runs to completion, the size counter `btree_size`
equals the number of calls that returned `true`, and it equals the number of
elements stored across all nodes. -/
theorem size_counter_counts_true_inserts [LinearOrder T] (c : Nat) (hc : 1 ≤ c) (es : List T) :
    ∃ (t : btree T) (bs : List Bool), insertAll (btree.new c) es = .ok (t, bs) ∧
      bs.length = es.length ∧
      t.btree_size = bs.count true ∧ t.btree_size = t.elems.length := by
  obtain ⟨t, bs, hall, -, hlen, hsize, helems⟩ := insertAll_counts hc es (btree.new c) Reachable.new
  refine ⟨t, bs, hall, hlen, ?_, ?_⟩
  · simpa [btree.new] using hsize
  · rw [hsize, helems]; simp [btree.new, btree.elems]

/-- Witness for C6: capacity 1 and the calls `insert` of 10, 10, 11, 12. -/
theorem size_counter_counts_true_inserts_witness :
    ∃ (t : btree Nat) (bs : List Bool),
      insertAll (btree.new 1) [10, 10, 11, 12] = .ok (t, bs) ∧
      bs.length = [10, 10, 11, 12].length ∧
      t.btree_size = bs.count true ∧ t.btree_size = t.elems.length :=
  size_counter_counts_true_inserts 1 (by decide) [10, 10, 11, 12]

end Claims

/-! ## The search-tree ordering of reachable trees -/

section OrderedLemmas
variable {T : Type}

theorem path_cases : ∀ (P Q : Path), P = Q ∨ (∃ (i : Nat) (q : Path), Q = P ++ i :: q) ∨
    (∃ (i : Nat) (q : Path), P = Q ++ i :: q) ∨
    ∃ (s : Path) (i j : Nat) (q1 q2 : Path), i ≠ j ∧ P = s ++ i :: q1 ∧ Q = s ++ j :: q2
  | [], [] => Or.inl rfl
  | [], j :: q => Or.inr (Or.inl ⟨j, q, rfl⟩)
  | i :: P, [] => Or.inr (Or.inr (Or.inl ⟨i, P, rfl⟩))
  | i :: P, j :: Q => by
    by_cases hij : i = j
    · subst hij
      rcases path_cases P Q with h | ⟨a, q, h⟩ | ⟨a, q, h⟩ | ⟨s, a, b, q1, q2, hab, h1, h2⟩
      · exact Or.inl (by rw [h])
      · exact Or.inr (Or.inl ⟨a, q, by rw [h]; rfl⟩)
      · exact Or.inr (Or.inr (Or.inl ⟨a, q, by rw [h]; rfl⟩))
      · exact Or.inr (Or.inr (Or.inr ⟨i :: s, a, b, q1, q2, hab, by rw [h1]; rfl, by rw [h2]; rfl⟩))
    · exact Or.inr (Or.inr (Or.inr ⟨[], i, j, P, Q, hij, rfl, rfl⟩))

theorem sorted_insertIdx [LinearOrder T] (e : T) : ∀ (l : List T) (k : Nat), k ≤ l.length →
    l.Pairwise (· < ·) → (∀ (j : Nat) (y : T), j < k → l[j]? = some y → y < e) →
    (∀ y, l[k]? = some y → e < y) → (l.insertIdx k e).Pairwise (· < ·)
  | l, 0, _, hs, _, hafter => by
    rw [List.insertIdx_zero, List.pairwise_cons]
    refine ⟨?_, hs⟩
    cases l with
    | nil => intro b hb; cases hb
    | cons y l =>
      have hy : e < y := hafter y (by simp)
      intro b hb
      rcases List.mem_cons.1 hb with rfl | hb
      · exact hy
      · exact lt_trans hy ((List.pairwise_cons.1 hs).1 b hb)
  | [], k + 1, hk, _, _, _ => by simp at hk
  | y :: l, k + 1, hk, hs, hbefore, hafter => by
    rw [List.insertIdx_succ_cons, List.pairwise_cons]
    have hk1 : k ≤ l.length := by simpa using hk
    refine ⟨?_, sorted_insertIdx e l k hk1 (List.pairwise_cons.1 hs).2
      (fun j z hj hz => hbefore (j + 1) z (by omega) (by simpa using hz))
      (fun z hz => hafter z (by simpa using hz))⟩
    intro b hb
    rcases (List.mem_insertIdx hk1).1 hb with rfl | hb
    · exact hbefore 0 y (by omega) (by simp)
    · exact (List.pairwise_cons.1 hs).1 b hb

theorem sorted_getElem?_lt [LinearOrder T] {l : List T} (hs : l.Pairwise (· < ·)) {i j : Nat}
    {x y : T} (hij : i < j) (hx : l[i]? = some x) (hy : l[j]? = some y) : x < y := by
  obtain ⟨hi, rfl⟩ := List.getElem?_eq_some.1 hx
  obtain ⟨hj, rfl⟩ := List.getElem?_eq_some.1 hy
  exact (List.pairwise_iff_getElem.1 hs) i j hi hj hij

theorem Node.no_child_of_childless {n : Node T} (h : ∀ s ∈ n.children, s = none) (i : Nat)
    (q : Path) : n.get? (i :: q) = none := by
  rcases hg : n.get? (i :: q) with _ | m
  · rfl
  · obtain ⟨c, hc, -⟩ := Node.get?_cons_some hg
    have := h (some c) (List.getElem?_mem hc)
    cases this

theorem Ordered.withElem_ordered [LinearOrder T] (elem : T) (c : Nat) : Ordered (Node.withElem elem c) := by
  refine ⟨?_, ?_⟩
  · intro p n hp
    rw [(Node.withElem_get? elem c p n hp).2]
    simp [Node.withElem]
  · intro p i q n m hp hq
    have := (Node.withElem_get? elem c _ m hq).1
    cases p <;> cases this

theorem Ordered.grown_ordered [LinearOrder T] {c : Nat} {root : Node T} (ho : Ordered root)
    (hnodes : ∀ (p : Path) (n : Node T), root.get? p = some n → NodeOK c n)
    (elem : T) (P : Path) (n : Node T) (k : Nat)
    (hd : Descends root elem P) (hP : root.get? P = some n) (hstop : StopsAt n elem k)
    (hfull : n.element.length ≠ n.capacity) :
    Ordered (root.modify (fun n => { n with element := n.element.insertIdx k elem }) P) := by
  have hn := hnodes P n hP
  have hchildless : ∀ s ∈ n.children, s = none :=
    hn.childless (by have := hn.size_le; have := hn.capacity_eq; omega)
  refine ⟨?_, ?_⟩
  · intro p m1 hp
    obtain ⟨m, hm, h1, h2⟩ := Node.get?_modify_keep_inv
      (fun n => { n with element := n.element.insertIdx k elem }) (fun _ => rfl) P p root n m1 hP hp
    by_cases hpP : p = P
    · subst hpP
      rw [hP] at hm; cases hm
      rw [h1 rfl]
      exact sorted_insertIdx elem n.element k hstop.1 (ho.sorted p n hP) hstop.2.1 hstop.2.2
    · rw [(h2 hpP).1]; exact ho.sorted p m hm
  · intro p i q a1 m1 hp hq x hx
    obtain ⟨a, ha, ha1, ha2⟩ := Node.get?_modify_keep_inv
      (fun n => { n with element := n.element.insertIdx k elem }) (fun _ => rfl) P p root n a1 hP hp
    obtain ⟨m, hm, hm1, hm2⟩ := Node.get?_modify_keep_inv
      (fun n => { n with element := n.element.insertIdx k elem }) (fun _ => rfl) P (p ++ i :: q)
      root n m1 hP hq
    have hpP : p ≠ P := by
      rintro rfl
      rw [Node.get?_append, hP] at hm
      change n.get? (i :: q) = some m at hm
      rw [Node.no_child_of_childless hchildless] at hm
      cases hm
    rw [(ha2 hpP).1]
    by_cases hqP : p ++ i :: q = P
    · have hmn : m = n := by
        rw [← hqP, hm] at hP; exact Option.some.inj hP
      subst hmn
      rw [hm1 hqP] at hx
      rcases (List.mem_insertIdx hstop.1).1 hx with rfl | hx
      · obtain ⟨-, ⟨y, hy, hlt⟩, hpass⟩ := hd p i q a hqP.symm ha
        exact ⟨fun y1 hy1 => by rw [hy] at hy1; cases hy1; exact hlt, hpass⟩
      · exact ho.bounded p i q a m ha hm x hx
    · rw [(hm2 hqP).1] at hx
      exact ho.bounded p i q a m ha hm x hx

theorem Ordered.attached_ordered [LinearOrder T] {root : Node T} (ho : Ordered root)
    (elem : T) (c : Nat) (P : Path) (n : Node T) (k : Nat)
    (hd : Descends root elem P) (hP : root.get? P = some n) (hstop : StopsAt n elem k)
    (hk : n.children[k]? = some none) :
    Ordered (root.modify
      (fun n => { n with children := n.children.set k (some (Node.withElem elem c)) }) P) := by
  have hnew := Node.get?_attach_new (Node.withElem elem c) (Node.withElem_leaf elem c) P
  refine ⟨?_, ?_⟩
  · intro p m1 hp
    rcases hnew p k root n m1 hP hp with ⟨-, rfl⟩ | ⟨m, hm, he, -⟩
    · simp [Node.withElem]
    · rw [he]; exact ho.sorted p m hm
  · intro p i q a1 m1 hp hq x hx
    rcases hnew p k root n a1 hP hp with ⟨rfl, rfl⟩ | ⟨a, ha, hae, -⟩
    · exfalso
      rcases hnew _ k root n m1 hP hq with ⟨h1, -⟩ | ⟨m, hm, -⟩
      · have := congrArg List.length h1
        simp at this
      · rw [List.append_assoc, Node.get?_append, hP] at hm
        change n.get? (k :: (i :: q)) = some m at hm
        obtain ⟨d, hd1, -⟩ := Node.get?_cons_some hm
        rw [hk] at hd1; cases hd1
    · rw [hae]
      rcases hnew _ k root n m1 hP hq with ⟨h1, rfl⟩ | ⟨m, hm, hme, -⟩
      · have hxe : x = elem := by simpa [Node.withElem] using hx
        subst hxe
        rcases List.eq_nil_or_concat q with rfl | ⟨q1, b, rfl⟩
        · obtain ⟨h3, h4⟩ := List.append_inj' h1 rfl
          subst h3
          simp only [List.cons.injEq, and_true] at h4
          subst h4
          rw [hP] at ha; cases ha
          exact ⟨hstop.2.2, hstop.2.1⟩
        · have h2 : (p ++ i :: q1) ++ [b] = P ++ [k] := by rw [← h1]; simp
          obtain ⟨h3, -⟩ := List.append_inj' h2 rfl
          obtain ⟨-, ⟨y, hy, hlt⟩, hpass⟩ := hd p i q1 a h3.symm ha
          exact ⟨fun y1 hy1 => by rw [hy] at hy1; cases hy1; exact hlt, hpass⟩
      · rw [hme] at hx
        exact ho.bounded p i q a m ha hm x hx

theorem Reachable.ordered [LinearOrder T] {c : Nat} (hc : 1 ≤ c) {t : btree T}
    (h : Reachable c t) : ∀ root : Node T, t.root = some root → Ordered root := by
  induction h with
  | new => intro root hr; cases hr
  | insert t elem r hreach hins ih =>
    have hs := hreach.shape hc
    intro root1 hr1
    rcases hroot : t.root with _ | root
    · rw [btree.insert_none t elem hroot] at hins
      cases hins
      cases hr1
      exact Ordered.withElem_ordered elem _
    · obtain ⟨r1, hr, ho⟩ := insert_outcome hs root hroot elem
      rw [hins] at hr; cases hr
      have hord := ih root hroot
      cases ho with
      | found => exact ih root1 hr1
      | dropped => exact ih root1 hr1
      | grown P n k hd hP hstop hfull =>
        cases hr1
        exact hord.grown_ordered (fun p n hp => hs.nodes root p n hroot hp) elem P n k hd hP hstop hfull
      | attached P n k ret tl tn back hd hP hstop hfull hk ht htl hb =>
        cases hr1
        exact hord.attached_ordered elem _ P n k hd hP hstop hk

end OrderedLemmas

/-! ## Inserting a stored element -/

section StoredLemmas
variable {T : Type}

/-- Where the scan of `insert` stops with room for `elem`, `elem` is not stored. -/
theorem not_stored_of_insertion_point [LinearOrder T] {c : Nat} {root : Node T}
    (ho : Ordered root)
    (hnodes : ∀ (p : Path) (n : Node T), root.get? p = some n → NodeOK c n)
    (elem : T) (P : Path) (n : Node T) (k : Nat)
    (hd : Descends root elem P) (hP : root.get? P = some n) (hstop : StopsAt n elem k)
    (hfree : n.element.length ≠ n.capacity ∨
      (n.element.length = n.capacity ∧ n.children[k]? = some none)) :
    elem ∉ root.elems := by
  intro hmem
  obtain ⟨Pm, m, hm, hx⟩ := Node.exists_of_mem_elems root elem hmem
  obtain ⟨k1, hk1⟩ := List.getElem?_of_mem hx
  have hn := hnodes P n hP
  rcases path_cases P Pm with h | ⟨i, q, h⟩ | ⟨i, q, h⟩ | ⟨s, i, j, q1, q2, hij, h1, h2⟩
  · subst h
    rw [hP] at hm; cases hm
    rcases Nat.lt_trichotomy k1 k with hlt | heq | hgt
    · exact lt_irrefl _ (hstop.2.1 k1 elem hlt hk1)
    · subst heq; exact lt_irrefl _ (hstop.2.2 elem hk1)
    · have hklen : k < n.element.length := by
        rcases List.getElem?_eq_some.1 hk1 with ⟨hl, _⟩; omega
      have hy : n.element[k]? = some n.element[k] := List.getElem?_eq_getElem hklen
      exact lt_asymm (hstop.2.2 _ hy) (sorted_getElem?_lt (ho.sorted P n hP) hgt hy hk1)
  · subst h
    have hb := ho.bounded P i q n m hP hm elem hx
    have hchild : n.get? (i :: q) = some m := by
      rw [Node.get?_append, hP] at hm; exact hm
    rcases hfree with hnf | ⟨hfull, hslot⟩
    · have hchildless := hn.childless (by have := hn.size_le; have := hn.capacity_eq; omega)
      rw [Node.no_child_of_childless hchildless] at hchild
      cases hchild
    · obtain ⟨d, hd1, -⟩ := Node.get?_cons_some hchild
      have hilen : i < n.children.length := by
        rcases List.getElem?_eq_some.1 hd1 with ⟨hl, _⟩; exact hl
      have hik : i ≠ k := by
        rintro rfl
        rw [hslot] at hd1; cases hd1
      rcases Nat.lt_or_gt_of_ne hik with hlt | hgt
      · have hil : i < n.element.length := by have := hstop.1; omega
        have hy : n.element[i]? = some n.element[i] := List.getElem?_eq_getElem hil
        exact lt_asymm (hb.1 _ hy) (hstop.2.1 i _ hlt hy)
      · have hkl : k < n.element.length := by
          have := hn.slots; have := hn.capacity_eq; omega
        have hy : n.element[k]? = some n.element[k] := List.getElem?_eq_getElem hkl
        exact lt_asymm (hstop.2.2 _ hy) (hb.2 k _ hgt hy)
  · subst h
    obtain ⟨-, ⟨y, hy, hlt⟩, hpass⟩ := hd Pm i q m rfl hm
    rcases Nat.lt_trichotomy k1 i with hlt1 | heq | hgt
    · exact lt_irrefl _ (hpass k1 elem hlt1 hk1)
    · subst heq
      rw [hy] at hk1; cases hk1
      exact lt_irrefl _ hlt
    · exact lt_asymm hlt (sorted_getElem?_lt (ho.sorted Pm m hm) hgt hy hk1)
  · subst h1 h2
    obtain ⟨a, ha, -⟩ := Node.get?_prefix s (i :: q1) root n hP
    obtain ⟨-, ⟨y, hy, hlt⟩, hpass⟩ := hd s i q1 a rfl ha
    have hb := ho.bounded s j q2 a m ha hm elem hx
    rcases Nat.lt_or_gt_of_ne hij with hlt1 | hgt
    · exact lt_asymm hlt (hb.2 i y hlt1 hy)
    · have hjl : j < a.element.length := by
        rcases List.getElem?_eq_some.1 hy with ⟨hl, _⟩; omega
      have hy1 : a.element[j]? = some a.element[j] := List.getElem?_eq_getElem hjl
      exact lt_asymm (hb.1 _ hy1) (hpass j _ hgt hy1)

theorem insert_stored [LinearOrder T] {c : Nat} (hc : 1 ≤ c) {t : btree T}
    (h : Reachable c t) (elem : T) (hmem : elem ∈ t.elems) :
    ∃ r, t.insert elem = .ok r ∧ r.second = false ∧ r.tree = t := by
  have hs := h.shape hc
  rcases hroot : t.root with _ | root
  · simp [btree.elems, hroot] at hmem
  · have hmem1 : elem ∈ root.elems := by simpa [btree.elems, hroot] using hmem
    have hord := h.ordered hc root hroot
    have hnodes : ∀ (p : Path) (n : Node T), root.get? p = some n → NodeOK c n :=
      fun p n hp => hs.nodes root p n hroot hp
    obtain ⟨r, hr, ho⟩ := insert_outcome hs root hroot elem
    refine ⟨r, hr, ?_⟩
    cases ho with
    | found => exact ⟨rfl, rfl⟩
    | dropped => exact ⟨rfl, rfl⟩
    | grown P n k hd hP hstop hfull =>
      exact absurd hmem1
        (not_stored_of_insertion_point hord hnodes elem P n k hd hP hstop (Or.inl hfull))
    | attached P n k ret tl tn back hd hP hstop hfull hk ht htl hb =>
      exact absurd hmem1
        (not_stored_of_insertion_point hord hnodes elem P n k hd hP hstop (Or.inr ⟨hfull, hk⟩))

theorem reachable_of_insertAll [LinearOrder T] {c : Nat} : ∀ (es : List T) (t0 t : btree T)
    (bs : List Bool), Reachable c t0 → insertAll t0 es = .ok (t, bs) → Reachable c t
  | [], t0, t, bs, h0, h => by
    simp only [insertAll, Except.ok.injEq, Prod.mk.injEq] at h
    exact h.1 ▸ h0
  | e :: es, t0, t, bs, h0, h => by
    simp only [insertAll] at h
    rcases hr : t0.insert e with f | r
    · simp [hr] at h
    · simp only [hr] at h
      rcases hall : insertAll r.tree es with f | ⟨t1, bs1⟩
      · simp [hall] at h
      · simp only [hall, Except.ok.injEq, Prod.mk.injEq] at h
        rw [← h.1]
        exact reachable_of_insertAll es r.tree t1 bs1 (Reachable.insert t0 e r h0 hr) hall

end StoredLemmas

/-! ## `find` -/

section FindLemmas
variable {T : Type}

theorem Node.weight_le_of_get? : ∀ (p : Path) (r n : Node T), r.get? p = some n →
    n.weight ≤ r.weight
  | [], r, n, h => by
    simp only [Node.get?_nil, Option.some.injEq] at h
    rw [h]
  | i :: p, r, n, h => by
    obtain ⟨c, hc, hp⟩ := Node.get?_cons_some h
    have := Node.weight_le_of_get? p c n hp
    have := Node.weight_child r c i hc
    omega

theorem findFor_spec [LinearOrder T] (x : T) (root : Node T)
    (hshape : ∀ (p : Path) (n : Node T), root.get? p = some n →
      n.element.length < n.children.length) :
    ∀ (fuel : Nat) (cur : Path) (index : Nat) (loop : Bool) (n : Node T),
      root.get? cur = some n → n.weight ≤ fuel + min index n.element.length →
      (loop = true → index ≤ n.element.length) →
      ∃ out, findFor x root fuel cur index loop = .ok out ∧
        match out with
        | .inl it => FindsOrEnd root x it
        | .inr (cur1, index1, loop1) =>
          ∃ n1, root.get? cur1 = some n1 ∧ n1.weight ≤ n.weight ∧
            (loop1 = true → index1 = n1.element.length) := by
  intro fuel
  induction fuel with
  | zero =>
    intro cur index loop n _ hw _
    rw [n.weight_eq] at hw; omega
  | succ fuel ih =>
    intro cur index loop n hcur hw hloop
    by_cases hlt : index < n.element.length
    · obtain ⟨y, hy⟩ : ∃ y, n.element[index]? = some y :=
        ⟨n.element[index], List.getElem?_eq_getElem hlt⟩
      by_cases heq : x = y
      · refine ⟨.inl ⟨some cur, index⟩, ?_, Or.inr ⟨cur, n, rfl, hcur, heq ▸ hy⟩⟩
        simp only [findFor, hcur, hlt, hy, heq, if_true]
      · by_cases hless : x < y
        · have hidx : index < n.children.length := by have := hshape cur n hcur; omega
          rcases hslot : n.children[index]? with _ | _ | c
          · rw [List.getElem?_eq_none_iff] at hslot; omega
          · refine ⟨.inl btree.end_, ?_, Or.inl rfl⟩
            simp only [findFor, hcur, hlt, hy, heq, hless, hslot, if_true, if_false]
          · have hc : root.get? (cur ++ [index]) = some c := by
              rw [Node.get?_snoc cur index root n hcur, hslot]; rfl
            have hwc := Node.weight_child n c index hslot
            obtain ⟨out, hout, hspec⟩ := ih (cur ++ [index]) (index + 1) false c hc (by omega)
              (fun h => by cases h)
            refine ⟨out, ?_, ?_⟩
            · rw [← hout]
              simp only [findFor, hcur, hlt, hy, heq, hless, hslot, if_true, if_false]
            · rcases out with it | ⟨cur1, index1, loop1⟩
              · exact hspec
              · obtain ⟨n1, h1, h2, h3⟩ := hspec
                exact ⟨n1, h1, by omega, h3⟩
        · obtain ⟨out, hout, hspec⟩ := ih cur (index + 1) loop n hcur
            (by rw [Nat.min_eq_left (by omega)]; rw [Nat.min_eq_left (by omega)] at hw; omega)
            (fun _ => by omega)
          refine ⟨out, ?_, hspec⟩
          rw [← hout]
          simp only [findFor, hcur, hlt, hy, heq, hless, if_true, if_false]
    · refine ⟨.inr (cur, index, loop), ?_, n, hcur, le_refl _, fun h => ?_⟩
      · simp only [findFor, hcur, hlt, if_false]
      · have := hloop h; omega

theorem findWhile_spec [LinearOrder T] (x : T) (root : Node T)
    (hshape : ∀ (p : Path) (n : Node T), root.get? p = some n →
      n.element.length < n.children.length) :
    ∀ (fuel : Nat) (cur : Path) (n : Node T), root.get? cur = some n → n.weight ≤ fuel →
      ∃ it, findWhile x root fuel cur = .ok it ∧ FindsOrEnd root x it := by
  intro fuel
  induction fuel with
  | zero =>
    intro cur n _ hw
    rw [n.weight_eq] at hw; omega
  | succ fuel ih =>
    intro cur n hcur hw
    obtain ⟨out, hout, hspec⟩ := findFor_spec x root hshape root.weight cur 0 true n hcur
      (by have := Node.weight_le_of_get? cur root n hcur; omega) (fun _ => Nat.zero_le _)
    rcases out with it | ⟨cur1, index1, loop1⟩
    · refine ⟨it, ?_, hspec⟩
      simp only [findWhile, hout]
    · obtain ⟨n1, h1, h2, h3⟩ := hspec
      cases loop1 with
      | false =>
        by_cases hidx : index1 = n1.element.length
        · have hlen : index1 < n1.children.length := by have := hshape cur1 n1 h1; omega
          rcases hslot : n1.children[index1]? with _ | _ | c
          · rw [List.getElem?_eq_none_iff] at hslot; omega
          · exact ⟨btree.end_, by simp only [findWhile, hout, h1, if_pos hidx, hslot], Or.inl rfl⟩
          · refine ⟨btree.end_, ?_, Or.inl rfl⟩
            simp only [findWhile, hout, h1, if_pos hidx, hslot, Bool.false_eq_true, if_false]
        · refine ⟨btree.end_, ?_, Or.inl rfl⟩
          simp only [findWhile, hout, h1, if_neg hidx, Bool.false_eq_true, if_false]
      | true =>
        have hidx : index1 = n1.element.length := h3 rfl
        have hlen : index1 < n1.children.length := by have := hshape cur1 n1 h1; omega
        rcases hslot : n1.children[index1]? with _ | _ | c
        · rw [List.getElem?_eq_none_iff] at hslot; omega
        · exact ⟨btree.end_, by simp only [findWhile, hout, h1, if_pos hidx, hslot], Or.inl rfl⟩
        · have hc : root.get? (cur1 ++ [index1]) = some c := by
            rw [Node.get?_snoc cur1 index1 root n1 h1, hslot]; rfl
          have hwc := Node.weight_child n1 c index1 hslot
          obtain ⟨it, hit, hf⟩ := ih (cur1 ++ [index1]) c hc (by omega)
          refine ⟨it, ?_, hf⟩
          rw [← hit]
          simp only [findWhile, hout, h1, if_pos hidx, hslot, if_true]

/-- On a reachable non-empty tree `find` runs to completion and returns the end
sentinel or a position that holds the element looked for. -/
theorem find_spec [LinearOrder T] {c : Nat} (hc : 1 ≤ c) {t : btree T} (h : Reachable c t)
    (root : Node T) (hroot : t.root = some root) (x : T) :
    ∃ it, t.find x = .ok it ∧ FindsOrEnd root x it := by
  have hs := h.shape hc
  have := findWhile_spec x root (fun p n hp => by
    have hn := hs.nodes root p n hroot hp
    have := hn.slots; have := hn.size_le; omega) root.weight [] root rfl (le_refl _)
  simpa only [btree.find, hroot] using this

end FindLemmas

section ClaimsA
variable {T : Type}

theorem reachable_build [LinearOrder T] (c : Nat) (es : List T) : Reachable c (build c es) := by
  unfold build
  rcases h : insertAll (btree.new c) es with f | ⟨t, bs⟩
  · exact Reachable.new
  · exact reachable_of_insertAll es (btree.new c) t bs Reachable.new h

/-- C1 (the code breaks the claim): in the capacity-2 tree built from 1, 10, 5, 7, 3
every `insert` returns `true` and 3 is stored, yet the walk from `begin()` with
`operator++` never reaches `end()`: after 1, 5, 7, 10 (3 is skipped, `operator++`
enters a child at index 0 without descending to its leftmost node) the increment
reads `traverse_index` through the null parent of the root.  In the capacity-1 tree
built from 5, 1, 3 the walk indexes past the child vector, and in the capacity-1
tree built from 1, 2, 3 it visits only 1 and 2. -/
theorem forward_walk_breaks :
    (insertAll (btree.new 2) [1, 10, 5, 7, 3]).map Prod.snd
        = .ok [true, true, true, true, true] ∧
      3 ∈ (build 2 [1, 10, 5, 7, 3]).elems ∧
      ((build 2 [1, 10, 5, 7, 3]).forward 20).map Prod.snd = .error .nullDeref ∧
      ((build 1 [5, 1, 3]).forward 20).map Prod.snd = .error .outOfRange ∧
      ((build 1 [1, 2, 3]).forward 20).map Prod.snd = .ok [1, 2] := by
  refine ⟨rfl, by decide, rfl, rfl, rfl⟩

/-- C2 (the code breaks the claim): in the capacity-1 tree built from 1, 2 the root
is full and its last child slot is occupied; `insert(3)` moves `cur` to that child,
leaves the loop and returns `false`: the size counter stays 2 and 3 is not stored. -/
theorem insert_absent_dropped :
    3 ∉ (build 1 [1, 2]).elems ∧
      ((build 1 [1, 2]).insert 3).map
          (fun r => (r.second, r.tree.btree_size, r.tree.elems, r.first))
        = .ok (false, 2, [1, 2], btree.end_) := by
  refine ⟨by decide, rfl⟩

/-- C3: on every tree reachable by `insert` calls (capacity at least 1), `insert` of
an element equal to a stored one runs to completion, returns `false` in its second
field and leaves the tree as it was: same nodes with the same elements in the same
positions, same size counter, same tail. -/
theorem insert_stored_leaves_tree [LinearOrder T] (c : Nat) (hc : 1 ≤ c) (t : btree T)
    (h : Reachable c t) (elem : T) (hmem : elem ∈ t.elems) :
    ∃ r, t.insert elem = .ok r ∧ r.second = false ∧ r.tree = t :=
  insert_stored hc h elem hmem

/-- Witness for C3: capacity 1, `insert(10)` twice. -/
theorem insert_stored_leaves_tree_witness :
    ∃ r, (build 1 [10]).insert 10 = .ok r ∧ r.second = false ∧ r.tree = build 1 [10] :=
  insert_stored_leaves_tree 1 (by decide) (build 1 [10]) (reachable_build 1 [10]) 10 (by decide)

/-- C4 (the code breaks the claim): in the capacity-1 tree built from 5, 3 the
element 3 is stored in child slot 0 of the root, and `find(3)` returns the end
sentinel: after moving to the child the `for` loop goes on with index 1 and never
looks at the child's element 0.  In the capacity-3 tree built from
5, 3, 8, 1, 4, 7, 9, 2, 6 the stored elements 1, 4, 6 and 7 are not found either. -/
theorem find_stored_returns_end :
    3 ∈ (build 1 [5, 3]).elems ∧ (build 1 [5, 3]).find 3 = .ok btree.end_ ∧
      (∀ x ∈ [1, 4, 6, 7], x ∈ (build 3 [5, 3, 8, 1, 4, 7, 9, 2, 6]).elems) ∧
      [1, 4, 6, 7].map (build 3 [5, 3, 8, 1, 4, 7, 9, 2, 6]).find
        = [.ok btree.end_, .ok btree.end_, .ok btree.end_, .ok btree.end_] := by
  refine ⟨by decide, rfl, by decide, rfl⟩

/-- C5: on every non-empty tree reachable by `insert` calls (capacity at least 1),
`find` of an element equal to no stored element runs to completion and returns the
end sentinel. -/
theorem find_absent_returns_end [LinearOrder T] (c : Nat) (hc : 1 ≤ c) (t : btree T)
    (h : Reachable c t) (hne : t.elems ≠ []) (x : T) (hx : x ∉ t.elems) :
    t.find x = .ok btree.end_ := by
  rcases hroot : t.root with _ | root
  · simp [btree.elems, hroot] at hne
  · obtain ⟨it, hit, hf⟩ := find_spec hc h root hroot x
    rcases hf with rfl | ⟨p, m, -, hm, hidx⟩
    · exact hit
    · exfalso
      apply hx
      simpa [btree.elems, hroot] using Node.mem_elems_of_get? p root m x hm (List.getElem?_mem hidx)

/-- Witness for C5: `find(10)` in the capacity-3 tree built from
5, 3, 8, 1, 4, 7, 9, 2, 6. -/
theorem find_absent_returns_end_witness :
    (build 3 [5, 3, 8, 1, 4, 7, 9, 2, 6]).find 10 = .ok btree.end_ :=
  find_absent_returns_end 3 (by decide) (build 3 [5, 3, 8, 1, 4, 7, 9, 2, 6])
    (reachable_build 3 _) (by decide) 10 (by decide)

/-- C7 (the code breaks the claim): in the capacity-3 tree built from
5, 3, 8, 1, 4, 7, 9, 2, 6 the forward walk yields 1 to 9, and the walk of the
reverse cursor from `rbegin()` to `rend()` yields 9, 3, 1 only, whether `rend()` is
evaluated at every comparison or once: from the tail node `operator--` goes up to
the root at the index kept in its `traverse_index`, which is 0. -/
theorem reverse_walk_breaks :
    ((build 3 [5, 3, 8, 1, 4, 7, 9, 2, 6]).forward 20).map Prod.snd
        = .ok [1, 2, 3, 4, 5, 6, 7, 8, 9] ∧
      ((build 3 [5, 3, 8, 1, 4, 7, 9, 2, 6]).backward 20).map Prod.snd = .ok [9, 3, 1] ∧
      ((build 3 [5, 3, 8, 1, 4, 7, 9, 2, 6]).backwardTo 20).map Prod.snd = .ok [9, 3, 1] := by
  refine ⟨rfl, rfl, rfl⟩

/-- C9 (the code breaks the claim): copy assignment sets `btree_size` to the source's
counter and then re-inserts every element, each insert counting once more.  Assigning
the capacity-1 tree that holds 7 to an empty tree leaves the element 7 and a size
counter of 2. -/
theorem copy_assign_doubles_size :
    (build 1 [7]).btree_size = 1 ∧
      ((btree.new 1).copyAssign (.other (build 1 [7]))).map
          (fun p => (p.1.btree_size, p.1.elems)) = .ok (2, [7]) := by
  refine ⟨rfl, rfl⟩

/-- C10 (as stated, false): a move assignment of a tree to itself is guarded by
`this != &rhs` and leaves the tree, which is also the source, with its root and its
size counter. -/
theorem self_move_assign_keeps_source :
    ((build 1 [7]).moveAssignSource .self).root.isSome = true ∧
      ((build 1 [7]).moveAssignSource .self).btree_size = 1 ∧
      ((build 1 [7]).moveAssignSource .self).elems = [7] := by
  refine ⟨rfl, rfl, rfl⟩

/-- C10 (amended): move construction, and move assignment from a source that is
another object than the destination, give the destination the source's root, tail,
capacity and size counter, hence its stored elements, and leave the source with no
root, no tail and size counter 0; a move assignment of a tree to itself changes
nothing. -/
theorem move_transfers (original this rhs : btree T) :
    ((original.move).1.root = original.root ∧ (original.move).1.tail = original.tail ∧
      (original.move).1.max_element = original.max_element ∧
      (original.move).1.btree_size = original.btree_size ∧
      (original.move).1.elems = original.elems ∧
      (original.move).2.root = none ∧ (original.move).2.tail = none ∧
      (original.move).2.btree_size = 0) ∧
    ((this.moveAssign (.other rhs)).1.root = rhs.root ∧
      (this.moveAssign (.other rhs)).1.tail = rhs.tail ∧
      (this.moveAssign (.other rhs)).1.max_element = rhs.max_element ∧
      (this.moveAssign (.other rhs)).1.btree_size = rhs.btree_size ∧
      (this.moveAssign (.other rhs)).1.elems = rhs.elems ∧
      (this.moveAssignSource (.other rhs)).root = none ∧
      (this.moveAssignSource (.other rhs)).tail = none ∧
      (this.moveAssignSource (.other rhs)).btree_size = 0) ∧
    this.moveAssign .self = (this, none) :=
  ⟨⟨rfl, rfl, rfl, rfl, rfl, rfl, rfl, rfl⟩, ⟨rfl, rfl, rfl, rfl, rfl, rfl, rfl, rfl⟩, rfl⟩

end ClaimsA

/-! ## Further invariants of reachable trees -/

section MoreInvariants
variable {T : Type}

theorem descends_not_last [LinearOrder T] {c : Nat} {root : Node T}
    (hnodes : ∀ (p : Path) (n : Node T), root.get? p = some n → NodeOK c n)
    (elem : T) (p : Path) (n : Node T) (hd : Descends root elem (p ++ [c]))
    (hp : root.get? p = some n) : False := by
  obtain ⟨-, ⟨y, hy, -⟩, -⟩ := hd p c [] n rfl hp
  have := (hnodes p n hp).size_le
  rcases List.getElem?_eq_some.1 hy with ⟨hl, _⟩
  omega

theorem LastLeaf.withElem_lastLeaf (elem : T) (c : Nat) : LastLeaf c (Node.withElem elem c) := by
  intro p m hm
  have := (Node.withElem_get? elem c _ m hm).1
  cases p <;> cases this

theorem LastLeaf.grown_lastLeaf [LinearOrder T] {c : Nat} {root : Node T} (hl : LastLeaf c root)
    (hnodes : ∀ (p : Path) (n : Node T), root.get? p = some n → NodeOK c n)
    (elem : T) (P : Path) (n : Node T) (k : Nat)
    (hd : Descends root elem P) (hP : root.get? P = some n) :
    LastLeaf c (root.modify (fun n => { n with element := n.element.insertIdx k elem }) P) := by
  intro p m1 hp
  obtain ⟨m, hm, h1, h2⟩ := Node.get?_modify_keep_inv
    (fun n => { n with element := n.element.insertIdx k elem }) (fun _ => rfl) P (p ++ [c])
    root n m1 hP hp
  have hpP : p ++ [c] ≠ P := by
    rintro rfl
    obtain ⟨a, ha, -⟩ := Node.get?_prefix p [c] root n hP
    exact descends_not_last hnodes elem p a hd ha
  obtain ⟨he, -, -, hch⟩ := h2 hpP
  obtain ⟨hlen, hnone⟩ := hl p m hm
  refine ⟨by rw [he]; exact hlen, fun s hs => ?_⟩
  have h3 : s.isSome ∈ m1.children.map Option.isSome := List.mem_map_of_mem _ hs
  rw [hch] at h3
  obtain ⟨s0, hs0, e⟩ := List.mem_map.1 h3
  rw [hnone s0 hs0] at e
  cases s with
  | none => rfl
  | some v => cases e

theorem LastLeaf.attached_lastLeaf [LinearOrder T] {c : Nat} {root : Node T}
    (hl : LastLeaf c root)
    (hnodes : ∀ (p : Path) (n : Node T), root.get? p = some n → NodeOK c n)
    (elem : T) (P : Path) (n : Node T) (k : Nat)
    (hd : Descends root elem P) (hP : root.get? P = some n) :
    LastLeaf c (root.modify
      (fun n => { n with children := n.children.set k (some (Node.withElem elem c)) }) P) := by
  intro p m1 hp
  rcases Node.get?_attach_new (Node.withElem elem c) (Node.withElem_leaf elem c) P (p ++ [c]) k
    root n m1 hP hp with ⟨-, rfl⟩ | ⟨m, hm, he, -, -, -, hne, -⟩
  · exact ⟨rfl, fun s hs => (List.mem_replicate.1 hs).2⟩
  · have hpP : p ++ [c] ≠ P := by
      rintro rfl
      obtain ⟨a, ha, -⟩ := Node.get?_prefix p [c] root n hP
      exact descends_not_last hnodes elem p a hd ha
    obtain ⟨hlen, hnone⟩ := hl p m hm
    refine ⟨by rw [he]; exact hlen, fun s hs => ?_⟩
    have h3 : s.isSome ∈ m1.children.map Option.isSome := List.mem_map_of_mem _ hs
    rw [hne hpP] at h3
    obtain ⟨s0, hs0, e⟩ := List.mem_map.1 h3
    rw [hnone s0 hs0] at e
    cases s with
    | none => rfl
    | some v => cases e

theorem Reachable.lastLeaf [LinearOrder T] {c : Nat} (hc : 1 ≤ c) {t : btree T}
    (h : Reachable c t) : ∀ root : Node T, t.root = some root → LastLeaf c root := by
  induction h with
  | new => intro root hr; cases hr
  | insert t elem r hreach hins ih =>
    have hs := hreach.shape hc
    intro root1 hr1
    rcases hroot : t.root with _ | root
    · rw [btree.insert_none t elem hroot] at hins
      cases hins
      cases hr1
      rw [hs.max_element_eq]
      exact LastLeaf.withElem_lastLeaf elem c
    · obtain ⟨r1, hr, ho⟩ := insert_outcome hs root hroot elem
      rw [hins] at hr; cases hr
      have hnodes : ∀ (p : Path) (n : Node T), root.get? p = some n → NodeOK c n :=
        fun p n hp => hs.nodes root p n hroot hp
      cases ho with
      | found => exact ih root1 hr1
      | dropped => exact ih root1 hr1
      | grown P n k hd hP hstop hfull =>
        cases hr1
        exact (ih root hroot).grown_lastLeaf hnodes elem P n k hd hP
      | attached P n k ret tl tn back hd hP hstop hfull hk ht htl hb =>
        cases hr1
        rw [hs.max_element_eq]
        exact (ih root hroot).attached_lastLeaf hnodes elem P n k hd hP

theorem Reachable.size_eq [LinearOrder T] {c : Nat} (hc : 1 ≤ c) {t : btree T}
    (h : Reachable c t) : t.btree_size = t.elems.length := by
  induction h with
  | new => rfl
  | insert t elem r hreach hins ih =>
    rcases insert_effect (hreach.shape hc) elem r hins with ⟨-, ht⟩ | ⟨-, hsz, hp, -⟩
    · rw [ht]; exact ih
    · rw [hsz, hp.length_eq, ih]; rfl

/-- In an ordered tree an element is stored at one position only. -/
theorem stored_unique [LinearOrder T] {c : Nat} {root : Node T} (ho : Ordered root)
    (hnodes : ∀ (p : Path) (n : Node T), root.get? p = some n → NodeOK c n)
    (e : T) (p1 p2 : Path) (n1 n2 : Node T) (k1 k2 : Nat)
    (h1 : root.get? p1 = some n1) (h2 : root.get? p2 = some n2)
    (hk1 : n1.element[k1]? = some e) (hk2 : n2.element[k2]? = some e) :
    p1 = p2 ∧ k1 = k2 := by
  have above : ∀ (p : Path) (i : Nat) (q : Path) (a b : Node T) (ka kb : Nat),
      root.get? p = some a → root.get? (p ++ i :: q) = some b →
      a.element[ka]? = some e → b.element[kb]? = some e → False := by
    intro p i q a b ka kb ha hb hka hkb
    have hbd := ho.bounded p i q a b ha hb e (List.getElem?_mem hkb)
    rcases Nat.lt_trichotomy ka i with hlt | heq | hgt
    · exact lt_irrefl _ (hbd.2 ka e hlt hka)
    · subst heq; exact lt_irrefl _ (hbd.1 e hka)
    · have hil : i < a.element.length := by
        rcases List.getElem?_eq_some.1 hka with ⟨hl, _⟩; omega
      have hy : a.element[i]? = some a.element[i] := List.getElem?_eq_getElem hil
      exact lt_asymm (hbd.1 _ hy) (sorted_getElem?_lt (ho.sorted p a ha) hgt hy hka)
  have apart : ∀ (s : Path) (i j : Nat) (q1 q2 : Path) (b1 b2 : Node T) (ka kb : Nat), i < j →
      root.get? (s ++ i :: q1) = some b1 → root.get? (s ++ j :: q2) = some b2 →
      b1.element[ka]? = some e → b2.element[kb]? = some e → False := by
    intro s i j q1 q2 b1 b2 ka kb hij hb1 hb2 hka hkb
    obtain ⟨a, ha, ha2⟩ := Node.get?_prefix s (j :: q2) root b2 hb2
    obtain ⟨d, hd, -⟩ := Node.get?_cons_some ha2
    have hna := hnodes s a ha
    have hjl : j < a.children.length := by
      rcases List.getElem?_eq_some.1 hd with ⟨hl, _⟩; exact hl
    have hfull : ¬ a.element.length < c := fun hlt => by
      have := hna.childless hlt (some d) (List.getElem?_mem hd)
      cases this
    have hil : i < a.element.length := by have := hna.slots; omega
    have hy : a.element[i]? = some a.element[i] := List.getElem?_eq_getElem hil
    have hbd1 := ho.bounded s i q1 a b1 ha hb1 e (List.getElem?_mem hka)
    have hbd2 := ho.bounded s j q2 a b2 ha hb2 e (List.getElem?_mem hkb)
    exact lt_asymm (hbd1.1 _ hy) (hbd2.2 i _ hij hy)
  rcases path_cases p1 p2 with h | ⟨i, q, h⟩ | ⟨i, q, h⟩ | ⟨s, i, j, q1, q2, hij, e1, e2⟩
  · subst h
    rw [h1] at h2; cases h2
    refine ⟨rfl, ?_⟩
    rcases Nat.lt_trichotomy k1 k2 with hlt | heq | hgt
    · exact absurd (sorted_getElem?_lt (ho.sorted p1 n1 h1) hlt hk1 hk2) (lt_irrefl _)
    · exact heq
    · exact absurd (sorted_getElem?_lt (ho.sorted p1 n1 h1) hgt hk2 hk1) (lt_irrefl _)
  · subst h; exact (above p1 i q n1 n2 k1 k2 h1 h2 hk1 hk2).elim
  · subst h; exact (above p2 i q n2 n1 k2 k1 h2 h1 hk2 hk1).elim
  · subst e1 e2
    rcases Nat.lt_or_gt_of_ne hij with hlt | hgt
    · exact (apart s i j q1 q2 n1 n2 k1 k2 hlt h1 h2 hk1 hk2).elim
    · exact (apart s j i q2 q1 n2 n1 k2 k1 hgt h2 h1 hk2 hk1).elim

end MoreInvariants

/-! ## Re-inserting the elements of a tree: one element -/

section CopyStep
variable {T : Type}

theorem PartialCopy.full_complete {c : Nat} {r r1 : Node T} {m : Path → Nat}
    (hpc : PartialCopy r r1 m)
    (hnodes : ∀ (p : Path) (n : Node T), r.get? p = some n → NodeOK c n)
    (p : Path) (n1 : Node T) (h1 : r1.get? p = some n1) (hfull : n1.element.length = c) :
    ∃ n, r.get? p = some n ∧ n1.element = n.element ∧ n.element.length = c := by
  obtain ⟨n, hn, he, -, hle⟩ := hpc.sub p n1 h1
  have hlen := congrArg List.length he
  rw [List.length_take, hfull] at hlen
  have := (hnodes p n hn).size_le
  have hm : n.element.length ≤ m p := by omega
  exact ⟨n, hn, by rw [he, List.take_of_length_le hm], by omega⟩

theorem PartialCopy.descends [LinearOrder T] {c : Nat} {r r1 : Node T} {m : Path → Nat}
    (hpc : PartialCopy r r1 m)
    (hnodes : ∀ (p : Path) (n : Node T), r.get? p = some n → NodeOK c n)
    (hnodes1 : ∀ (p : Path) (n : Node T), r1.get? p = some n → NodeOK c n)
    (e : T) (P : Path) (nP : Node T) (hP : r1.get? P = some nP) (hd : Descends r1 e P) :
    Descends r e P := by
  intro p i q n hsplit hp
  subst hsplit
  obtain ⟨n1, h1, -⟩ := Node.get?_prefix p (i :: q) r1 nP hP
  obtain ⟨hfull, hy, hpass⟩ := hd p i q n1 rfl h1
  have hfull1 : n1.element.length = c := by
    have := (hnodes1 p n1 h1).capacity_eq
    simpa [Node.full, this] using hfull
  obtain ⟨n0, hn0, he, hlen⟩ := hpc.full_complete hnodes p n1 h1 hfull1
  rw [hp] at hn0; cases hn0
  rw [he] at hy hpass
  refine ⟨?_, hy, hpass⟩
  simp [Node.full, hlen, (hnodes p n hp).capacity_eq]

/-- The scan of `insert` for a stored element stays on the way to where it is stored. -/
theorem descends_prefix_of_stored [LinearOrder T] {r : Node T} (ho : Ordered r)
    (e : T) (P q : Path) (nq : Node T) (j : Nat) (hd : Descends r e P)
    (hq : r.get? q = some nq) (hj : nq.element[j]? = some e)
    (hvalid : ∃ n, r.get? P = some n) : P <+: q := by
  obtain ⟨n, hP⟩ := hvalid
  rcases path_cases P q with h | ⟨i, rest, h⟩ | ⟨i, rest, h⟩ | ⟨s, i, i2, q1, q2, hij, e1, e2⟩
  · exact h ▸ List.prefix_refl _
  · exact ⟨i :: rest, h.symm⟩
  · exfalso
    obtain ⟨-, ⟨y, hy, hlt⟩, hpass⟩ := hd q i rest nq h hq
    rcases Nat.lt_trichotomy j i with hlt1 | heq | hgt
    · exact lt_irrefl _ (hpass j e hlt1 hj)
    · subst heq
      rw [hy] at hj; cases hj
      exact lt_irrefl _ hlt
    · exact lt_asymm hlt (sorted_getElem?_lt (ho.sorted q nq hq) hgt hy hj)
  · exfalso
    subst e1 e2
    obtain ⟨a, ha, -⟩ := Node.get?_prefix s (i :: q1) r n hP
    obtain ⟨-, ⟨y, hy, hlt⟩, hpass⟩ := hd s i q1 a rfl ha
    have hb := ho.bounded s i2 q2 a nq ha hq e (List.getElem?_mem hj)
    rcases Nat.lt_or_gt_of_ne hij with hlt1 | hgt
    · exact lt_asymm hlt (hb.2 i y hlt1 hy)
    · have hjl : i2 < a.element.length := by
        rcases List.getElem?_eq_some.1 hy with ⟨hl, _⟩; omega
      have hy1 : a.element[i2]? = some a.element[i2] := List.getElem?_eq_getElem hjl
      exact lt_asymm (hb.1 _ hy1) (hpass i2 _ hgt hy1)

/-- The scan of a node above a stored element stops at the slot that leads to it. -/
theorem stop_slot_of_stored [LinearOrder T] {c : Nat} {r : Node T} (ho : Ordered r)
    (hnodes : ∀ (p : Path) (n : Node T), r.get? p = some n → NodeOK c n)
    (e : T) (P : Path) (i : Nat) (rest : Path) (n nq : Node T) (k : Nat)
    (hP : r.get? P = some n) (hq : r.get? (P ++ i :: rest) = some nq) (he : e ∈ nq.element)
    (hk : k ≤ n.element.length) (hpass : ∀ (j : Nat) (y : T), j < k → n.element[j]? = some y → y < e)
    (hstop : ∀ y, n.element[k]? = some y → e < y) : i = k := by
  have hb := ho.bounded P i rest n nq hP hq e he
  have hn := hnodes P n hP
  obtain ⟨a, ha, hchild⟩ := Node.get?_prefix P (i :: rest) r nq hq
  rw [hP] at ha; cases ha
  obtain ⟨d, hd, -⟩ := Node.get?_cons_some hchild
  have hil : i < n.children.length := by
    rcases List.getElem?_eq_some.1 hd with ⟨hl, _⟩; exact hl
  have hfull : ¬ n.element.length < c := fun hlt => by
    have := hn.childless hlt (some d) (List.getElem?_mem hd)
    cases this
  by_contra hne
  rcases Nat.lt_or_gt_of_ne hne with hlt | hgt
  · have hy : n.element[i]? = some n.element[i] := List.getElem?_eq_getElem (by omega)
    exact lt_asymm (hb.1 _ hy) (hpass i _ hlt hy)
  · have hkl : k < n.element.length := by have := hn.slots; omega
    have hy : n.element[k]? = some n.element[k] := List.getElem?_eq_getElem hkl
    exact lt_asymm (hstop _ hy) (hb.2 k _ hgt hy)

theorem PartialCopy.grown_copy {r r1 : Node T} {m : Path → Nat} (hpc : PartialCopy r r1 m)
    (q : Path) (nq n1 : Node T) (e : T) (hq : r.get? q = some nq) (h1 : r1.get? q = some n1)
    (he : nq.element[m q]? = some e) :
    PartialCopy r (r1.modify (fun n => { n with element := n.element.insertIdx (m q) e }) q)
      (Function.update m q (m q + 1)) := by
  have hlt : m q < nq.element.length := by
    rcases List.getElem?_eq_some.1 he with ⟨hl, _⟩; exact hl
  refine ⟨?_, ?_⟩
  · intro p n2 h2
    obtain ⟨n0, hn0, ha, hb⟩ := Node.get?_modify_keep_inv
      (fun n => { n with element := n.element.insertIdx (m q) e }) (fun _ => rfl) q p r1 n1 n2
      h1 h2
    obtain ⟨n, hn, hel, hm1, hm2⟩ := hpc.sub p n0 hn0
    by_cases hp : p = q
    · subst hp
      rw [hq] at hn; cases hn
      rw [h1] at hn0; cases hn0
      refine ⟨nq, hq, ?_, by simp, by simp; omega⟩
      rw [ha rfl]
      simp only [Function.update_same]
      have hlen : n1.element.length = m p := by
        rw [hel, List.length_take]; omega
      have : n1.element.insertIdx (m p) e = n1.element ++ [e] := by
        rw [← hlen]; exact List.insertIdx_length_self _ _
      rw [this, hel, List.take_succ, he]
      rfl
    · refine ⟨n, hn, ?_, ?_, ?_⟩
      · rw [(hb hp).1, hel, Function.update_noteq hp]
      · rw [Function.update_noteq hp]; exact hm1
      · rw [Function.update_noteq hp]; exact hm2
  · intro p n hn hm
    by_cases hp : p = q
    · subst hp
      exact ⟨_, Node.get?_modify_self _ p r1 n1 h1⟩
    · rw [Function.update_noteq hp] at hm
      obtain ⟨n0, hn0⟩ := hpc.sup p n hn hm
      obtain ⟨n2, h2, -⟩ := (Node.get?_modify_keep
        (fun n => { n with element := n.element.insertIdx (m q) e }) (fun _ => rfl) q p r1 n1
        h1).1 n0 hn0
      exact ⟨n2, h2⟩

theorem PartialCopy.attached_copy {r r1 : Node T} {m : Path → Nat} (hpc : PartialCopy r r1 m)
    (P : Path) (k : Nat) (nq n1 : Node T) (e : T) (c : Nat)
    (hq : r.get? (P ++ [k]) = some nq) (h1 : r1.get? P = some n1)
    (hk : n1.children[k]? = some none) (he : nq.element[0]? = some e) :
    PartialCopy r
      (r1.modify (fun n => { n with children := n.children.set k (some (Node.withElem e c)) }) P)
      (Function.update m (P ++ [k]) 1) := by
  have hkl : k < n1.children.length := by
    rcases List.getElem?_eq_some.1 hk with ⟨hl, _⟩; exact hl
  have hinvalid : r1.get? (P ++ [k]) = none := by
    rw [Node.get?_snoc P k r1 n1 h1, hk]; rfl
  refine ⟨?_, ?_⟩
  · intro p n2 h2
    rcases Node.get?_attach_new (Node.withElem e c) (Node.withElem_leaf e c) P p k r1 n1 n2 h1 h2
      with ⟨rfl, rfl⟩ | ⟨n0, hn0, hel, -⟩
    · refine ⟨nq, hq, ?_, by simp, ?_⟩
      · simp only [Function.update_same, Node.withElem]
        rw [List.take_one]
        cases hh : nq.element with
        | nil => rw [hh] at he; simp at he
        | cons y l => rw [hh] at he; simp at he; simp [he]
      · simp only [Function.update_same]
        rcases List.getElem?_eq_some.1 he with ⟨hl, _⟩; omega
    · have hp : p ≠ P ++ [k] := by
        rintro rfl
        rw [hinvalid] at hn0; cases hn0
      obtain ⟨n, hn, hel0, hm1, hm2⟩ := hpc.sub p n0 hn0
      refine ⟨n, hn, ?_, ?_, ?_⟩
      · rw [hel, hel0, Function.update_noteq hp]
      · rw [Function.update_noteq hp]; exact hm1
      · rw [Function.update_noteq hp]; exact hm2
  · intro p n hn hm
    by_cases hp : p = P ++ [k]
    · subst hp
      exact ⟨_, Node.get?_attach_self _ P k r1 n1 h1 hkl⟩
    · rw [Function.update_noteq hp] at hm
      obtain ⟨n0, hn0⟩ := hpc.sup p n hn hm
      obtain ⟨n2, h2, -⟩ := Node.get?_attach_old (Node.withElem e c) P p k r1 n1 n0 h1 hk hn0
      exact ⟨n2, h2⟩

end CopyStep

section CopyStepMain
variable {T : Type}

/-- Re-inserting the next element of the node at `q` into a partial copy stores it
where the original holds it. -/
theorem copy_step [LinearOrder T] {c : Nat} (hc : 1 ≤ c) {r : Node T}
    (hnodes : ∀ (p : Path) (n : Node T), r.get? p = some n → NodeOK c n)
    (ho : Ordered r) (hl : LastLeaf c r)
    {t : btree T} (ht : Reachable c t) (r1 : Node T) (hroot : t.root = some r1)
    (m : Path → Nat) (hpc : PartialCopy r r1 m)
    (q : Path) (nq : Node T) (e : T) (hq : r.get? q = some nq)
    (he : nq.element[m q]? = some e)
    (hcomplete : ∀ (p : Path) (n : Node T), r.get? p = some n → p ≠ q → 1 ≤ m p →
      m p = n.element.length)
    (hparent : m q = 0 → ∃ (p0 : Path) (i0 : Nat), q = p0 ++ [i0] ∧ 1 ≤ m p0) :
    ∃ (res : InsertResult T) (r2 : Node T), t.insert e = .ok res ∧ res.second = true ∧
      res.tree.root = some r2 ∧ PartialCopy r r2 (Function.update m q (m q + 1)) := by
  have hs1 := ht.shape hc
  have hnodes1 : ∀ (p : Path) (n : Node T), r1.get? p = some n → NodeOK c n :=
    fun p n hp => hs1.nodes r1 p n hroot hp
  obtain ⟨res, hres, hout⟩ := insert_outcome hs1 r1 hroot e
  have hjlt : m q < nq.element.length := by
    rcases List.getElem?_eq_some.1 he with ⟨h, _⟩; exact h
  have key : ∀ (P : Path) (n1 : Node T), Descends r1 e P → r1.get? P = some n1 →
      ∃ n, r.get? P = some n ∧ n1.element = n.element.take (m P) ∧ 1 ≤ m P ∧
        m P ≤ n.element.length ∧ P <+: q := by
    intro P n1 hd hP
    obtain ⟨n, hn, hel, hm1, hm2⟩ := hpc.sub P n1 hP
    exact ⟨n, hn, hel, hm1, hm2, descends_prefix_of_stored ho e P q nq (m q)
      (hpc.descends hnodes hnodes1 e P n1 hP hd) hq he ⟨n, hn⟩⟩
  have hchildfull : ∀ (P : Path) (i : Nat) (rest : Path) (n : Node T), r.get? P = some n →
      q = P ++ i :: rest → n.element.length = c := by
    intro P i rest n hn hqe
    rw [hqe] at hq
    obtain ⟨a, ha, hchild⟩ := Node.get?_prefix P (i :: rest) r nq hq
    rw [hn] at ha; cases ha
    obtain ⟨d, hd, -⟩ := Node.get?_cons_some hchild
    have hnn := hnodes P n hn
    by_contra hne
    have := hnn.childless (by have := hnn.size_le; omega) (some d) (List.getElem?_mem hd)
    cases this
  cases hout with
  | found P n1 k hd hP hk hpass =>
    exfalso
    obtain ⟨n, hn, hel, hm1, hm2, hpre⟩ := key P n1 hd hP
    have hklt : k < m P := by
      rcases List.getElem?_eq_some.1 hk with ⟨h, _⟩
      rw [hel, List.length_take] at h; omega
    have hk2 : n.element[k]? = some e := by
      have h3 := List.getElem?_take_of_lt (l := n.element) hklt
      rw [← hel] at h3
      rw [← h3]; exact hk
    obtain ⟨rfl, rfl⟩ := stored_unique ho hnodes e P q n nq k (m q) hn hq hk2 he
    exact lt_irrefl _ hklt
  | dropped P n1 c1 hd hP hfull hpass hchild =>
    exfalso
    obtain ⟨n, hn, hel, hm1, hm2, hpre⟩ := key P n1 hd hP
    have hcap1 := (hnodes1 P n1 hP).capacity_eq
    obtain ⟨n0, hn0, hel0, hlen0⟩ := hpc.full_complete hnodes P n1 hP (by omega)
    rw [hn] at hn0; cases hn0
    have hc1 : r1.get? (P ++ [c]) = some c1 := by
      rw [Node.get?_snoc P c r1 n1 hP, ← hcap1, hchild]; rfl
    obtain ⟨nc, hnc, -, hmc, -⟩ := hpc.sub (P ++ [c]) c1 hc1
    obtain ⟨rest, hrest⟩ := hpre
    cases rest with
    | nil =>
      rw [List.append_nil] at hrest; subst hrest
      rw [hq] at hn; cases hn
      exact lt_irrefl _ (hpass (m P) e (by rw [hel0]; exact hjlt) (by rw [hel0]; exact he))
    | cons i rest =>
      subst hrest
      have hik : i = n.element.length :=
        stop_slot_of_stored ho hnodes e P i rest n nq n.element.length hn hq
          (List.getElem?_mem he) (le_refl _) (by rw [← hel0]; exact hpass)
          (fun y hy => by simp at hy)
      rw [hlen0] at hik; subst hik
      obtain ⟨hone, hnone⟩ := hl P nc hnc
      cases rest with
      | nil =>
        rw [hnc] at hq; cases hq
        omega
      | cons b rest =>
        have : r.get? (P ++ i :: b :: rest) = none := by
          have e1 : P ++ i :: b :: rest = (P ++ [i]) ++ b :: rest := by simp
          rw [e1, Node.get?_append, hnc]
          exact Node.no_child_of_childless hnone b rest
        rw [this] at hq; cases hq
  | grown P n1 k hd hP hstop hnotfull =>
    obtain ⟨n, hn, hel, hm1, hm2, hpre⟩ := key P n1 hd hP
    obtain ⟨rest, hrest⟩ := hpre
    cases rest with
    | nil =>
      rw [List.append_nil] at hrest; subst hrest
      rw [hq] at hn; cases hn
      have hlen1 : n1.element.length = m P := by rw [hel, List.length_take]; omega
      have hkm : k = m P := by
        by_contra hne
        have hklt : k < m P := by have := hstop.1; omega
        have hy : nq.element[k]? = some nq.element[k] := List.getElem?_eq_getElem (by omega)
        have hy1 : n1.element[k]? = some nq.element[k] := by
          have h3 := List.getElem?_take_of_lt (l := nq.element) hklt
          rw [← hel] at h3
          rw [h3]; exact hy
        exact lt_asymm (hstop.2.2 _ hy1) (sorted_getElem?_lt (ho.sorted P nq hq) hklt hy he)
      subst hkm
      exact ⟨_, _, hres, rfl, rfl, hpc.grown_copy P nq n1 e hq hP he⟩
    | cons i rest =>
      exfalso
      have hlen := hchildfull P i rest n hn hrest.symm
      have hPq : P ≠ q := by
        intro h
        rw [← hrest] at h
        have := congrArg List.length h
        simp at this
      have hmP := hcomplete P n hn hPq hm1
      have hcap1 := (hnodes1 P n1 hP).capacity_eq
      apply hnotfull
      rw [hel, List.length_take, hcap1]; omega
  | attached P n1 k ret tl tn back hd hP hstop hfull hk htl htn hb =>
    obtain ⟨n, hn, hel, hm1, hm2, hpre⟩ := key P n1 hd hP
    have hcap1 := (hnodes1 P n1 hP).capacity_eq
    obtain ⟨n0, hn0, hel0, hlen0⟩ := hpc.full_complete hnodes P n1 hP (by omega)
    rw [hn] at hn0; cases hn0
    have hinvalid : r1.get? (P ++ [k]) = none := by
      rw [Node.get?_snoc P k r1 n1 hP, hk]; rfl
    obtain ⟨rest, hrest⟩ := hpre
    cases rest with
    | nil =>
      exfalso
      rw [List.append_nil] at hrest; subst hrest
      rw [hq] at hn; cases hn
      have := congrArg List.length hel
      rw [List.length_take] at this
      have := (hnodes1 P n1 hP).capacity_eq
      omega
    | cons i rest =>
      subst hrest
      have hik : i = k :=
        stop_slot_of_stored ho hnodes e P i rest n nq k hn hq (List.getElem?_mem he)
          (by rw [← hel0]; exact hstop.1) (by rw [← hel0]; exact hstop.2.1)
          (by rw [← hel0]; exact hstop.2.2)
      subst hik
      have hprefix_invalid : ∀ (x : Path) (y : Node T), r1.get? (P ++ i :: x) = some y → False := by
        intro x y hy
        have e1 : P ++ i :: x = (P ++ [i]) ++ x := by simp
        rw [e1] at hy
        obtain ⟨z, hz, -⟩ := Node.get?_prefix (P ++ [i]) x r1 y hy
        rw [hinvalid] at hz; cases hz
      have hm0 : m (P ++ i :: rest) = 0 := by
        by_contra hne
        obtain ⟨y, hy⟩ := hpc.sup _ nq hq (by omega)
        exact hprefix_invalid rest y hy
      have hrest : rest = [] := by
        rcases List.eq_nil_or_concat rest with h | ⟨rest1, b, h⟩
        · exact h
        · exfalso
          subst h
          obtain ⟨p0, i0, hp0, hmp0⟩ := hparent hm0
          have e1 : (P ++ i :: rest1) ++ [b] = p0 ++ [i0] := by rw [← hp0]; simp
          obtain ⟨e2, -⟩ := List.append_inj' e1 rfl
          subst e2
          have hq2 : r.get? ((P ++ i :: rest1) ++ [b]) = some nq := by simpa using hq
          obtain ⟨a, ha, -⟩ := Node.get?_prefix (P ++ i :: rest1) [b] r nq hq2
          obtain ⟨y, hy⟩ := hpc.sup _ a ha hmp0
          exact hprefix_invalid rest1 y hy
      subst hrest
      rw [hm0] at he ⊢
      exact ⟨_, _, hres, rfl, rfl, hpc.attached_copy P i nq n1 e t.max_element hq hP hk he⟩

end CopyStepMain

/-! ## Re-inserting the elements of a tree: one node -/

section CopyNode
variable {T : Type}

theorem CopyState.of_root {r r1 : Node T} {t : btree T} {m : Path → Nat}
    (h : CopyState r t m) (hroot : t.root = some r1) : PartialCopy r r1 m := by
  unfold CopyState at h
  rw [hroot] at h
  exact h

theorem CopyState.of_none {r : Node T} {t : btree T} {m : Path → Nat}
    (h : CopyState r t m) (hroot : t.root = none) : ∀ p, m p = 0 := by
  unfold CopyState at h
  rw [hroot] at h
  exact h

theorem CopyState.mk_root {r r1 : Node T} {t : btree T} {m : Path → Nat}
    (hroot : t.root = some r1) (h : PartialCopy r r1 m) : CopyState r t m := by
  unfold CopyState
  rw [hroot]
  exact h

/-- Re-inserting, in order, the elements of the node at `q` not yet copied stores
them all and completes the copy of that node. -/
theorem copy_node [LinearOrder T] {c : Nat} (hc : 1 ≤ c) {r : Node T}
    (hnodes : ∀ (p : Path) (n : Node T), r.get? p = some n → NodeOK c n)
    (ho : Ordered r) (hl : LastLeaf c r)
    (q : Path) (nq : Node T) (hq : r.get? q = some nq) :
    ∀ (l : List T) (t : btree T) (m : Path → Nat), Reachable c t → CopyState r t m →
      nq.element.drop (m q) = l → m q ≤ nq.element.length →
      (∀ (p : Path) (n : Node T), r.get? p = some n → p ≠ q → 1 ≤ m p → m p = n.element.length) →
      (m q = 0 → q = [] ∨ ∃ (p0 : Path) (i0 : Nat), q = p0 ++ [i0] ∧ 1 ≤ m p0) →
      (t.root = none → q = []) →
      ∃ (t1 : btree T) (bs : List Bool), insertAll t l = .ok (t1, bs) ∧
        (∀ b ∈ bs, b = true) ∧ Reachable c t1 ∧
        CopyState r t1 (Function.update m q nq.element.length) := by
  intro l
  induction l with
  | nil =>
    intro t m hreach hstate hdrop hle _ _ _
    have hlen : nq.element.length ≤ m q := by
      have := congrArg List.length hdrop
      simp at this; omega
    have hmq : m q = nq.element.length := by omega
    refine ⟨t, [], rfl, (fun b hb => by cases hb), hreach, ?_⟩
    rw [← hmq, Function.update_eq_self]
    exact hstate
  | cons e l ih =>
    intro t m hreach hstate hdrop hle hcomplete hparent hstart
    have hlt : m q < nq.element.length := by
      by_contra hge
      rw [List.drop_eq_nil_of_le (by omega)] at hdrop
      cases hdrop
    have he : nq.element[m q]? = some e := by
      rw [List.getElem?_eq_getElem hlt]
      have h1 := List.drop_eq_getElem_cons hlt
      rw [hdrop] at h1
      simp only [List.cons.injEq] at h1
      rw [h1.1]
    have hdrop1 : nq.element.drop (m q + 1) = l := by
      have h1 := List.drop_eq_getElem_cons hlt
      rw [hdrop] at h1
      simp only [List.cons.injEq] at h1
      exact h1.2.symm
    have hidem : Function.update (Function.update m q (m q + 1)) q nq.element.length
        = Function.update m q nq.element.length := Function.update_idem _ _ _
    have hnext : ∀ (res : InsertResult T), t.insert e = .ok res → res.second = true →
        CopyState r res.tree (Function.update m q (m q + 1)) → res.tree.root ≠ none →
        ∃ (t1 : btree T) (bs : List Bool), insertAll t (e :: l) = .ok (t1, bs) ∧
          (∀ b ∈ bs, b = true) ∧ Reachable c t1 ∧
          CopyState r t1 (Function.update m q nq.element.length) := by
      intro res hres hsec hst hroot2
      obtain ⟨t1, bs, hall, htrue, hreach1, hstate1⟩ :=
        ih res.tree (Function.update m q (m q + 1)) (Reachable.insert t e res hreach hres) hst
          (by simpa using hdrop1) (by simp; omega)
          (fun p n hn hp hm => by
            rw [Function.update_noteq hp] at hm ⊢
            exact hcomplete p n hn hp hm)
          (fun h0 => by simp at h0)
          (fun h0 => absurd h0 hroot2)
      refine ⟨t1, res.second :: bs, ?_, ?_, hreach1, hidem ▸ hstate1⟩
      · simp only [insertAll, hres, hall]
      · intro b hb
        rcases List.mem_cons.1 hb with rfl | hb
        · exact hsec
        · exact htrue b hb
    rcases hroot : t.root with _ | r1
    · have hq0 : q = [] := hstart hroot
      subst hq0
      have hm0 := hstate.of_none hroot
      have hnq : nq = r := by simpa [Node.get?_nil] using hq.symm
      subst hnq
      refine hnext _ (btree.insert_none t e hroot) rfl ?_ (by simp)
      refine CopyState.mk_root rfl ⟨?_, ?_⟩
      · intro p n1 hp
        obtain ⟨rfl, rfl⟩ := Node.withElem_get? e t.max_element p n1 hp
        refine ⟨nq, rfl, ?_, by simp, by simp; omega⟩
        rw [hm0] at he
        simp only [Function.update_same, Node.withElem, hm0]
        rw [List.take_one]
        cases hh : nq.element with
        | nil => rw [hh] at he; simp at he
        | cons y l2 => rw [hh] at he; simp at he; simp [he]
      · intro p n hn hm
        by_cases hp : p = []
        · subst hp; exact ⟨_, rfl⟩
        · rw [Function.update_noteq hp, hm0] at hm
          omega
    · have hpc := hstate.of_root hroot
      have hparent1 : m q = 0 → ∃ (p0 : Path) (i0 : Nat), q = p0 ++ [i0] ∧ 1 ≤ m p0 := by
        intro h0
        rcases hparent h0 with rfl | h
        · obtain ⟨-, -, -, h1, -⟩ := hpc.sub [] r1 rfl
          omega
        · exact h
      obtain ⟨res, r2, hres, hsec, hroot2, hpc2⟩ :=
        copy_step hc hnodes ho hl hreach r1 hroot m hpc q nq e hq he hcomplete hparent1
      exact hnext res hres hsec (CopyState.mk_root hroot2 hpc2) (by rw [hroot2]; simp)

end CopyNode

/-! ## Re-inserting the elements of a tree: the breadth-first loop -/

section CopyLoop
variable {T : Type}

theorem mem_occupiedFrom : ∀ (cs : List (Option (Node T))) (s i : Nat),
    i ∈ occupiedFrom s cs ↔ ∃ (k : Nat) (d : Node T), i = s + k ∧ cs[k]? = some (some d)
  | [], s, i => by simp [occupiedFrom]
  | none :: cs, s, i => by
    rw [occupiedFrom, mem_occupiedFrom cs (s + 1) i]
    constructor
    · rintro ⟨k, d, hi, hk⟩
      exact ⟨k + 1, d, by omega, by simpa using hk⟩
    · rintro ⟨k, d, hi, hk⟩
      cases k with
      | zero => simp at hk
      | succ k => exact ⟨k, d, by omega, by simpa using hk⟩
  | some x :: cs, s, i => by
    rw [occupiedFrom, List.mem_cons, mem_occupiedFrom cs (s + 1) i]
    constructor
    · rintro (rfl | ⟨k, d, hi, hk⟩)
      · exact ⟨0, x, rfl, by simp⟩
      · exact ⟨k + 1, d, by omega, by simpa using hk⟩
    · rintro ⟨k, d, hi, hk⟩
      cases k with
      | zero => exact Or.inl (by omega)
      | succ k => exact Or.inr ⟨k, d, by omega, by simpa using hk⟩

theorem nodup_occupiedFrom : ∀ (cs : List (Option (Node T))) (s : Nat),
    (occupiedFrom s cs).Nodup
  | [], s => by simp [occupiedFrom]
  | none :: cs, s => by rw [occupiedFrom]; exact nodup_occupiedFrom cs (s + 1)
  | some x :: cs, s => by
    rw [occupiedFrom, List.nodup_cons]
    refine ⟨fun h => ?_, nodup_occupiedFrom cs (s + 1)⟩
    obtain ⟨k, d, hi, -⟩ := (mem_occupiedFrom cs (s + 1) s).1 h
    omega

theorem weightAt_of_get? {r n : Node T} {p : Path} (h : r.get? p = some n) :
    weightAt r p = n.weight := by
  simp [weightAt, h]

theorem queueWeight_children (r nq : Node T) (q : Path) (hq : r.get? q = some nq) :
    ∀ (cs : List (Option (Node T))) (s : Nat), (∀ k, nq.children[s + k]? = cs[k]?) →
      queueWeight r ((occupiedFrom s cs).map (fun i => q ++ [i])) ≤ weightSlots cs
  | [], s, _ => by simp [occupiedFrom, queueWeight, weightSlots]
  | none :: cs, s, h => by
    rw [occupiedFrom, weightSlots]
    exact queueWeight_children r nq q hq cs (s + 1)
      (fun k => by have := h (k + 1); simpa [Nat.add_assoc, Nat.add_comm 1 k] using this)
  | some x :: cs, s, h => by
    rw [occupiedFrom, weightSlots]
    have ih := queueWeight_children r nq q hq cs (s + 1)
      (fun k => by have := h (k + 1); simpa [Nat.add_assoc, Nat.add_comm 1 k] using this)
    have hx : r.get? (q ++ [s]) = some x := by
      rw [Node.get?_snoc q s r nq hq]
      have := h 0
      simp only [Nat.add_zero, List.getElem?_cons_zero] at this
      rw [this]; rfl
    simp only [queueWeight, List.map_cons, List.sum_cons] at ih ⊢
    rw [weightAt_of_get? hx]
    omega

theorem QueueInv.step [LinearOrder T] {c : Nat} {r : Node T} {q : Path} {rest : List Path}
    {t t1 : btree T} {m : Path → Nat} (hinv : QueueInv c r (q :: rest) t m)
    (hnodes : ∀ (p : Path) (n : Node T), r.get? p = some n → NodeOK c n)
    (nq : Node T) (hq : r.get? q = some nq) (hreach1 : Reachable c t1)
    (hstate1 : CopyState r t1 (Function.update m q nq.element.length)) :
    QueueInv c r
      (rest ++ (if nq.full then (occupiedFrom 0 nq.children).map (fun i => q ++ [i]) else []))
      t1 (Function.update m q nq.element.length) := by
  have hnq := hnodes q nq hq
  have hlen : 1 ≤ nq.element.length := by
    have := hnq.nonempty
    cases h : nq.element with
    | nil => exact absurd h this
    | cons y l => simp
  obtain ⟨-, hmq0, -⟩ := hinv.pending q (List.mem_cons_self _ _)
  have hqrest : q ∉ rest := (List.nodup_cons.1 hinv.nodup).1
  have child_zero : ∀ (i : Nat) (n : Node T), r.get? (q ++ [i]) = some n → m (q ++ [i]) = 0 := by
    intro i n hn
    by_contra hne
    rcases hroot : t.root with _ | r1
    · exact hne (hinv.state.of_none hroot _)
    · have hpc := hinv.state.of_root hroot
      obtain ⟨n1, h1⟩ := hpc.sup _ n hn (by omega)
      obtain ⟨a, ha, -⟩ := Node.get?_prefix q [i] r1 n1 h1
      obtain ⟨-, -, -, h2, -⟩ := hpc.sub q a ha
      omega
  have hchildmem : ∀ x, x ∈ (if nq.full then (occupiedFrom 0 nq.children).map (fun i => q ++ [i])
      else []) → ∃ (i : Nat) (d : Node T), x = q ++ [i] ∧ r.get? x = some d := by
    intro x hx
    cases hfull : nq.full with
    | false => rw [hfull] at hx; simp at hx
    | true =>
      rw [hfull] at hx
      simp only [if_true, List.mem_map] at hx
      obtain ⟨i, hi, rfl⟩ := hx
      obtain ⟨k, d, hik, hk⟩ := (mem_occupiedFrom nq.children 0 i).1 hi
      have : i = k := by omega
      subst this
      exact ⟨i, d, rfl, by rw [Node.get?_snoc q i r nq hq, hk]; rfl⟩
  have hne_snoc : ∀ i : Nat, q ++ [i] ≠ q := by
    intro i h
    have := congrArg List.length h
    simp at this
  refine ⟨hreach1, hstate1, ?_, ?_, ?_, ?_, ?_⟩
  · intro p n hn
    by_cases hp : p = q
    · subst hp
      rw [hq] at hn; cases hn
      exact Or.inr (by simp)
    · rw [Function.update_noteq hp]; exact hinv.done p n hn
  · intro x hx
    rcases List.mem_append.1 hx with hx | hx
    · obtain ⟨hv, hm0, hpar⟩ := hinv.pending x (List.mem_cons_of_mem _ hx)
      have hxq : x ≠ q := fun h => hqrest (h ▸ hx)
      refine ⟨hv, by rw [Function.update_noteq hxq]; exact hm0, ?_⟩
      rcases hpar with h | ⟨p0, i0, h, hm⟩
      · exact Or.inl h
      · refine Or.inr ⟨p0, i0, h, ?_⟩
        by_cases hp : p0 = q
        · subst hp; simpa using hlen
        · rw [Function.update_noteq hp]; exact hm
    · obtain ⟨i, d, rfl, hd⟩ := hchildmem x hx
      refine ⟨⟨d, hd⟩, ?_, Or.inr ⟨q, i, rfl, by simpa using hlen⟩⟩
      rw [Function.update_noteq (hne_snoc i)]
      exact child_zero i d hd
  · refine List.nodup_append.2 ⟨(List.nodup_cons.1 hinv.nodup).2, ?_, ?_⟩
    · cases hfull : nq.full with
      | false => simp
      | true =>
        simp only [if_true]
        refine (nodup_occupiedFrom nq.children 0).map ?_
        intro a b hab
        simpa using hab
    · intro x hx1 hx2
      obtain ⟨i, d, rfl, hd⟩ := hchildmem x hx2
      obtain ⟨-, -, hpar⟩ := hinv.pending _ (List.mem_cons_of_mem _ hx1)
      rcases hpar with h | ⟨p0, i0, h, hm⟩
      · have := congrArg List.length h
        simp at this
      · obtain ⟨h1, -⟩ := List.append_inj' h rfl
        subst h1
        omega
  · intro p n hn hm
    have hpq : p ≠ q := by
      rintro rfl
      rw [Function.update_same] at hm; omega
    rw [Function.update_noteq hpq] at hm
    obtain ⟨x, hx, hpre⟩ := hinv.cover p n hn hm
    rcases List.mem_cons.1 hx with rfl | hx
    · obtain ⟨suffix, rfl⟩ := hpre
      cases suffix with
      | nil => exact absurd (by simp) hpq
      | cons i suffix =>
        obtain ⟨a, ha, hchild⟩ := Node.get?_prefix x (i :: suffix) r n hn
        rw [hq] at ha; cases ha
        obtain ⟨d, hd, -⟩ := Node.get?_cons_some hchild
        have hfull : nq.full = true := by
          have hc1 : ¬ nq.element.length < c := fun hlt => by
            have := hnq.childless hlt (some d) (List.getElem?_mem hd)
            cases this
          have := hnq.size_le
          simp [Node.full, hnq.capacity_eq]; omega
        refine ⟨x ++ [i], ?_, ⟨suffix, by simp⟩⟩
        rw [hfull]
        simp only [if_true]
        exact List.mem_append_right _ (List.mem_map.2
          ⟨i, (mem_occupiedFrom nq.children 0 i).2 ⟨i, d, by omega, hd⟩, rfl⟩)
    · exact ⟨x, List.mem_append_left _ hx, hpre⟩
  · intro hroot
    have := hstate1.of_none hroot q
    rw [Function.update_same] at this; omega

theorem copyWhile_spec [LinearOrder T] {c : Nat} (hc : 1 ≤ c) {r : Node T}
    (hnodes : ∀ (p : Path) (n : Node T), r.get? p = some n → NodeOK c n)
    (ho : Ordered r) (hl : LastLeaf c r) :
    ∀ (fuel : Nat) (queue : List Path) (t : btree T) (m : Path → Nat) (log : List Bool),
      QueueInv c r queue t m → queueWeight r queue ≤ fuel → (∀ b ∈ log, b = true) →
      t.btree_size = log.length →
      ∃ (t1 : btree T) (bs : List Bool) (m1 : Path → Nat),
        copyWhile (some r) fuel queue t log = .ok (t1, bs) ∧ (∀ b ∈ bs, b = true) ∧
        t1.btree_size = bs.length ∧ QueueInv c r [] t1 m1 := by
  intro fuel
  induction fuel with
  | zero =>
    intro queue t m log hinv hw hlog hsz
    cases queue with
    | nil => exact ⟨t, log, m, by simp only [copyWhile], hlog, hsz, hinv⟩
    | cons q rest =>
      exfalso
      obtain ⟨⟨nq, hq⟩, -, -⟩ := hinv.pending q (List.mem_cons_self _ _)
      simp only [queueWeight, List.map_cons, List.sum_cons, weightAt_of_get? hq] at hw
      rw [nq.weight_eq] at hw
      omega
  | succ fuel ih =>
    intro queue t m log hinv hw hlog hsz
    cases queue with
    | nil => exact ⟨t, log, m, by simp only [copyWhile], hlog, hsz, hinv⟩
    | cons q rest =>
      obtain ⟨⟨nq, hq⟩, hmq0, hpar⟩ := hinv.pending q (List.mem_cons_self _ _)
      obtain ⟨t1, bs, hall, htrue, hreach1, hstate1⟩ :=
        copy_node hc hnodes ho hl q nq hq nq.element t m hinv.reach hinv.state
          (by rw [hmq0]; rfl) (by omega)
          (fun p n hn _ hm => by
            rcases hinv.done p n hn with h | h
            · omega
            · exact h)
          (fun _ => hpar)
          (fun hroot => by
            have := hinv.start hroot
            simp only [List.cons.injEq] at this
            exact this.1)
      have hinv1 := hinv.step hnodes nq hq hreach1 hstate1
      have hw1 : queueWeight r (rest ++
          (if nq.full then (occupiedFrom 0 nq.children).map (fun i => q ++ [i]) else []))
          ≤ fuel := by
        have h1 := queueWeight_children r nq q hq nq.children 0 (fun k => by simp)
        have h2 : queueWeight r (if nq.full then
            (occupiedFrom 0 nq.children).map (fun i => q ++ [i]) else []) ≤
            weightSlots nq.children := by
          cases nq.full with
          | false => simp [queueWeight]
          | true => simpa using h1
        simp only [queueWeight, List.map_cons, List.sum_cons, weightAt_of_get? hq, List.map_append,
          List.sum_append] at hw h2 ⊢
        rw [nq.weight_eq] at hw
        omega
      have hsz1 : t1.btree_size = (log ++ bs).length := by
        obtain ⟨t3, bs3, hall3, -, -, hsize3, -⟩ := insertAll_counts hc nq.element t hinv.reach
        rw [hall] at hall3
        simp only [Except.ok.injEq, Prod.mk.injEq] at hall3
        obtain ⟨rfl, rfl⟩ := hall3
        have hcount : bs.count true = bs.length :=
          List.count_eq_length.2 (fun b hb => (htrue b hb).symm)
        rw [hsize3, hcount, hsz, List.length_append]
      obtain ⟨t2, bs2, m2, hcopy, htrue2, hsz2, hinv2⟩ := ih _ t1 _ (log ++ bs) hinv1 hw1
        (fun b hb => by
          rcases List.mem_append.1 hb with h | h
          · exact hlog b h
          · exact htrue b h) hsz1
      refine ⟨t2, bs2, m2, ?_, htrue2, hsz2, hinv2⟩
      rw [← hcopy]
      simp only [copyWhile, Option.bind, hq, hall]

end CopyLoop


/-! ## The copy constructor -/

section CopySpec
variable {T : Type}

theorem elemsSlots_eq_nil : ∀ (cs : List (Option (Node T))), (∀ i : Nat, (cs[i]?).join = none) →
    elemsSlots cs = []
  | [], _ => rfl
  | none :: cs, h => by
    rw [elemsSlots]
    exact elemsSlots_eq_nil cs (fun i => by simpa using h (i + 1))
  | some x :: cs, h => by
    have := h 0
    simp [Option.join] at this

mutual
theorem Node.elems_ext : ∀ (r r1 : Node T),
    (∀ p : Path, (r1.get? p).map Node.element = (r.get? p).map Node.element) →
    r1.elems = r.elems
  | ⟨es, cs, cap, ti⟩, r1, h => by
    rw [r1.elems_eq, Node.elems]
    have h0 := h []
    simp only [Node.get?_nil, Option.map_some', Option.some.injEq] at h0
    rw [h0]
    congr 1
    exact elemsSlots_ext cs r1.children (fun i p => by
      have := h (i :: p)
      rw [Node.get?_cons, Node.get?_cons] at this
      exact this)
theorem elemsSlots_ext : ∀ (cs cs1 : List (Option (Node T))),
    (∀ (i : Nat) (p : Path),
      ((cs1[i]?).join.bind (Node.get? p)).map Node.element =
        ((cs[i]?).join.bind (Node.get? p)).map Node.element) →
    elemsSlots cs1 = elemsSlots cs
  | [], cs1, h => by
    rw [elemsSlots]
    refine elemsSlots_eq_nil cs1 (fun i => ?_)
    have := h i []
    rcases hj : (cs1[i]?).join with _ | x
    · rfl
    · rw [hj] at this; simp [Node.get?_nil] at this
  | none :: cs, [], h => by
    rw [elemsSlots, elemsSlots]
    symm
    refine elemsSlots_eq_nil cs (fun i => ?_)
    have := h (i + 1) []
    rcases hj : (cs[i]?).join with _ | x
    · rfl
    · simp only [List.getElem?_cons_succ, hj] at this
      simp [Node.get?_nil] at this
  | some x :: cs, [], h => by
    have := h 0 []
    simp [Option.join, Node.get?_nil] at this
  | none :: cs, none :: cs1, h => by
    rw [elemsSlots, elemsSlots]
    exact elemsSlots_ext cs cs1 (fun i p => by simpa using h (i + 1) p)
  | none :: cs, some y :: cs1, h => by
    have := h 0 []
    simp [Option.join, Node.get?_nil] at this
  | some x :: cs, none :: cs1, h => by
    have := h 0 []
    simp [Option.join, Node.get?_nil] at this
  | some x :: cs, some y :: cs1, h => by
    rw [elemsSlots, elemsSlots]
    rw [Node.elems_ext x y (fun p => by simpa [Option.join] using h 0 p)]
    rw [elemsSlots_ext cs cs1 (fun i p => by simpa using h (i + 1) p)]
end

theorem copy_spec [LinearOrder T] {c : Nat} (hc : 1 ≤ c) {S : btree T} (h : Reachable c S)
    (hne : S.elems ≠ []) :
    ∃ (t : btree T) (bs : List Bool), S.copy = .ok (t, bs) ∧ Reachable c t ∧
      t.max_element = S.max_element ∧ t.elems = S.elems ∧ t.btree_size = S.btree_size ∧
      bs.length = S.btree_size ∧ ∀ b ∈ bs, b = true := by
  rcases hroot : S.root with _ | r
  · simp [btree.elems, hroot] at hne
  have hs := h.shape hc
  have hnodes : ∀ (p : Path) (n : Node T), r.get? p = some n → NodeOK c n :=
    fun p n hp => hs.nodes r p n hroot hp
  have hinit : QueueInv c r [[]] (btree.new c : btree T) (fun _ => 0) := by
    refine ⟨Reachable.new, ?_, fun _ _ _ => Or.inl rfl, ?_, by simp, ?_, fun _ => rfl⟩
    · intro p; rfl
    · intro q hq
      simp only [List.mem_singleton] at hq
      subst hq
      exact ⟨⟨r, rfl⟩, rfl, Or.inl rfl⟩
    · intro p n _ _
      exact ⟨[], by simp, List.nil_prefix⟩
  obtain ⟨t, bs, m, hcopy, htrue, hsz, hinv⟩ :=
    copyWhile_spec hc hnodes (h.ordered hc r hroot) (h.lastLeaf hc r hroot) r.weight [[]]
      (btree.new c) (fun _ => 0) [] hinit
      (by simp [queueWeight, weightAt, Node.get?_nil]) (fun b hb => by cases hb) rfl
  have hcomplete : ∀ (p : Path) (n : Node T), r.get? p = some n → m p = n.element.length := by
    intro p n hn
    rcases hinv.done p n hn with h0 | h0
    · obtain ⟨x, hx, -⟩ := hinv.cover p n hn h0
      cases hx
    · exact h0
  have hpos : ∀ (p : Path) (n : Node T), r.get? p = some n → 1 ≤ n.element.length := by
    intro p n hn
    have := (hnodes p n hn).nonempty
    cases hh : n.element with
    | nil => exact absurd hh this
    | cons y l => simp
  have helems : t.elems = S.elems := by
    rcases hroot1 : t.root with _ | r1
    · have := hinv.state.of_none hroot1 []
      have := hcomplete [] r rfl
      have := hpos [] r rfl
      omega
    · have hpc := hinv.state.of_root hroot1
      simp only [btree.elems, hroot1, hroot]
      apply Node.elems_ext
      intro p
      rcases hn : r.get? p with _ | n
      · rcases hn1 : r1.get? p with _ | n1
        · rfl
        · obtain ⟨n, hn2, -⟩ := hpc.sub p n1 hn1
          rw [hn] at hn2; cases hn2
      · have hm := hcomplete p n hn
        obtain ⟨n1, hn1⟩ := hpc.sup p n hn (by have := hpos p n hn; omega)
        obtain ⟨n2, hn2, hel, -⟩ := hpc.sub p n1 hn1
        rw [hn] at hn2; cases hn2
        rw [hn1]
        simp only [Option.map_some', Option.some.injEq]
        rw [hel, hm, List.take_length]
  have hsize : t.btree_size = S.btree_size := by
    rw [hinv.reach.size_eq hc, h.size_eq hc, helems]
  refine ⟨t, bs, ?_, hinv.reach, ?_, helems, hsize, by rw [← hsz, hsize], htrue⟩
  · rw [← hcopy]
    simp only [btree.copy, copyFuel, hroot, hs.max_element_eq]
    rfl
  · rw [(hinv.reach.shape hc).max_element_eq, hs.max_element_eq]

end CopySpec

section ClaimsB
variable {T : Type}

/-- C8: for every non-empty tree `S` reachable by `insert` calls (capacity at least
1), the breadth-first re-insertion of the copy constructor runs to completion and
produces a tree with the capacity of `S`, the stored elements of `S` and a size
counter equal to that of `S`; it makes one `insert` call per stored element and
every one of them returns `true`. -/
theorem copy_constructor_copies [LinearOrder T] (c : Nat) (hc : 1 ≤ c) (S : btree T)
    (h : Reachable c S) (hne : S.elems ≠ []) :
    ∃ (t : btree T) (bs : List Bool), S.copy = .ok (t, bs) ∧
      t.max_element = S.max_element ∧ t.elems = S.elems ∧ t.btree_size = S.btree_size ∧
      bs.length = S.btree_size ∧ ∀ b ∈ bs, b = true := by
  obtain ⟨t, bs, h1, -, h2, h3, h4, h5, h6⟩ := copy_spec hc h hne
  exact ⟨t, bs, h1, h2, h3, h4, h5, h6⟩

/-- Witness for C8: the copy of the capacity-3 tree built from
5, 3, 8, 1, 4, 7, 9, 2, 6. -/
theorem copy_constructor_copies_witness :
    ∃ (t : btree Nat) (bs : List Bool),
      (build 3 [5, 3, 8, 1, 4, 7, 9, 2, 6]).copy = .ok (t, bs) ∧
      t.max_element = (build 3 [5, 3, 8, 1, 4, 7, 9, 2, 6]).max_element ∧
      t.elems = (build 3 [5, 3, 8, 1, 4, 7, 9, 2, 6]).elems ∧
      t.btree_size = (build 3 [5, 3, 8, 1, 4, 7, 9, 2, 6]).btree_size ∧
      bs.length = (build 3 [5, 3, 8, 1, 4, 7, 9, 2, 6]).btree_size ∧ ∀ b ∈ bs, b = true :=
  copy_constructor_copies 3 (by decide) (build 3 [5, 3, 8, 1, 4, 7, 9, 2, 6])
    (reachable_build 3 _) (by decide)

end ClaimsB

/-! ## The cached tail -/

section TailLemmas
variable {T : Type}

theorem getLast?_insertIdx_lt (e : T) : ∀ (l : List T) (k : Nat), k < l.length →
    (l.insertIdx k e).getLast? = l.getLast?
  | [], k, h => by simp at h
  | y :: l, 0, _ => by rw [List.insertIdx_zero, List.getLast?_cons_cons]
  | y :: l, k + 1, h => by
    have hk : k < l.length := by simpa using h
    rw [List.insertIdx_succ_cons, List.getLast?_cons, List.getLast?_cons,
      getLast?_insertIdx_lt e l k hk]

theorem TailMax.grown_tail [LinearOrder T] {c : Nat} {t : btree T} {root : Node T}
    (htm : TailMax c t root)
    (hnodes : ∀ (p : Path) (n : Node T), root.get? p = some n → NodeOK c n)
    (elem : T) (P : Path) (n : Node T) (k : Nat) (sz : Nat)
    (hd : Descends root elem P) (hP : root.get? P = some n) (hstop : StopsAt n elem k)
    (hfull : n.element.length ≠ n.capacity) :
    TailMax c
      { t with
        root := some (root.modify (fun n => { n with element := n.element.insertIdx k elem }) P)
        btree_size := sz }
      (root.modify (fun n => { n with element := n.element.insertIdx k elem }) P) := by
  obtain ⟨tl, tn, back, ht, htl, hback, hmax, hroot⟩ := htm
  have hn := hnodes P n hP
  have hmem : ∀ x, x ∈ (root.modify
      (fun n => { n with element := n.element.insertIdx k elem }) P).elems →
      x = elem ∨ x ∈ root.elems := by
    intro x hx
    simpa using ((Node.elems_grown_perm P root n k elem hP hstop.1).mem_iff).1 hx
  obtain ⟨m1, hm1, hself, hother⟩ := (Node.get?_modify_keep
    (fun n => { n with element := n.element.insertIdx k elem }) (fun _ => rfl) P tl root n hP).1
    tn htl
  have hroot1 : tl = [] ∨ (root.modify
      (fun n => { n with element := n.element.insertIdx k elem }) P).element.length = c := by
    rcases hroot with h | h
    · exact Or.inl h
    · right
      have hP0 : P ≠ [] := by
        rintro rfl
        simp only [Node.get?_nil, Option.some.injEq] at hP
        subst hP
        exact hfull (by rw [h, hn.capacity_eq])
      obtain ⟨r1, hr1, -, hs⟩ := (Node.get?_modify_keep
        (fun n => { n with element := n.element.insertIdx k elem }) (fun _ => rfl) P [] root n
        hP).1 root rfl
      simp only [Node.get?_nil, Option.some.injEq] at hr1
      rw [hr1, (hs (fun h0 => hP0 h0.symm)).1, h]
  by_cases htlP : tl = P
  · subst htlP
    rw [hP] at htl; cases htl
    rw [hself rfl] at hm1
    by_cases hk : k = n.element.length
    · subst hk
      refine ⟨tl, _, elem, ht, hm1, ?_, ?_, hroot1⟩
      · simp only [List.insertIdx_length_self, List.getLast?_concat]
      · intro x hx
        rcases hmem x hx with rfl | hx
        · exact le_refl _
        · obtain ⟨idx, hidx⟩ := List.getElem?_of_mem (List.mem_of_getLast?_eq_some hback)
          have hlt : idx < n.element.length := by
            rcases List.getElem?_eq_some.1 hidx with ⟨h, _⟩; exact h
          exact le_of_lt (lt_of_le_of_lt (hmax x hx) (hstop.2.1 idx back hlt hidx))
    · have hklt : k < n.element.length := by have := hstop.1; omega
      refine ⟨tl, _, back, ht, hm1, ?_, ?_, hroot1⟩
      · simp only [getLast?_insertIdx_lt elem n.element k hklt, hback]
      · intro x hx
        rcases hmem x hx with rfl | hx
        · have hy : n.element[k]? = some n.element[k] := List.getElem?_eq_getElem hklt
          exact le_of_lt (lt_of_lt_of_le (hstop.2.2 _ hy)
            (hmax _ (Node.mem_elems_of_get? tl root n _ hP (List.getElem?_mem hy))))
        · exact hmax x hx
  · refine ⟨tl, m1, back, ht, hm1, by rw [(hother htlP).1]; exact hback, ?_, hroot1⟩
    intro x hx
    rcases hmem x hx with rfl | hx
    · cases P with
      | nil =>
        exfalso
        simp only [Node.get?_nil, Option.some.injEq] at hP
        subst hP
        rcases hroot with h | h
        · exact htlP h
        · exact hfull (by rw [h, hn.capacity_eq])
      | cons i q =>
        obtain ⟨-, ⟨y, hy, hlt⟩, -⟩ := hd [] i q root rfl rfl
        exact le_of_lt (lt_of_lt_of_le hlt
          (hmax y (Node.mem_elems_of_get? [] root root y rfl (List.getElem?_mem hy))))
    · exact hmax x hx

theorem TailMax.attached_tail [LinearOrder T] {c : Nat} {t : btree T} {root : Node T}
    (htm : TailMax c t root)
    (hnodes : ∀ (p : Path) (n : Node T), root.get? p = some n → NodeOK c n)
    (elem : T) (P : Path) (n : Node T) (k : Nat) (sz : Nat) (tl : Path) (tn : Node T) (back : T)
    (hd : Descends root elem P) (hP : root.get? P = some n)
    (hfull : n.element.length = n.capacity) (hk : n.children[k]? = some none)
    (ht : t.tail = some tl) (htl : root.get? tl = some tn)
    (hback : tn.element.getLast? = some back) :
    TailMax c
      { t with
        root := some (root.modify
          (fun n => { n with
            children := n.children.set k (some (Node.withElem elem t.max_element)) }) P)
        btree_size := sz
        tail := if elem > back then some (P ++ [k]) else t.tail }
      (root.modify
        (fun n => { n with
          children := n.children.set k (some (Node.withElem elem t.max_element)) }) P) := by
  obtain ⟨tl0, tn0, back0, ht0, htl0, hback0, hmax, hroot⟩ := htm
  rw [ht] at ht0; cases ht0
  rw [htl] at htl0; cases htl0
  rw [hback] at hback0; cases hback0
  have hn := hnodes P n hP
  have hklt : k < n.children.length := by
    rcases List.getElem?_eq_some.1 hk with ⟨h, _⟩; exact h
  have hmem : ∀ x, x ∈ (root.modify
      (fun n => { n with
        children := n.children.set k (some (Node.withElem elem t.max_element)) }) P).elems →
      x = elem ∨ x ∈ root.elems := by
    intro x hx
    simpa using ((Node.elems_attached_perm P root n k elem t.max_element hP hk).mem_iff).1 hx
  obtain ⟨r1, hr1, hr1e, -⟩ := Node.get?_attach_old (Node.withElem elem t.max_element) P [] k
    root n root hP hk rfl
  simp only [Node.get?_nil, Option.some.injEq] at hr1
  have hrootfull : root.element.length = c := by
    cases P with
    | nil =>
      simp only [Node.get?_nil, Option.some.injEq] at hP
      subst hP
      rw [hfull, hn.capacity_eq]
    | cons i q =>
      obtain ⟨hf, -, -⟩ := hd [] i q root rfl rfl
      have := (hnodes [] root rfl).capacity_eq
      simpa [Node.full, this] using hf
  have hroot1 : (root.modify
      (fun n => { n with
        children := n.children.set k (some (Node.withElem elem t.max_element)) }) P).element.length
      = c := by
    rw [hr1, hr1e, hrootfull]
  by_cases hgt : elem > back
  · refine ⟨P ++ [k], Node.withElem elem t.max_element, elem, by simp [hgt],
      Node.get?_attach_self _ P k root n hP hklt, rfl, ?_, Or.inr hroot1⟩
    intro x hx
    rcases hmem x hx with rfl | hx
    · exact le_refl _
    · exact le_of_lt (lt_of_le_of_lt (hmax x hx) hgt)
  · obtain ⟨m1, hm1, hm1e, -⟩ := Node.get?_attach_old (Node.withElem elem t.max_element) P tl k
      root n tn hP hk htl
    refine ⟨tl, m1, back, by simp [hgt, ht], hm1, by rw [hm1e]; exact hback, ?_, ?_⟩
    · intro x hx
      rcases hmem x hx with rfl | hx
      · exact not_lt.1 hgt
      · exact hmax x hx
    · exact Or.inr hroot1

theorem Reachable.tailMax [LinearOrder T] {c : Nat} (hc : 1 ≤ c) {t : btree T}
    (h : Reachable c t) : ∀ root : Node T, t.root = some root → TailMax c t root := by
  induction h with
  | new => intro root hr; cases hr
  | insert t elem r hreach hins ih =>
    have hs := hreach.shape hc
    intro root1 hr1
    rcases hroot : t.root with _ | root
    · rw [btree.insert_none t elem hroot] at hins
      cases hins
      cases hr1
      refine ⟨[], _, elem, rfl, rfl, rfl, ?_, Or.inl rfl⟩
      intro x hx
      rw [Node.withElem_elems] at hx
      simp only [List.mem_singleton] at hx
      exact le_of_eq hx
    · obtain ⟨r1, hr, ho⟩ := insert_outcome hs root hroot elem
      rw [hins] at hr; cases hr
      have hnodes : ∀ (p : Path) (n : Node T), root.get? p = some n → NodeOK c n :=
        fun p n hp => hs.nodes root p n hroot hp
      cases ho with
      | found => exact ih root1 hr1
      | dropped => exact ih root1 hr1
      | grown P n k hd hP hstop hfull =>
        cases hr1
        exact (ih root hroot).grown_tail hnodes elem P n k _ hd hP hstop hfull
      | attached P n k ret tl tn back hd hP hstop hfull hk ht htl hb =>
        cases hr1
        exact (ih root hroot).attached_tail hnodes elem P n k _ tl tn back hd hP hfull hk ht htl hb

end TailLemmas

/-! ## Full nodes keep their elements -/

section FullNodes
variable {T : Type}

theorem insert_keeps_full [LinearOrder T] {c : Nat} {t : btree T} (hs : Shape c t)
    (p : Path) (n : Node T) (hn : t.node? p = some n) (hfull : n.element.length = c)
    (elem : T) (r : InsertResult T) (h : t.insert elem = .ok r) :
    ∃ n1, r.tree.node? p = some n1 ∧ n1.element = n.element := by
  rcases hroot : t.root with _ | root
  · simp [btree.node?, hroot] at hn
  · have hn0 : root.get? p = some n := by simpa [btree.node?, hroot] using hn
    obtain ⟨r1, hr1, ho⟩ := insert_outcome hs root hroot elem
    rw [h] at hr1; cases hr1
    cases ho with
    | found => exact ⟨n, hn, rfl⟩
    | dropped => exact ⟨n, hn, rfl⟩
    | grown P m k hd hP hstop hnf =>
      obtain ⟨n1, h1, -, hother⟩ := (Node.get?_modify_keep
        (fun n => { n with element := n.element.insertIdx k elem }) (fun _ => rfl) P p root m
        hP).1 n hn0
      have hpP : p ≠ P := by
        intro hpp
        have hcap := (hs.nodes root P m hroot hP).capacity_eq
        rw [hpp, hP] at hn0
        have hmn : m = n := Option.some.inj hn0
        exact hnf (by rw [hmn, hfull, ← hmn, hcap])
      exact ⟨n1, by simpa [btree.node?] using h1, (hother hpP).1⟩
    | attached P m k ret tl tn back hd hP hstop hf hk ht htl hb =>
      obtain ⟨n1, h1, he, -⟩ := Node.get?_attach_old (Node.withElem elem t.max_element) P p k
        root m n hP hk hn0
      exact ⟨n1, by simpa [btree.node?] using h1, he⟩

theorem insertAll_keeps_full [LinearOrder T] {c : Nat} (hc : 1 ≤ c) (p : Path) (n : Node T)
    (hfull : n.element.length = c) :
    ∀ (es : List T) (t t1 : btree T) (bs : List Bool), Reachable c t → t.node? p = some n →
      insertAll t es = .ok (t1, bs) → ∃ n1, t1.node? p = some n1 ∧ n1.element = n.element
  | [], t, t1, bs, _, hn, h => by
    simp only [insertAll, Except.ok.injEq, Prod.mk.injEq] at h
    exact ⟨n, h.1 ▸ hn, rfl⟩
  | e :: es, t, t1, bs, hreach, hn, h => by
    simp only [insertAll] at h
    rcases hr : t.insert e with f | r
    · simp [hr] at h
    · simp only [hr] at h
      rcases hall : insertAll r.tree es with f | ⟨t2, bs2⟩
      · simp [hall] at h
      · simp only [hall, Except.ok.injEq, Prod.mk.injEq] at h
        obtain ⟨n1, hn1, he1⟩ := insert_keeps_full (hreach.shape hc) p n hn hfull e r hr
        obtain ⟨n2, hn2, he2⟩ := insertAll_keeps_full hc p n1 (by rw [he1, hfull]) es r.tree t2 bs2
          (Reachable.insert t e r hreach hr) hn1 hall
        exact ⟨n2, h.1 ▸ hn2, he2.trans he1⟩

end FullNodes

section ClaimsC
variable {T : Type}

/-- C11 (the code breaks the claim): the move constructor sets `max_element` of the
source to 0.  Inserting 1, 2, 3, 4 into the tree left behind by moving a capacity-3
tree gives one node of capacity 0 holding 1, 2, 3, 4 with a single child slot, on
which the first `operator++` indexes the child vector out of range; a new tree of
capacity 3 gets a root holding 1, 2, 3 with four child slots and 4 in a child. -/
theorem moved_from_loses_capacity :
    ((build 3 [9]).move).2.max_element = 0 ∧
      (insertAll ((build 3 [9]).move).2 [1, 2, 3, 4]).map
          (fun r => r.1.root.map (fun n => (n.element, n.capacity, n.children.length)))
        = .ok (some ([1, 2, 3, 4], 0, 1)) ∧
      (insertAll (btree.new 3) [1, 2, 3, 4]).map
          (fun r => r.1.root.map (fun n => (n.element, n.capacity, n.children.length)))
        = .ok (some ([1, 2, 3], 3, 4)) ∧
      (match insertAll ((build 3 [9]).move).2 [1, 2, 3, 4] with
        | .ok (t, _) => (t.forward 10).map Prod.snd
        | .error f => .error f) = .error .outOfRange := by
  refine ⟨rfl, rfl, rfl, rfl⟩

/-- C12 (the code breaks the claim): the first `insert` into an empty tree returns
`true` with a cursor built from the null `cur`, equal to `end()`, whose dereference
is undefined; `insert(5)` into the capacity-3 tree holding 3, 5, 8 returns `false`
with a cursor at index 0 of the root, which holds 3. -/
theorem insert_cursor_misplaced :
    ((btree.new 1 : btree Nat).insert 10).map
        (fun r => (r.second, r.first, r.first.deref r.tree))
      = .ok (true, btree.end_, .error .nullDeref) ∧
    ((build 3 [5, 3, 8]).insert 5).map
        (fun r => (r.second, r.first, r.first.deref r.tree))
      = .ok (false, ⟨some [], 0⟩, .ok 3) := by
  refine ⟨rfl, rfl⟩

/-- C13 (as stated, false): the constructor called with capacity 0 returns a tree,
and that tree accepts an insert. -/
theorem capacity_zero_accepted :
    (btree.new 0 : btree Nat).max_element = 0 ∧
      ((btree.new 0 : btree Nat).insert 7).map (fun r => (r.second, r.tree.elems))
        = .ok (true, [7]) := by
  refine ⟨rfl, rfl⟩

/-- C13 (amended): the constructor rejects no capacity: for every `maxNodeElems`, 0
included, it yields an empty tree with that `max_element`, no root, no tail and size
counter 0, into which a first element can be inserted. -/
theorem constructor_accepts_any_capacity [LinearOrder T] (maxNodeElems : Nat) (elem : T) :
    (btree.new maxNodeElems : btree T).max_element = maxNodeElems ∧
      (btree.new maxNodeElems : btree T).root = none ∧
      (btree.new maxNodeElems : btree T).tail = none ∧
      (btree.new maxNodeElems : btree T).btree_size = 0 ∧
      ∃ r, (btree.new maxNodeElems : btree T).insert elem = .ok r ∧ r.second = true ∧
        r.tree.elems = [elem] := by
  refine ⟨rfl, rfl, rfl, rfl, _, btree.insert_none _ elem rfl, rfl, ?_⟩
  simp [btree.elems, Node.withElem_elems]

/-- C14 (the code breaks the claim): `begin()` dereferences the root without testing
it, so on a newly constructed tree and on a moved-from tree it dereferences a null
pointer instead of returning `end()`. -/
theorem begin_without_root_faults :
    ((btree.new 3 : btree Nat).begin).map Prod.snd = .error .nullDeref ∧
      (((build 3 [1, 2]).move).2.begin).map Prod.snd = .error .nullDeref := by
  refine ⟨rfl, rfl⟩

/-- C15 (the code breaks the claim): `find` dereferences the root without testing
it, so on an empty tree it dereferences a null pointer instead of returning the end
sentinel. -/
theorem find_without_root_faults :
    (btree.new 3 : btree Nat).find 5 = .error .nullDeref := rfl

/-- C16: every tree reachable by `insert` calls from an empty tree of capacity at
least 1 satisfies the search-tree ordering: the elements of every node are strictly
increasing, and every element of a node below child slot `i` of a node `n` is
greater than `n.element[i - 1]` when `0 < i` and less than `n.element[i]` when
`i < n.element.length`. -/
theorem search_tree_ordering [LinearOrder T] (c : Nat) (hc : 1 ≤ c) (t : btree T)
    (h : Reachable c t) :
    (∀ (p : Path) (n : Node T), t.node? p = some n → n.element.Pairwise (· < ·)) ∧
    ∀ (p : Path) (i : Nat) (q : Path) (n m : Node T), t.node? p = some n →
      t.node? (p ++ i :: q) = some m → ∀ x ∈ m.element,
        (0 < i → ∀ y, n.element[i - 1]? = some y → y < x) ∧
        (i < n.element.length → ∀ y, n.element[i]? = some y → x < y) := by
  rcases hroot : t.root with _ | root
  · exact ⟨fun p n hn => by simp [btree.node?, hroot] at hn,
      fun p i q n m hn => by simp [btree.node?, hroot] at hn⟩
  · have ho := h.ordered hc root hroot
    refine ⟨fun p n hn => ho.sorted p n (by simpa [btree.node?, hroot] using hn), ?_⟩
    intro p i q n m hn hm x hx
    have hb := ho.bounded p i q n m (by simpa [btree.node?, hroot] using hn)
      (by simpa [btree.node?, hroot] using hm) x hx
    exact ⟨fun hi y hy => hb.2 (i - 1) y (by omega) hy, fun _ y hy => hb.1 y hy⟩

/-- Witness for C16: the capacity-3 tree built from 5, 3, 8, 1, 4, 7, 9, 2, 6. -/
theorem search_tree_ordering_witness :
    (∀ (p : Path) (n : Node Nat), (build 3 [5, 3, 8, 1, 4, 7, 9, 2, 6]).node? p = some n →
      n.element.Pairwise (· < ·)) ∧
    ∀ (p : Path) (i : Nat) (q : Path) (n m : Node Nat),
      (build 3 [5, 3, 8, 1, 4, 7, 9, 2, 6]).node? p = some n →
      (build 3 [5, 3, 8, 1, 4, 7, 9, 2, 6]).node? (p ++ i :: q) = some m → ∀ x ∈ m.element,
        (0 < i → ∀ y, n.element[i - 1]? = some y → y < x) ∧
        (i < n.element.length → ∀ y, n.element[i]? = some y → x < y) :=
  search_tree_ordering 3 (by decide) (build 3 [5, 3, 8, 1, 4, 7, 9, 2, 6]) (reachable_build 3 _)

/-- C17: in every tree reachable by `insert` calls (capacity `c` at least 1) every
node holds at least 1 and at most `c` elements, only nodes holding exactly `c`
elements have a child, and a node holding `c` elements keeps its element list under
every later sequence of `insert` calls. -/
theorem node_sizes_and_full_nodes [LinearOrder T] (c : Nat) (hc : 1 ≤ c) (t : btree T)
    (h : Reachable c t) :
    (∀ (p : Path) (n : Node T), t.node? p = some n →
      1 ≤ n.element.length ∧ n.element.length ≤ c) ∧
    (∀ (p : Path) (n d : Node T) (i : Nat), t.node? p = some n →
      n.children[i]? = some (some d) → n.element.length = c) ∧
    ∀ (p : Path) (n : Node T) (es : List T), t.node? p = some n → n.element.length = c →
      ∃ (t1 : btree T) (bs : List Bool), insertAll t es = .ok (t1, bs) ∧
        ∃ n1, t1.node? p = some n1 ∧ n1.element = n.element := by
  have hs := h.shape hc
  have hnode : ∀ (p : Path) (n : Node T), t.node? p = some n → NodeOK c n := by
    intro p n hn
    rcases hroot : t.root with _ | root
    · simp [btree.node?, hroot] at hn
    · exact hs.nodes root p n hroot (by simpa [btree.node?, hroot] using hn)
  refine ⟨?_, ?_, ?_⟩
  · intro p n hn
    have hok := hnode p n hn
    refine ⟨?_, hok.size_le⟩
    cases hh : n.element with
    | nil => exact absurd hh hok.nonempty
    | cons y l => simp
  · intro p n d i hn hd
    have hok := hnode p n hn
    by_contra hne
    have := hok.childless (by have := hok.size_le; omega) (some d) (List.getElem?_mem hd)
    cases this
  · intro p n es hn hfull
    obtain ⟨t1, bs, hall, -⟩ := insertAll_counts hc es t h
    exact ⟨t1, bs, hall, insertAll_keeps_full hc p n hfull es t t1 bs h hn hall⟩

/-- Witness for C17: the capacity-3 tree built from 5, 3, 8, 1, 4, 7, 9, 2, 6. -/
theorem node_sizes_and_full_nodes_witness :
    (∀ (p : Path) (n : Node Nat), (build 3 [5, 3, 8, 1, 4, 7, 9, 2, 6]).node? p = some n →
      1 ≤ n.element.length ∧ n.element.length ≤ 3) ∧
    (∀ (p : Path) (n d : Node Nat) (i : Nat),
      (build 3 [5, 3, 8, 1, 4, 7, 9, 2, 6]).node? p = some n →
      n.children[i]? = some (some d) → n.element.length = 3) ∧
    ∀ (p : Path) (n : Node Nat) (es : List Nat),
      (build 3 [5, 3, 8, 1, 4, 7, 9, 2, 6]).node? p = some n → n.element.length = 3 →
      ∃ (t1 : btree Nat) (bs : List Bool),
        insertAll (build 3 [5, 3, 8, 1, 4, 7, 9, 2, 6]) es = .ok (t1, bs) ∧
        ∃ n1, t1.node? p = some n1 ∧ n1.element = n.element :=
  node_sizes_and_full_nodes 3 (by decide) (build 3 [5, 3, 8, 1, 4, 7, 9, 2, 6])
    (reachable_build 3 _)

/-- C18: in every non-empty tree reachable by `insert` calls (capacity at least 1),
`tail` refers to a node of the tree, and the last element of that node is stored in
the tree and is at least every stored element. -/
theorem tail_holds_maximum [LinearOrder T] (c : Nat) (hc : 1 ≤ c) (t : btree T)
    (h : Reachable c t) (hne : t.elems ≠ []) :
    ∃ (tl : Path) (tn : Node T) (back : T), t.tail = some tl ∧ t.node? tl = some tn ∧
      tn.element.getLast? = some back ∧ back ∈ t.elems ∧ ∀ x ∈ t.elems, x ≤ back := by
  rcases hroot : t.root with _ | root
  · simp [btree.elems, hroot] at hne
  · obtain ⟨tl, tn, back, ht, htl, hback, hmax, -⟩ := h.tailMax hc root hroot
    refine ⟨tl, tn, back, ht, by simpa [btree.node?, hroot] using htl, hback, ?_, ?_⟩
    · simpa [btree.elems, hroot] using
        Node.mem_elems_of_get? tl root tn back htl (List.mem_of_getLast?_eq_some hback)
    · simpa [btree.elems, hroot] using hmax

/-- Witness for C18: the capacity-3 tree built from 5, 3, 8, 1, 4, 7, 9, 2, 6. -/
theorem tail_holds_maximum_witness :
    ∃ (tl : Path) (tn : Node Nat) (back : Nat),
      (build 3 [5, 3, 8, 1, 4, 7, 9, 2, 6]).tail = some tl ∧
      (build 3 [5, 3, 8, 1, 4, 7, 9, 2, 6]).node? tl = some tn ∧
      tn.element.getLast? = some back ∧ back ∈ (build 3 [5, 3, 8, 1, 4, 7, 9, 2, 6]).elems ∧
      ∀ x ∈ (build 3 [5, 3, 8, 1, 4, 7, 9, 2, 6]).elems, x ≤ back :=
  tail_holds_maximum 3 (by decide) (build 3 [5, 3, 8, 1, 4, 7, 9, 2, 6]) (reachable_build 3 _)
    (by decide)

/-- C20 (the code breaks the claim): in the capacity-2 tree built from 1, 10, 5, 7, 3
the cursor at index 0 of the root has child slot 1 occupied by the node holding 5, 7,
whose child slot 0 holds 3.  `operator++` lands on 5, not on 3, the smallest element
below slot 1, and the increments that follow reach 7 and then element 1 of the root,
10, without visiting 3. -/
theorem increment_skips_left_descent :
    ((build 2 [1, 10, 5, 7, 3]).node? [1]).map Node.elems = some [5, 7, 3] ∧
      (match (⟨some [], 0⟩ : btree_iterator).inc (build 2 [1, 10, 5, 7, 3]) with
        | .ok (t1, it1) => (it1.pointee, it1.index, (it1.deref t1).toOption)
        | .error _ => (none, 0, none)) = (some [1], 0, some 5) ∧
      (match (⟨some [], 0⟩ : btree_iterator).inc (build 2 [1, 10, 5, 7, 3]) with
        | .ok (t1, it1) =>
          match it1.inc t1 with
          | .ok (t2, it2) =>
            match it2.inc t2 with
            | .ok (t3, it3) =>
              ((it2.deref t2).toOption, it3.pointee, it3.index, (it3.deref t3).toOption)
            | .error _ => (none, none, 0, none)
          | .error _ => (none, none, 0, none)
        | .error _ => (none, none, 0, none)) = (some 7, some [], 1, some 10) := by
  refine ⟨rfl, rfl, rfl⟩

end ClaimsC

/-! ## The forward walk on a tree whose root alone has children -/

section ForwardWalk
variable {T : Type}

theorem inc_enter (t : btree T) (root n d : Node T) (p : Path) (idx : Nat)
    (hroot : t.root = some root) (hn : root.get? p = some n)
    (hch : n.children[idx + 1]? = some (some d)) :
    (⟨some p, idx⟩ : btree_iterator).inc t =
      .ok ({ t with
              search_count := t.search_count + 1
              root := some (root.modify
                (fun m => { m with traverse_index := m.traverse_index + 1 }) p) },
           ⟨some (p ++ [idx + 1]), 0⟩) := by
  simp only [btree_iterator.inc, hroot, hn, hch]

theorem inc_next (t : btree T) (root n : Node T) (p : Path) (idx : Nat)
    (hroot : t.root = some root) (hn : root.get? p = some n)
    (hch : n.children[idx + 1]? = some none)
    (hidx : idx ≠ (n.element.length + SIZE_MOD - 1) % SIZE_MOD) :
    (⟨some p, idx⟩ : btree_iterator).inc t =
      .ok ({ t with
              search_count := t.search_count + 1
              root := some (root.modify
                (fun m => { m with traverse_index := m.traverse_index + 1 }) p) },
           ⟨some p, idx + 1⟩) := by
  simp only [btree_iterator.inc, hroot, hn, hch, if_neg hidx]

theorem inc_up (t : btree T) (root n pn : Node T) (p q : Path) (idx : Nat)
    (hroot : t.root = some root) (hn : root.get? p = some n)
    (hch : n.children[idx + 1]? = some none)
    (hidx : idx = (n.element.length + SIZE_MOD - 1) % SIZE_MOD)
    (hsc : t.search_count + 1 ≠ t.btree_size) (hq : parentOf p = some q)
    (hpn : (root.modify (fun m => { m with traverse_index := 0 }) p).get? q = some pn) :
    (⟨some p, idx⟩ : btree_iterator).inc t =
      .ok ({ t with
              search_count := t.search_count + 1
              root := some (root.modify (fun m => { m with traverse_index := 0 }) p) },
           ⟨some q, pn.traverse_index⟩) := by
  simp only [btree_iterator.inc, hroot, hn, hch, if_pos hidx, if_neg hsc, hq, hpn]

theorem inc_end (t : btree T) (root n root1 : Node T) (p : Path) (idx : Nat)
    (hroot : t.root = some root) (hn : root.get? p = some n)
    (hch : n.children[idx + 1]? = some none)
    (hidx : idx = (n.element.length + SIZE_MOD - 1) % SIZE_MOD)
    (hsc : t.search_count + 1 = t.btree_size)
    (hasc : ascendWhile (fun _ => 0) (p.length + 1) root (some p) = .ok root1) :
    (⟨some p, idx⟩ : btree_iterator).inc t =
      .ok ({ t with search_count := t.search_count + 1, root := some root1 }, ⟨none, 0⟩) := by
  simp only [btree_iterator.inc, hroot, hn, hch, if_pos hidx, if_pos hsc, hasc]

theorem set_getElem?_self {α : Type} (cs : List α) (i : Nat) (x : α) (h : cs[i]? = some x) :
    cs.set i x = cs := by
  apply List.ext_getElem?
  intro k
  by_cases hk : i = k
  · subst hk
    have hlt : i < cs.length := by
      by_contra hge
      rw [List.getElem?_eq_none (by omega)] at h
      cases h
    rw [List.getElem?_set_self hlt, h]
  · rw [List.getElem?_set_ne hk]

theorem Node.eta_fresh (d : Node T) (h : d.traverse_index = 0) :
    (⟨d.element, d.children, d.capacity, 0⟩ : Node T) = d := by
  cases d
  simp only at h
  subst h
  rfl

theorem size_pred (len cap : Nat) (h1 : 1 ≤ len) (h2 : len ≤ cap) (h3 : cap < SIZE_MOD) :
    (len + SIZE_MOD - 1) % SIZE_MOD = len - 1 := by
  have e : len + SIZE_MOD - 1 = (len - 1) + SIZE_MOD := by omega
  rw [e, Nat.add_mod_right, Nat.mod_eq_of_lt (by omega)]

theorem incA_child (es : List T) (cs : List (Option (Node T))) (cap j : Nat) (d : Node T)
    (tl : Option Path) (me size s : Nat) (hd : cs[j + 1]? = some (some d))
    (hd0 : d.traverse_index = 0) :
    (⟨some [], j⟩ : btree_iterator).inc ⟨some ⟨es, cs, cap, j⟩, tl, me, size, s⟩ =
      .ok (⟨some ⟨es, cs.set (j + 1) (some { d with traverse_index := 0 }), cap, j + 1⟩,
            tl, me, size, s + 1⟩, ⟨some [j + 1], 0⟩) := by
  rw [inc_enter _ ⟨es, cs, cap, j⟩ ⟨es, cs, cap, j⟩ d [] j rfl rfl hd]
  have e : cs.set (j + 1) (some { d with traverse_index := 0 }) = cs := by
    apply set_getElem?_self
    rw [hd, Node.eta_fresh d hd0]
  rw [e]
  rfl

theorem incA_next (es : List T) (cs : List (Option (Node T))) (cap j : Nat)
    (tl : Option Path) (me size s : Nat) (hd : cs[j + 1]? = some none)
    (hj : j + 1 < es.length) (hes : es.length ≤ cap) (hcap : cap < SIZE_MOD) :
    (⟨some [], j⟩ : btree_iterator).inc ⟨some ⟨es, cs, cap, j⟩, tl, me, size, s⟩ =
      .ok (⟨some ⟨es, cs, cap, j + 1⟩, tl, me, size, s + 1⟩, ⟨some [], j + 1⟩) := by
  rw [inc_next _ ⟨es, cs, cap, j⟩ ⟨es, cs, cap, j⟩ [] j rfl rfl hd
    (by rw [size_pred es.length cap (by omega) hes hcap]; omega)]
  rfl

theorem incA_end (es : List T) (cs : List (Option (Node T))) (cap j : Nat)
    (tl : Option Path) (me size s : Nat) (hd : cs[j + 1]? = some none)
    (hj : j + 1 = es.length) (hes : es.length ≤ cap) (hcap : cap < SIZE_MOD)
    (hs : s + 1 = size) :
    (⟨some [], j⟩ : btree_iterator).inc ⟨some ⟨es, cs, cap, j⟩, tl, me, size, s⟩ =
      .ok (⟨some ⟨es, cs, cap, 0⟩, tl, me, size, size⟩, ⟨none, 0⟩) := by
  rw [inc_end _ ⟨es, cs, cap, j⟩ ⟨es, cs, cap, j⟩ ⟨es, cs, cap, 0⟩ [] j rfl rfl hd
    (by rw [size_pred es.length cap (by omega) hes hcap]; omega) hs rfl]
  simp only [hs]

theorem getB (es : List T) (cs : List (Option (Node T))) (cap i : Nat) (d d1 : Node T)
    (hd : cs[i]? = some (some d)) :
    (⟨es, cs.set i (some d1), cap, i⟩ : Node T).get? [i] = some d1 := by
  have hlt : i < cs.length := by
    by_contra hge
    rw [List.getElem?_eq_none (by omega)] at hd
    cases hd
  rw [Node.get?]
  simp [List.getElem?_set_self hlt, Node.get?]

theorem modifyB (f : Node T → Node T) (es : List T) (cs : List (Option (Node T)))
    (cap i : Nat) (d d1 : Node T) (hd : cs[i]? = some (some d)) :
    (⟨es, cs.set i (some d1), cap, i⟩ : Node T).modify f [i] =
      ⟨es, cs.set i (some (f d1)), cap, i⟩ := by
  have hlt : i < cs.length := by
    by_contra hge
    rw [List.getElem?_eq_none (by omega)] at hd
    cases hd
  rw [Node.modify]
  simp [List.getElem?_set_self hlt, Node.modify]

theorem incB_next (es : List T) (cs : List (Option (Node T))) (cap i j : Nat) (d : Node T)
    (tl : Option Path) (me size s : Nat) (hd : cs[i]? = some (some d))
    (hch : d.children[j + 1]? = some none) (hj : j + 1 < d.element.length)
    (hes : d.element.length ≤ cap) (hcap : cap < SIZE_MOD) :
    (⟨some [i], j⟩ : btree_iterator).inc
        ⟨some ⟨es, cs.set i (some { d with traverse_index := j }), cap, i⟩, tl, me, size, s⟩ =
      .ok (⟨some ⟨es, cs.set i (some { d with traverse_index := j + 1 }), cap, i⟩,
            tl, me, size, s + 1⟩, ⟨some [i], j + 1⟩) := by
  rw [inc_next _ _ { d with traverse_index := j } [i] j rfl (getB es cs cap i d _ hd) hch
    (by
      show j ≠ (d.element.length + SIZE_MOD - 1) % SIZE_MOD
      rw [size_pred d.element.length cap (by omega) hes hcap]; omega)]
  simp only [modifyB _ es cs cap i d _ hd]

theorem incB_up (es : List T) (cs : List (Option (Node T))) (cap i j : Nat) (d : Node T)
    (tl : Option Path) (me size s : Nat) (hd : cs[i]? = some (some d))
    (hd0 : d.traverse_index = 0)
    (hch : d.children[j + 1]? = some none) (hj : j + 1 = d.element.length)
    (hes : d.element.length ≤ cap) (hcap : cap < SIZE_MOD) (hs : s + 1 ≠ size) :
    (⟨some [i], j⟩ : btree_iterator).inc
        ⟨some ⟨es, cs.set i (some { d with traverse_index := j }), cap, i⟩, tl, me, size, s⟩ =
      .ok (⟨some ⟨es, cs, cap, i⟩, tl, me, size, s + 1⟩, ⟨some [], i⟩) := by
  have e : cs.set i (some ⟨d.element, d.children, d.capacity, 0⟩) = cs := by
    apply set_getElem?_self
    rw [hd, Node.eta_fresh d hd0]
  rw [inc_up _ _ { d with traverse_index := j } ⟨es, cs, cap, i⟩ [i] [] j rfl
    (getB es cs cap i d _ hd) hch
    (by
      show j = (d.element.length + SIZE_MOD - 1) % SIZE_MOD
      rw [size_pred d.element.length cap (by omega) hes hcap]; omega) hs rfl
    (by rw [modifyB _ es cs cap i d _ hd]; simp only [e]; rfl)]
  simp only [modifyB _ es cs cap i d _ hd, e]

theorem incB_end (es : List T) (cs : List (Option (Node T))) (cap i j : Nat) (d : Node T)
    (tl : Option Path) (me size s : Nat) (hd : cs[i]? = some (some d))
    (hd0 : d.traverse_index = 0)
    (hch : d.children[j + 1]? = some none) (hj : j + 1 = d.element.length)
    (hes : d.element.length ≤ cap) (hcap : cap < SIZE_MOD) (hs : s + 1 = size) :
    (⟨some [i], j⟩ : btree_iterator).inc
        ⟨some ⟨es, cs.set i (some { d with traverse_index := j }), cap, i⟩, tl, me, size, s⟩ =
      .ok (⟨some ⟨es, cs, cap, 0⟩, tl, me, size, size⟩, ⟨none, 0⟩) := by
  have e : cs.set i (some ⟨d.element, d.children, d.capacity, 0⟩) = cs := by
    apply set_getElem?_self
    rw [hd, Node.eta_fresh d hd0]
  rw [inc_end _ _ { d with traverse_index := j } ⟨es, cs, cap, 0⟩ [i] j rfl
    (getB es cs cap i d _ hd) hch
    (by
      show j = (d.element.length + SIZE_MOD - 1) % SIZE_MOD
      rw [size_pred d.element.length cap (by omega) hes hcap]; omega) hs
    (by
      show ascendWhile (fun _ => 0) (1 + 1) _ (some [i]) = _
      rw [ascendWhile, getB es cs cap i d _ hd]
      simp only [modifyB _ es cs cap i d _ hd, e]
      rfl)]
  simp only [hs]

end ForwardWalk

section ForwardWalkLoop
variable {T : Type}

theorem derefA (es : List T) (cs : List (Option (Node T))) (cap a j : Nat)
    (tl : Option Path) (me size s : Nat) (x : T) (hx : es[j]? = some x) :
    (⟨some [], j⟩ : btree_iterator).deref ⟨some ⟨es, cs, cap, a⟩, tl, me, size, s⟩ = .ok x := by
  simp [btree_iterator.deref, btree.node?, Node.get?, hx]

theorem derefB (es : List T) (cs : List (Option (Node T))) (cap i j : Nat) (d d1 : Node T)
    (tl : Option Path) (me size s : Nat) (x : T) (hd : cs[i]? = some (some d))
    (hx : d1.element[j]? = some x) :
    (⟨some [i], j⟩ : btree_iterator).deref
      ⟨some ⟨es, cs.set i (some d1), cap, i⟩, tl, me, size, s⟩ = .ok x := by
  simp [btree_iterator.deref, btree.node?, getB es cs cap i d d1 hd, hx]

theorem forwardLoop_end (fuel : Nat) (t : btree T) (out : List T) (h : 0 < fuel) :
    forwardLoop fuel t ⟨none, 0⟩ out = .ok (t, out) := by
  obtain ⟨f, rfl⟩ : ∃ f, fuel = f + 1 := ⟨fuel - 1, by omega⟩
  rw [forwardLoop, if_pos (show (⟨none, 0⟩ : btree_iterator) = btree.end_ from rfl)]

theorem forwardLoop_step (fuel : Nat) (t t1 : btree T) (it it1 : btree_iterator)
    (out : List T) (x : T) (hne : it.pointee ≠ none) (hx : it.deref t = .ok x)
    (hinc : it.inc t = .ok (t1, it1)) :
    forwardLoop (fuel + 1) t it out = forwardLoop fuel t1 it1 (out ++ [x]) := by
  have h : it ≠ btree.end_ := by
    intro h
    rw [h] at hne
    exact hne rfl
  rw [forwardLoop, if_neg h]
  simp only [hx, hinc]

theorem afterSlot_cons_pos (e : T) (es : List T) (cs : List (Option (Node T))) :
    0 < (afterSlot (e :: es) cs).length := by
  cases cs <;> simp [afterSlot]

theorem walk_shallow (es : List T) (cs : List (Option (Node T))) (cap : Nat)
    (tl : Option Path) (me size : Nat) (hes : es.length ≤ cap) (hcs : cs.length = cap + 1)
    (hcap : cap < SIZE_MOD)
    (hleaf : ∀ (i : Nat) (d : Node T), cs[i]? = some (some d) →
      d.element ≠ [] ∧ d.element.length ≤ cap ∧ d.children.length = cap + 1 ∧
        (∀ s ∈ d.children, s = none) ∧ d.traverse_index = 0) :
    ∀ n : Nat,
      (∀ (j s fuel : Nat) (out : List T), j < es.length →
        (afterSlot (es.drop j) (cs.drop (j + 1))).length = n → s + n = size → n < fuel →
        forwardLoop fuel ⟨some ⟨es, cs, cap, j⟩, tl, me, size, s⟩ ⟨some [], j⟩ out =
          .ok (⟨some ⟨es, cs, cap, 0⟩, tl, me, size, size⟩,
            out ++ afterSlot (es.drop j) (cs.drop (j + 1)))) ∧
      (∀ (i j s fuel : Nat) (d : Node T) (out : List T), cs[i]? = some (some d) →
        j < d.element.length →
        (d.element.drop j ++ afterSlot (es.drop i) (cs.drop (i + 1))).length = n →
        s + n = size → n < fuel →
        forwardLoop fuel
            ⟨some ⟨es, cs.set i (some { d with traverse_index := j }), cap, i⟩,
              tl, me, size, s⟩ ⟨some [i], j⟩ out =
          .ok (⟨some ⟨es, cs, cap, 0⟩, tl, me, size, size⟩,
            out ++ (d.element.drop j ++ afterSlot (es.drop i) (cs.drop (i + 1))))) := by
  intro n
  induction n with
  | zero =>
    constructor
    · intro j s fuel out hj hlen
      rw [List.drop_eq_getElem_cons hj] at hlen
      have := afterSlot_cons_pos es[j] (es.drop (j + 1)) (cs.drop (j + 1))
      omega
    · intro i j s fuel d out hd hj hlen
      rw [List.drop_eq_getElem_cons hj] at hlen
      simp only [List.cons_append, List.length_cons] at hlen
      omega
  | succ n ih =>
    constructor
    · intro j s fuel out hj hlen hs hfuel
      have hj1 : j + 1 < cs.length := by omega
      obtain ⟨fuel, rfl⟩ : ∃ f, fuel = f + 1 := ⟨fuel - 1, by omega⟩
      have hx : es[j]? = some es[j] := List.getElem?_eq_getElem hj
      have hc1 : cs[j + 1]? = some cs[j + 1] := List.getElem?_eq_getElem hj1
      rw [List.drop_eq_getElem_cons hj, List.drop_eq_getElem_cons hj1, afterSlot] at hlen ⊢
      generalize cs[j + 1] = c at hc1 hlen ⊢
      rcases c with _ | d
      · simp only [slotElems, List.nil_append, List.length_cons] at hlen ⊢
        by_cases hlast : j + 1 < es.length
        · rw [forwardLoop_step fuel _ _ _ _ out es[j] (by simp)
            (derefA es cs cap j j tl me size s _ hx)
            (incA_next es cs cap j tl me size s hc1 hlast hes hcap)]
          rw [(ih.1 (j + 1) (s + 1) fuel (out ++ [es[j]]) hlast (by omega) (by omega)
            (by omega))]
          simp
        · have hnil : es.drop (j + 1) = [] := List.drop_eq_nil_of_le (by omega)
          rw [hnil] at hlen ⊢
          simp only [afterSlot, List.length_nil] at hlen ⊢
          rw [forwardLoop_step fuel _ _ _ _ out es[j] (by simp)
            (derefA es cs cap j j tl me size s _ hx)
            (incA_end es cs cap j tl me size s hc1 (by omega) hes hcap (by omega))]
          rw [forwardLoop_end fuel _ _ (by omega)]
      · obtain ⟨hdne, hdle, hdcs, hdnone, hd0⟩ := hleaf (j + 1) d hc1
        simp only [slotElems, List.length_cons] at hlen ⊢
        rw [forwardLoop_step fuel _ _ _ _ out es[j] (by simp)
          (derefA es cs cap j j tl me size s _ hx)
          (incA_child es cs cap j d tl me size s hc1 hd0)]
        have hpos : 0 < d.element.length := List.length_pos.2 hdne
        rw [(ih.2 (j + 1) 0 (s + 1) fuel d (out ++ [es[j]]) hc1 hpos
          (by simpa using hlen) (by omega) (by omega))]
        simp
    · intro i j s fuel d out hd hj hlen hs hfuel
      obtain ⟨hdne, hdle, hdcs, hdnone, hd0⟩ := hleaf i d hd
      obtain ⟨fuel, rfl⟩ : ∃ f, fuel = f + 1 := ⟨fuel - 1, by omega⟩
      have hx : d.element[j]? = some d.element[j] := List.getElem?_eq_getElem hj
      have hch : d.children[j + 1]? = some none := by
        have hlt : j + 1 < d.children.length := by omega
        rw [List.getElem?_eq_getElem hlt, hdnone _ (List.getElem_mem hlt)]
      rw [List.drop_eq_getElem_cons hj] at hlen ⊢
      simp only [List.cons_append, List.length_cons] at hlen ⊢
      by_cases hlast : j + 1 < d.element.length
      · rw [forwardLoop_step fuel _ _ _ _ out d.element[j] (by simp)
          (derefB es cs cap i j d { d with traverse_index := j } tl me size s _ hd hx)
          (incB_next es cs cap i j d tl me size s hd hch hlast hdle hcap)]
        rw [(ih.2 i (j + 1) (s + 1) fuel d (out ++ [d.element[j]]) hd hlast (by omega)
          (by omega) (by omega))]
        simp
      · have hnil : d.element.drop (j + 1) = [] := List.drop_eq_nil_of_le (by omega)
        rw [hnil] at hlen ⊢
        simp only [List.nil_append] at hlen ⊢
        by_cases hi : i < es.length
        · have hn : 0 < n := by
            rw [List.drop_eq_getElem_cons hi] at hlen
            have := afterSlot_cons_pos es[i] (es.drop (i + 1)) (cs.drop (i + 1))
            omega
          rw [forwardLoop_step fuel _ _ _ _ out d.element[j] (by simp)
            (derefB es cs cap i j d { d with traverse_index := j } tl me size s _ hd hx)
            (incB_up es cs cap i j d tl me size s hd hd0 hch (by omega) hdle hcap (by omega))]
          rw [(ih.1 i (s + 1) fuel (out ++ [d.element[j]]) hi (by omega) (by omega)
            (by omega))]
          simp
        · have hnil2 : es.drop i = [] := List.drop_eq_nil_of_le (by omega)
          rw [hnil2] at hlen ⊢
          simp only [afterSlot, List.length_nil] at hlen ⊢
          rw [forwardLoop_step fuel _ _ _ _ out d.element[j] (by simp)
            (derefB es cs cap i j d { d with traverse_index := j } tl me size s _ hd hx)
            (incB_end es cs cap i j d tl me size s hd hd0 hch (by omega) hdle hcap (by omega))]
          rw [forwardLoop_end fuel _ _ (by omega)]

end ForwardWalkLoop

section ForwardWalkOrder
variable {T : Type}

theorem mem_afterSlot : ∀ (es : List T) (cs : List (Option (Node T))) (x : T),
    x ∈ afterSlot es cs → x ∈ es ∨ ∃ (k : Nat) (d : Node T), cs[k]? = some (some d) ∧
      x ∈ d.element
  | [], _, x, h => by simp [afterSlot] at h
  | e :: es, [], x, h => by
    rw [afterSlot] at h
    exact Or.inl h
  | e :: es, c :: cs, x, h => by
    rw [afterSlot] at h
    rcases List.mem_cons.1 h with h | h
    · exact Or.inl (by rw [h]; exact List.mem_cons_self _ _)
    · rcases List.mem_append.1 h with h | h
      · cases c with
        | none => simp [slotElems] at h
        | some d => exact Or.inr ⟨0, d, by simp, h⟩
      · rcases mem_afterSlot es cs x h with h | ⟨k, d, hk, hx⟩
        · exact Or.inl (List.mem_cons_of_mem _ h)
        · exact Or.inr ⟨k + 1, d, by simpa using hk, hx⟩

theorem afterSlot_sorted [LinearOrder T] : ∀ (es : List T) (cs : List (Option (Node T))),
    es.Pairwise (· < ·) →
    (∀ (k : Nat) (d : Node T), cs[k]? = some (some d) → d.element.Pairwise (· < ·) ∧
      ∀ x ∈ d.element, (∀ (j : Nat) (y : T), j ≤ k → es[j]? = some y → y < x) ∧
        ∀ y : T, es[k + 1]? = some y → x < y) →
    (afterSlot es cs).Pairwise (· < ·) ∧ ∀ x ∈ afterSlot es cs, ∀ y : T, es[0]? = some y → y ≤ x
  | [], _, _, _ => by simp [afterSlot]
  | e :: es, [], hs, _ => by
    rw [afterSlot]
    refine ⟨hs, ?_⟩
    intro x hx y hy
    simp only [List.getElem?_cons_zero, Option.some.injEq] at hy
    subst hy
    rcases List.mem_cons.1 hx with h | h
    · exact le_of_eq h.symm
    · exact le_of_lt (List.rel_of_pairwise_cons hs h)
  | e :: es, c :: cs, hs, hb => by
    have hb1 : ∀ (k : Nat) (d : Node T), cs[k]? = some (some d) →
        d.element.Pairwise (· < ·) ∧
        ∀ x ∈ d.element, (∀ (j : Nat) (y : T), j ≤ k → es[j]? = some y → y < x) ∧
          ∀ y : T, es[k + 1]? = some y → x < y := by
      intro k d hk
      obtain ⟨h1, h2⟩ := hb (k + 1) d (by simpa using hk)
      refine ⟨h1, fun x hx => ⟨fun j y hj hy => (h2 x hx).1 (j + 1) y (by omega) (by simpa using hy),
        fun y hy => (h2 x hx).2 y (by simpa using hy)⟩⟩
    obtain ⟨ih1, ih2⟩ := afterSlot_sorted es cs (List.Pairwise.of_cons hs) hb1
    have hlow : ∀ x ∈ afterSlot es cs, e < x := by
      intro x hx
      rcases mem_afterSlot es cs x hx with h | ⟨k, d, hk, hxd⟩
      · exact List.rel_of_pairwise_cons hs h
      · exact ((hb (k + 1) d (by simpa using hk)).2 x hxd).1 0 e (by omega) (by simp)
    have hslot : (slotElems c).Pairwise (· < ·) ∧ (∀ x ∈ slotElems c, e < x) ∧
        ∀ x ∈ slotElems c, ∀ y ∈ afterSlot es cs, x < y := by
      cases c with
      | none => simp [slotElems]
      | some d =>
        obtain ⟨h1, h2⟩ := hb 0 d (by simp)
        refine ⟨h1, fun x hx => (h2 x hx).1 0 e (le_refl 0) (by simp), ?_⟩
        intro x hx y hy
        cases es with
        | nil => simp [afterSlot] at hy
        | cons e1 es1 =>
          exact lt_of_lt_of_le ((h2 x hx).2 e1 (by simp)) (ih2 y hy e1 (by simp))
    rw [afterSlot]
    refine ⟨List.Pairwise.cons ?_ (List.pairwise_append.2 ⟨hslot.1, ih1, hslot.2.2⟩), ?_⟩
    · intro x hx
      rcases List.mem_append.1 hx with h | h
      · exact hslot.2.1 x h
      · exact hlow x h
    · intro x hx y hy
      simp only [List.getElem?_cons_zero, Option.some.injEq] at hy
      subst hy
      rcases List.mem_cons.1 hx with h | h
      · exact le_of_eq h.symm
      · rcases List.mem_append.1 h with h | h
        · exact le_of_lt (hslot.2.1 x h)
        · exact le_of_lt (hlow x h)

theorem afterSlot_perm : ∀ (es : List T) (cs : List (Option (Node T))),
    (∀ (k : Nat) (d : Node T), cs[k]? = some (some d) → k < es.length ∧ d.elems = d.element) →
    (afterSlot es cs).Perm (es ++ elemsSlots cs)
  | [], cs, h => by
    rw [afterSlot, elemsSlots_eq_nil cs]
    · simp
    · intro i
      rcases hc : cs[i]? with _ | _ | d
      · rfl
      · rfl
      · exact absurd (h i d hc).1 (by simp)
  | e :: es, [], _ => by
    rw [afterSlot, elemsSlots]
    simp
  | e :: es, c :: cs, h => by
    have ih := afterSlot_perm es cs (fun k d hk => by
      obtain ⟨h1, h2⟩ := h (k + 1) d (by simpa using hk)
      exact ⟨by simpa using h1, h2⟩)
    rw [afterSlot]
    refine List.Perm.cons e ?_
    cases c with
    | none =>
      rw [elemsSlots]
      simpa [slotElems] using ih
    | some d =>
      rw [elemsSlots, (h 0 d (by simp)).2]
      simp only [slotElems]
      refine (List.Perm.append_left _ ih).trans ?_
      show (d.element ++ (es ++ elemsSlots cs)).Perm (es ++ (d.element ++ elemsSlots cs))
      exact List.perm_append_comm_assoc _ _ _

end ForwardWalkOrder

section ForwardWalkBegin
variable {T : Type}

theorem begin_shallow (es : List T) (cs : List (Option (Node T))) (cap : Nat)
    (tl : Option Path) (me size sc : Nat) (hne : es ≠ []) (hcs : cs.length = cap + 1)
    (hleaf : ∀ (i : Nat) (d : Node T), cs[i]? = some (some d) →
      d.element ≠ [] ∧ d.element.length ≤ cap ∧ d.children.length = cap + 1 ∧
        (∀ s ∈ d.children, s = none) ∧ d.traverse_index = 0) :
    btree.begin ⟨some ⟨es, cs, cap, 0⟩, tl, me, size, sc⟩ =
      .ok (⟨some ⟨es, cs, cap, 0⟩, tl, me, size, 0⟩,
        ⟨some (match cs[0]? with
          | some (some _) => [0]
          | _ => []), 0⟩) := by
  have hlen : 0 < es.length := List.length_pos.2 hne
  have h0 : 0 < cs.length := by omega
  have hc0 : cs[0]? = some cs[0] := List.getElem?_eq_getElem h0
  generalize cs[0] = c0 at hc0
  rcases c0 with _ | d
  · obtain ⟨k, hk⟩ : ∃ k, (⟨es, cs, cap, 0⟩ : Node T).weight = k + 1 :=
      ⟨es.length + weightSlots cs, by rw [Node.weight_eq]; simp only; omega⟩
    simp only [btree.begin, hk, beginWhile, Node.get?, hc0]
  · obtain ⟨hdne, hdle, hdcs, hdnone, hd0⟩ := hleaf 0 d hc0
    have hw := weightSlots_child cs 0 d hc0
    have hdw := Node.weight_eq d
    obtain ⟨k, hk⟩ : ∃ k, (⟨es, cs, cap, 0⟩ : Node T).weight = k + 1 + 1 :=
      ⟨es.length + weightSlots cs - 1, by rw [Node.weight_eq]; simp only; omega⟩
    have hd00 : d.children[0]? = some none := by
      have hlt : 0 < d.children.length := by omega
      rw [List.getElem?_eq_getElem hlt, hdnone _ (List.getElem_mem hlt)]
    simp only [btree.begin, hk, beginWhile, Node.get?, hc0, List.nil_append, hd00]

theorem forward_shallow (es : List T) (cs : List (Option (Node T))) (cap : Nat)
    (tl : Option Path) (me size sc fuel : Nat) (hne : es ≠ []) (hes : es.length ≤ cap)
    (hcs : cs.length = cap + 1) (hcap : cap < SIZE_MOD)
    (hleaf : ∀ (i : Nat) (d : Node T), cs[i]? = some (some d) →
      d.element ≠ [] ∧ d.element.length ≤ cap ∧ d.children.length = cap + 1 ∧
        (∀ s ∈ d.children, s = none) ∧ d.traverse_index = 0)
    (hsize : size = (inorderShallow ⟨es, cs, cap, 0⟩).length) (hfuel : size < fuel) :
    btree.forward fuel ⟨some ⟨es, cs, cap, 0⟩, tl, me, size, sc⟩ =
      .ok (⟨some ⟨es, cs, cap, 0⟩, tl, me, size, size⟩,
        inorderShallow ⟨es, cs, cap, 0⟩) := by
  have hlen : 0 < es.length := List.length_pos.2 hne
  have hwalk := walk_shallow es cs cap tl me size hes hcs hcap hleaf size
  rw [btree.forward, begin_shallow es cs cap tl me size sc hne hcs hleaf]
  simp only
  cases cs with
  | nil => simp at hcs
  | cons c0 cs1 =>
    simp only [inorderShallow] at hsize ⊢
    cases c0 with
    | none =>
      simp only [List.getElem?_cons_zero, slotElems, List.nil_append] at hsize ⊢
      have h := hwalk.1 0 0 fuel [] hlen (by simpa using hsize.symm) (by omega) hfuel
      simpa using h
    | some d =>
      obtain ⟨hdne, hdle, hdcs, hdnone, hd0⟩ := hleaf 0 d (by simp)
      simp only [List.getElem?_cons_zero, slotElems] at hsize ⊢
      have h := hwalk.2 0 0 0 fuel d [] (by simp) (List.length_pos.2 hdne)
        (by simpa using hsize.symm) (by omega) hfuel
      have e : (some d :: cs1).set 0 (some { d with traverse_index := 0 }) = some d :: cs1 := by
        apply set_getElem?_self
        rw [Node.eta_fresh d hd0]
        simp
      rw [e] at h
      simpa using h

end ForwardWalkBegin

section ForwardWalkSpec
variable {T : Type}

theorem get?_single (root d : Node T) (i : Nat) (h : root.children[i]? = some (some d)) :
    root.get? [i] = some d := by
  rw [Node.get?]
  simp [h, Node.get?]

theorem inorderShallow_perm (root : Node T)
    (hpos : ∀ (k : Nat) (d : Node T), root.children[k]? = some (some d) →
      k ≤ root.element.length ∧ d.elems = d.element) :
    (inorderShallow root).Perm root.elems := by
  rw [Node.elems_eq]
  obtain ⟨es, cs, cap, ti⟩ := root
  simp only [inorderShallow] at hpos ⊢
  cases cs with
  | nil => simp [elemsSlots]
  | cons c0 cs1 =>
    have ih := afterSlot_perm es cs1 (fun k d hk => by
      obtain ⟨h1, h2⟩ := hpos (k + 1) d (by simpa using hk)
      exact ⟨by omega, h2⟩)
    cases c0 with
    | none =>
      rw [elemsSlots]
      simpa [slotElems] using ih
    | some d =>
      rw [elemsSlots, (hpos 0 d (by simp)).2]
      simp only [slotElems]
      refine (List.Perm.append_left _ ih).trans ?_
      show (d.element ++ (es ++ elemsSlots cs1)).Perm (es ++ (d.element ++ elemsSlots cs1))
      exact List.perm_append_comm_assoc _ _ _

theorem inorderShallow_sorted [LinearOrder T] (root : Node T) (ho : Ordered root) :
    (inorderShallow root).Pairwise (· < ·) := by
  have hsorted := ho.sorted [] root rfl
  have hb : ∀ (i : Nat) (d : Node T), root.children[i]? = some (some d) →
      d.element.Pairwise (· < ·) ∧ ∀ x ∈ d.element,
        (∀ y, root.element[i]? = some y → x < y) ∧
        ∀ (j : Nat) (y : T), j < i → root.element[j]? = some y → y < x := by
    intro i d hd
    have hg := get?_single root d i hd
    exact ⟨ho.sorted [i] d hg, ho.bounded [] i [] root d rfl hg⟩
  obtain ⟨es, cs, cap, ti⟩ := root
  simp only [inorderShallow] at hsorted hb ⊢
  cases cs with
  | nil => exact hsorted
  | cons c0 cs1 =>
    obtain ⟨h1, h2⟩ := afterSlot_sorted es cs1 hsorted (fun k d hk => by
      obtain ⟨h1, h2⟩ := hb (k + 1) d (by simpa using hk)
      exact ⟨h1, fun x hx => ⟨fun j y hj hy => (h2 x hx).2 j y (by omega) hy,
        fun y hy => (h2 x hx).1 y hy⟩⟩)
    cases c0 with
    | none => simpa [slotElems] using h1
    | some d =>
      obtain ⟨h3, h4⟩ := hb 0 d (by simp)
      simp only [slotElems]
      refine List.pairwise_append.2 ⟨h3, h1, ?_⟩
      intro x hx y hy
      cases es with
      | nil => simp [afterSlot] at hy
      | cons e es1 => exact lt_of_lt_of_le ((h4 x hx).1 e (by simp)) (h2 y hy e (by simp))

/-- C19: for every non-empty tree reachable by `insert` calls alone (capacity `c`
with `1 ≤ c`, `c` a `size_t`) that has no node below a child of the root, the loop
that steps from `begin()` with `operator++` until the cursor equals `end()`
terminates within `btree_size + 1` tests of the cursor: the elements it visits are
strictly increasing and are a permutation of the stored elements, their number, which
is the number of increments, is `btree_size`, and the tree it leaves is the tree it
started from with `search_count = btree_size`, every node's `traverse_index` being
0. -/
theorem forward_walk_root_children [LinearOrder T] (c : Nat) (hc : 1 ≤ c)
    (hcap : c < SIZE_MOD) (t : btree T) (h : Reachable c t) (hne : t.elems ≠ [])
    (hshallow : ∀ (i j : Nat) (q : Path), t.node? (i :: j :: q) = none)
    (fuel : Nat) (hfuel : t.btree_size < fuel) :
    ∃ out : List T,
      t.forward fuel = .ok ({ t with search_count := t.btree_size }, out) ∧
      out.Pairwise (· < ·) ∧ out.Perm t.elems ∧ out.length = t.btree_size ∧
      ∀ (p : Path) (n : Node T),
        ({ t with search_count := t.btree_size } : btree T).node? p = some n →
          n.traverse_index = 0 := by
  rcases hroot : t.root with _ | root
  · simp [btree.elems, hroot] at hne
  · have hs := h.shape hc
    have ho := h.ordered hc root hroot
    have hsz := h.size_eq hc
    have hok := hs.nodes root [] root hroot rfl
    have hleaf : ∀ (i : Nat) (d : Node T), root.children[i]? = some (some d) →
        d.element ≠ [] ∧ d.element.length ≤ c ∧ d.children.length = c + 1 ∧
          (∀ s ∈ d.children, s = none) ∧ d.traverse_index = 0 := by
      intro i d hd
      have hg := get?_single root d i hd
      have hdok := hs.nodes root [i] d hroot hg
      refine ⟨hdok.nonempty, hdok.size_le, hdok.slots, ?_, hdok.fresh⟩
      intro s hsm
      rcases s with _ | d2
      · rfl
      · obtain ⟨j, hj, hjs⟩ := List.getElem_of_mem hsm
        have h2 : d.children[j]? = some (some d2) := by
          rw [List.getElem?_eq_getElem hj, hjs]
        have h3 := hshallow i j []
        have h4 : root.get? [i, j] = some d2 := by
          rw [Node.get?_cons, hd]
          simpa [Option.join] using get?_single d d2 j h2
        rw [btree.node?, hroot, Option.some_bind, h4] at h3
        cases h3
    have hperm : (inorderShallow root).Perm root.elems := by
      apply inorderShallow_perm
      intro k d hd
      obtain ⟨-, -, -, hnone, -⟩ := hleaf k d hd
      refine ⟨?_, ?_⟩
      · by_contra hlt
        have hfull : root.element.length = c := by
          by_contra hnf
          have := hok.childless (by have := hok.size_le; omega) (some d)
            (List.getElem?_mem hd)
          cases this
        have hk : k < root.children.length := by
          by_contra hge
          rw [List.getElem?_eq_none (by omega)] at hd
          cases hd
        have := hok.slots
        omega
      · rw [Node.elems_eq, elemsSlots_eq_nil d.children, List.append_nil]
        intro i
        rcases hc2 : d.children[i]? with _ | s
        · rfl
        · rw [hnone s (List.getElem?_mem hc2)]
          rfl
    have helems : t.elems = root.elems := by simp [btree.elems, hroot]
    have hnodes : ∀ (p : Path) (n : Node T), root.get? p = some n → n.traverse_index = 0 :=
      fun p n hn => (hs.nodes root p n hroot hn).fresh
    have hsorted := inorderShallow_sorted root ho
    obtain ⟨r, tl, me, size, sc⟩ := t
    obtain ⟨es, cs, cap, ti⟩ := root
    simp only at hroot hok hleaf hsz hfuel
    have hti : ti = 0 := hok.fresh
    have hcapc : cap = c := hok.capacity_eq
    subst hroot hti hcapc
    refine ⟨inorderShallow ⟨es, cs, cap, 0⟩, ?_, hsorted, ?_, ?_, ?_⟩
    · exact forward_shallow es cs cap tl me size sc fuel hok.nonempty hok.size_le hok.slots
        hcap hleaf (hsz.trans ((congrArg List.length helems).trans hperm.length_eq.symm)) hfuel
    · rw [helems]
      exact hperm
    · exact hperm.length_eq.trans ((congrArg List.length helems).symm.trans hsz.symm)
    · intro p n hn
      exact hnodes p n (by simpa [btree.node?] using hn)

/-- Witness for C19: the capacity-3 tree built from 5, 3, 8, 1, 4, 7, 9, 2, 6, whose
root 3, 5, 8 has the four leaves 1, 2 and 4 and 6, 7 and 9, walked with fuel 10. -/
theorem forward_walk_root_children_witness :
    ∃ out : List Nat,
      (build 3 [5, 3, 8, 1, 4, 7, 9, 2, 6]).forward 10 =
        .ok ({ build 3 [5, 3, 8, 1, 4, 7, 9, 2, 6] with
                search_count := (build 3 [5, 3, 8, 1, 4, 7, 9, 2, 6]).btree_size }, out) ∧
      out.Pairwise (· < ·) ∧ out.Perm (build 3 [5, 3, 8, 1, 4, 7, 9, 2, 6]).elems ∧
      out.length = (build 3 [5, 3, 8, 1, 4, 7, 9, 2, 6]).btree_size ∧
      ∀ (p : Path) (n : Node Nat),
        ({ build 3 [5, 3, 8, 1, 4, 7, 9, 2, 6] with
            search_count := (build 3 [5, 3, 8, 1, 4, 7, 9, 2, 6]).btree_size } :
          btree Nat).node? p = some n → n.traverse_index = 0 :=
  forward_walk_root_children 3 (by decide) (by decide) (build 3 [5, 3, 8, 1, 4, 7, 9, 2, 6])
    (reachable_build 3 _) (by decide)
    (fun i j q => by
      rcases i with _ | _ | _ | _ | i <;> rcases j with _ | _ | _ | _ | j <;> rfl)
    10 (by decide)

end ForwardWalkSpec

/-! ## Decrement, repeated traversals and the raw-pointer shift -/

section ClaimsD

/-- C21 (the code breaks the claim): in the capacity-3 tree built from 5, 3, 8, 1, 4,
7, 9, 2, 6 the root holds 3, 5, 8 and its child slots 0 and 2 hold the nodes 1, 2 and
6, 7.  `operator--` on the cursor at index 0 of the root enters slot 0 at index 0,
the element 1, not at index 1, the child's last element 2; on the cursor at index 2
it enters slot 2 at index 0, the element 6, not at the last element 7. -/
theorem decrement_enters_child_at_front :
    ((build 3 [5, 3, 8, 1, 4, 7, 9, 2, 6]).node? [0]).map Node.element = some [1, 2] ∧
    ((build 3 [5, 3, 8, 1, 4, 7, 9, 2, 6]).node? [2]).map Node.element = some [6, 7] ∧
    (thenDec (.ok (build 3 [5, 3, 8, 1, 4, 7, 9, 2, 6], ⟨some [], 0⟩))).view
      = some (some [0], 0, some 1) ∧
    (thenDec (.ok (build 3 [5, 3, 8, 1, 4, 7, 9, 2, 6], ⟨some [], 2⟩))).view
      = some (some [2], 0, some 6) := by
  refine ⟨rfl, rfl, rfl, rfl⟩

/-- C25 (the code breaks the claim): in the capacity-3 tree built from 5, 3, 8, 1, 4,
7, 9, 2, 6 the cursor reached from `begin()` by one increment is at index 1 of the
node 1, 2 and holds 2.  `operator++` moves it to index 0 of the root, the element 3,
and `operator--` then moves it to index 0 of the node 1, 2, the element 1, not back to
index 1.  From the cursor reached by two increments, index 0 of the root, the pair
ends at index 1 of the root, the element 5. -/
theorem increment_decrement_not_inverse :
    (thenInc (build 3 [5, 3, 8, 1, 4, 7, 9, 2, 6]).begin).view = some (some [0], 1, some 2) ∧
    (thenInc (thenInc (build 3 [5, 3, 8, 1, 4, 7, 9, 2, 6]).begin)).view
      = some (some [], 0, some 3) ∧
    (thenDec (thenInc (thenInc (build 3 [5, 3, 8, 1, 4, 7, 9, 2, 6]).begin))).view
      = some (some [0], 0, some 1) ∧
    (thenDec (thenInc (thenInc (thenInc (build 3 [5, 3, 8, 1, 4, 7, 9, 2, 6]).begin)))).view
      = some (some [], 1, some 5) := by
  refine ⟨rfl, rfl, rfl, rfl⟩

/-- C26 (the code breaks the claim): in the capacity-3 tree built from 5, 3, 8, 1, 4,
7, 9, 2, 6, where only the root has children, a traversal abandoned after three
increments (at the element 4) leaves `traverse_index` of the root at 1.  The second
traversal starts at 1, visits 2 and then goes up to index 1 of the root, the element
5, skipping 3 and 4; it never reaches `end()` and indexes a child vector out of
range.  On the fresh tree the traversal visits 1 to 9. -/
theorem abandoned_walk_disturbs_next :
    ((build 3 [5, 3, 8, 1, 4, 7, 9, 2, 6]).forward 30).map Prod.snd
      = .ok [1, 2, 3, 4, 5, 6, 7, 8, 9] ∧
    (thenInc (thenInc (thenInc (build 3 [5, 3, 8, 1, 4, 7, 9, 2, 6]).begin))).view
      = some (some [1], 0, some 4) ∧
    (match thenInc (thenInc (thenInc (build 3 [5, 3, 8, 1, 4, 7, 9, 2, 6]).begin)) with
      | .ok (t, _) => t.root.map Node.traverse_index
      | .error _ => none) = some 1 ∧
    (thenInc (thenInc (thenBegin
        (thenInc (thenInc (thenInc (build 3 [5, 3, 8, 1, 4, 7, 9, 2, 6]).begin)))))).view
      = some (some [], 1, some 5) ∧
    (match thenInc (thenInc (thenInc (build 3 [5, 3, 8, 1, 4, 7, 9, 2, 6]).begin)) with
      | .ok (t, _) => (t.forward 30).map Prod.snd
      | .error f => .error f) = .error .outOfRange := by
  refine ⟨rfl, rfl, rfl, rfl, rfl⟩

/-- C28 (the code breaks the claim): in the raw-pointer variant the shift loop stops at
`j > 0`, so at insertion index 0 the element at index 0 is not moved and is
overwritten.  Inserting 3 into the non-full node holding 5 (array 5, 0, 0) gives the
array 3, 0, 0 with count 2: 5 is lost.  Inserting 3 into the node holding 5, 7 gives
3, 7, 7 with count 3.  At insertion index 1 (7 into 5, 9) the shift is right: 5, 7,
9. -/
theorem raw_shift_loses_first_element :
    rawInsertNode 3 false ⟨[5, 0, 0], 1⟩ = .ok (.inserted ⟨[3, 0, 0], 2⟩ 0) ∧
    rawInsertNode 3 false ⟨[5, 7, 0], 2⟩ = .ok (.inserted ⟨[3, 7, 7], 3⟩ 0) ∧
    rawInsertNode 7 false ⟨[5, 9, 0], 2⟩ = .ok (.inserted ⟨[5, 7, 9], 3⟩ 1) := by
  refine ⟨rfl, rfl, rfl⟩

end ClaimsD

/-! ## The first element of the reverse walk and of the forward walk -/

section ReverseBegin
variable {T : Type}

theorem dec_prev (t : btree T) (root n : Node T) (p : Path) (idx : Nat)
    (hroot : t.root = some root) (hn : root.get? p = some n)
    (hch : n.children[idx]? = some none) (hidx : idx ≠ 0) :
    (⟨some p, idx⟩ : btree_iterator).dec t =
      .ok ({ t with
              search_count := t.search_count + 1
              root := some (root.modify
                (fun m => { m with
                  traverse_index := (m.traverse_index + SIZE_MOD - 1) % SIZE_MOD }) p) },
           ⟨some p, idx - 1⟩) := by
  simp only [btree_iterator.dec, hroot, hn, hch, if_neg hidx]

/-- In an ordered tree the node whose last element is at least every stored element has
no child after that element. -/
theorem no_child_after_maximum [LinearOrder T] {c : Nat} {root : Node T} (ho : Ordered root)
    (hnodes : ∀ (p : Path) (n : Node T), root.get? p = some n → NodeOK c n)
    (tl : Path) (tn : Node T) (back : T) (htl : root.get? tl = some tn)
    (hback : tn.element.getLast? = some back) (hmax : ∀ x ∈ root.elems, x ≤ back) :
    tn.children[tn.element.length]? = some none := by
  have hok := hnodes tl tn htl
  have hlt : tn.element.length < tn.children.length := by
    have h1 := hok.slots
    have h2 := hok.size_le
    omega
  have hidx : tn.element[tn.element.length - 1]? = some back := by
    rw [← List.getLast?_eq_getElem?]
    exact hback
  have hpos : 0 < tn.element.length := by
    rcases hl : tn.element with _ | ⟨a, l⟩
    · rw [hl] at hback
      cases hback
    · simp
  rcases hch : tn.children[tn.element.length]? with _ | _ | d
  · rw [List.getElem?_eq_none_iff] at hch
    omega
  · rfl
  · exfalso
    have hget : root.get? (tl ++ [tn.element.length]) = some d := by
      rw [Node.get?_snoc tl _ root tn htl, hch]
      rfl
    have hdok := hnodes _ d hget
    rcases hde : d.element with _ | ⟨x, l⟩
    · exact hdok.nonempty hde
    · have hx : x ∈ d.element := by rw [hde]; exact List.mem_cons_self _ _
      have h1 := (ho.bounded tl tn.element.length [] tn d htl hget x hx).2
        (tn.element.length - 1) back (by omega) hidx
      have h2 := hmax x (Node.mem_elems_of_get? _ root d x hget hx)
      exact absurd h1 (not_lt.2 h2)

/-- C22: in every non-empty tree reachable by `insert` calls (capacity at least 1)
`rbegin()` returns the reverse cursor whose base is (tail, element count of the tail
node), and dereferencing it (decrementing a copy of the base once and dereferencing
the copy) is defined and yields a stored element that is at least every stored
element. -/
theorem rbegin_deref_is_maximum [LinearOrder T] (c : Nat) (hc : 1 ≤ c) (t : btree T)
    (h : Reachable c t) (hne : t.elems ≠ []) :
    ∃ (tl : Path) (tn : Node T) (t1 t2 : btree T) (x : T),
      t.tail = some tl ∧ t.node? tl = some tn ∧
      t.rbegin = .ok (t1, ⟨⟨some tl, tn.element.length⟩⟩) ∧
      (⟨⟨some tl, tn.element.length⟩⟩ : reverse_iterator).deref t1 = .ok (t2, x) ∧
      x ∈ t.elems ∧ ∀ y ∈ t.elems, y ≤ x := by
  rcases hroot : t.root with _ | root
  · simp [btree.elems, hroot] at hne
  · have hs := h.shape hc
    have ho := h.ordered hc root hroot
    obtain ⟨tl, tn, back, ht, htl, hback, hmax, -⟩ := h.tailMax hc root hroot
    have hnodes : ∀ (p : Path) (n : Node T), root.get? p = some n → NodeOK c n :=
      fun p n hn => hs.nodes root p n hroot hn
    have hch := no_child_after_maximum ho hnodes tl tn back htl hback hmax
    have hidx : tn.element[tn.element.length - 1]? = some back := by
      rw [← List.getLast?_eq_getElem?]
      exact hback
    have hpos : tn.element.length ≠ 0 := by
      intro h0
      rw [List.length_eq_zero] at h0
      rw [h0] at hback
      cases hback
    have hmem : back ∈ root.elems :=
      Node.mem_elems_of_get? tl root tn back htl (List.mem_of_getLast?_eq_some hback)
    have hnode : t.node? tl = some tn := by simp [btree.node?, hroot, htl]
    refine ⟨tl, tn, { t with search_count := 0 },
      { t with
        search_count := 0 + 1
        root := some (root.modify
          (fun m => { m with
            traverse_index := (m.traverse_index + SIZE_MOD - 1) % SIZE_MOD }) tl) },
      back, ht, hnode, ?_, ?_, ?_, ?_⟩
    · simp only [btree.rbegin, ht, hnode]
    · rw [reverse_iterator.deref]
      simp only
      rw [dec_prev { t with search_count := 0 } root tn tl tn.element.length hroot htl hch
          hpos]
      simp only [btree_iterator.deref, btree.node?, Option.some_bind,
        Node.get?_modify_self _ tl root tn htl, hidx]
    · simpa [btree.elems, hroot] using hmem
    · simpa [btree.elems, hroot] using hmax

/-- Witness for C22: the capacity-3 tree built from 5, 3, 8, 1, 4, 7, 9, 2, 6. -/
theorem rbegin_deref_is_maximum_witness :
    ∃ (tl : Path) (tn : Node Nat) (t1 t2 : btree Nat) (x : Nat),
      (build 3 [5, 3, 8, 1, 4, 7, 9, 2, 6]).tail = some tl ∧
      (build 3 [5, 3, 8, 1, 4, 7, 9, 2, 6]).node? tl = some tn ∧
      (build 3 [5, 3, 8, 1, 4, 7, 9, 2, 6]).rbegin =
        .ok (t1, ⟨⟨some tl, tn.element.length⟩⟩) ∧
      (⟨⟨some tl, tn.element.length⟩⟩ : reverse_iterator).deref t1 = .ok (t2, x) ∧
      x ∈ (build 3 [5, 3, 8, 1, 4, 7, 9, 2, 6]).elems ∧
      ∀ y ∈ (build 3 [5, 3, 8, 1, 4, 7, 9, 2, 6]).elems, y ≤ x :=
  rbegin_deref_is_maximum 3 (by decide) (build 3 [5, 3, 8, 1, 4, 7, 9, 2, 6])
    (reachable_build 3 _) (by decide)

end ReverseBegin

section ForwardBegin
variable {T : Type}

theorem beginWhile_spec (root : Node T)
    (hshape : ∀ (p : Path) (n : Node T), root.get? p = some n → 0 < n.children.length) :
    ∀ (fuel : Nat) (cur : Path) (n : Node T), root.get? cur = some n → n.weight ≤ fuel →
      ∃ (k : Nat) (m : Node T), beginWhile root fuel cur = .ok (cur ++ List.replicate k 0) ∧
        root.get? (cur ++ List.replicate k 0) = some m ∧ m.children[0]? = some none
  | 0, cur, n, _, hw => by
    have := Node.weight_eq n
    omega
  | fuel + 1, cur, n, hn, hw => by
    rw [beginWhile]
    simp only [hn]
    rcases hch : n.children[0]? with _ | _ | d
    · rw [List.getElem?_eq_none_iff] at hch
      have := hshape cur n hn
      omega
    · exact ⟨0, n, by simp, by simpa using hn, hch⟩
    · have hd : root.get? (cur ++ [0]) = some d := by
        rw [Node.get?_snoc cur 0 root n hn, hch]
        rfl
      have hwd := Node.weight_child n d 0 hch
      obtain ⟨k, m, h1, h2, h3⟩ := beginWhile_spec root hshape fuel (cur ++ [0]) d hd (by omega)
      refine ⟨k + 1, m, ?_, ?_, h3⟩
      · simp only
        rw [h1, List.append_assoc]
        rfl
      · rw [← h2, List.append_assoc]
        rfl

theorem sorted_head_le [LinearOrder T] {l : List T} (hs : l.Pairwise (· < ·)) {x y : T}
    (hx : l[0]? = some x) (hy : y ∈ l) : x ≤ y := by
  obtain ⟨j, hj, hjy⟩ := List.getElem_of_mem hy
  rcases Nat.eq_zero_or_pos j with h0 | hpos
  · subst h0
    rw [List.getElem?_eq_getElem hj, hjy] at hx
    exact le_of_eq (Option.some.inj hx).symm
  · exact le_of_lt (sorted_getElem?_lt hs hpos hx (by rw [List.getElem?_eq_getElem hj, hjy]))

/-- In an ordered tree the first element of the node at the end of the chain of slot-0
children is at most every stored element. -/
theorem leftmost_is_minimum [LinearOrder T] {c : Nat} {root : Node T} (ho : Ordered root)
    (hnodes : ∀ (p : Path) (n : Node T), root.get? p = some n → NodeOK c n)
    (k : Nat) (m : Node T) (x : T) (hm : root.get? (List.replicate k 0) = some m)
    (hch : m.children[0]? = some none) (hx : m.element[0]? = some x) :
    ∀ y ∈ root.elems, x ≤ y := by
  intro y hy
  obtain ⟨Q, n, hQ, hyn⟩ := Node.exists_of_mem_elems root y hy
  have hfirst : ∀ (p : Path) (r : Node T), root.get? p = some r →
      ∃ z, r.element[0]? = some z := by
    intro p r hr
    rcases hl : r.element with _ | ⟨z, l⟩
    · exact absurd hl (hnodes p r hr).nonempty
    · exact ⟨z, by simp⟩
  have hxm : x ∈ m.element := List.getElem?_mem hx
  rcases path_cases (List.replicate k 0) Q with
    h | ⟨i, q, h⟩ | ⟨i, q, h⟩ | ⟨s, i, j, q1, q2, hij, h1, h2⟩
  · rw [← h, hm] at hQ
    cases hQ
    exact sorted_head_le (ho.sorted _ m hm) hx hyn
  · rw [h] at hQ
    have hi : i ≠ 0 := by
      rintro rfl
      rw [Node.get?_append, hm, Option.some_bind] at hQ
      obtain ⟨d, hd, -⟩ := Node.get?_cons_some hQ
      rw [hch] at hd
      cases hd
    exact le_of_lt ((ho.bounded _ i q m n hm hQ y hyn).2 0 x (by omega) hx)
  · have hi : i = 0 := by
      have : i ∈ List.replicate k 0 := by rw [h]; simp
      exact List.eq_of_mem_replicate this
    subst hi
    rw [h] at hm
    obtain ⟨z, hz⟩ := hfirst Q n hQ
    exact le_of_lt (lt_of_lt_of_le ((ho.bounded Q 0 q n m hQ hm x hxm).1 z hz)
      (sorted_head_le (ho.sorted Q n hQ) hz hyn))
  · have hi : i = 0 := by
      have : i ∈ List.replicate k 0 := by rw [h1]; simp
      exact List.eq_of_mem_replicate this
    subst hi
    rw [h1] at hm
    rw [h2] at hQ
    obtain ⟨r, hr, -⟩ := Node.get?_prefix s (0 :: q1) root m hm
    obtain ⟨z, hz⟩ := hfirst s r hr
    have hlt1 := (ho.bounded s 0 q1 r m hr hm x hxm).1 z hz
    have hlt2 := (ho.bounded s j q2 r n hr hQ y hyn).2 0 z (by omega) hz
    exact le_of_lt (lt_trans hlt1 hlt2)

/-- C23: in every non-empty tree reachable by `insert` calls (capacity at least 1)
`begin()` is defined, resets `search_count` and returns the cursor at index 0 of the
node at the end of the chain of slot-0 children of the root (a node of the tree whose
own slot 0 is empty), and the dereference of that cursor is a stored element that is
at most every stored element. -/
theorem begin_is_minimum [LinearOrder T] (c : Nat) (hc : 1 ≤ c) (t : btree T)
    (h : Reachable c t) (hne : t.elems ≠ []) :
    ∃ (k : Nat) (m : Node T) (x : T),
      t.begin = .ok ({ t with search_count := 0 }, ⟨some (List.replicate k 0), 0⟩) ∧
      t.node? (List.replicate k 0) = some m ∧ m.children[0]? = some none ∧
      (⟨some (List.replicate k 0), 0⟩ : btree_iterator).deref { t with search_count := 0 }
        = .ok x ∧
      x ∈ t.elems ∧ ∀ y ∈ t.elems, x ≤ y := by
  rcases hroot : t.root with _ | root
  · simp [btree.elems, hroot] at hne
  · have hs := h.shape hc
    have ho := h.ordered hc root hroot
    have hnodes : ∀ (p : Path) (n : Node T), root.get? p = some n → NodeOK c n :=
      fun p n hn => hs.nodes root p n hroot hn
    obtain ⟨k, m, hb, hm, hch⟩ := beginWhile_spec root
      (fun p n hn => by have := (hnodes p n hn).slots; omega) root.weight [] root rfl
      (le_refl _)
    simp only [List.nil_append] at hb hm
    obtain ⟨x, hx⟩ : ∃ x, m.element[0]? = some x := by
      rcases hl : m.element with _ | ⟨z, l⟩
      · exact absurd hl (hnodes _ m hm).nonempty
      · exact ⟨z, by simp⟩
    refine ⟨k, m, x, ?_, ?_, hch, ?_, ?_, ?_⟩
    · simp only [btree.begin, hroot, hb]
    · simp [btree.node?, hroot, hm]
    · simp only [btree_iterator.deref, btree.node?, hroot, Option.some_bind, hm, hx]
    · simpa [btree.elems, hroot] using
        Node.mem_elems_of_get? _ root m x hm (List.getElem?_mem hx)
    · simpa [btree.elems, hroot] using leftmost_is_minimum ho hnodes k m x hm hch hx

/-- Witness for C23: the capacity-3 tree built from 5, 3, 8, 1, 4, 7, 9, 2, 6. -/
theorem begin_is_minimum_witness :
    ∃ (k : Nat) (m : Node Nat) (x : Nat),
      (build 3 [5, 3, 8, 1, 4, 7, 9, 2, 6]).begin =
        .ok ({ build 3 [5, 3, 8, 1, 4, 7, 9, 2, 6] with search_count := 0 },
          ⟨some (List.replicate k 0), 0⟩) ∧
      (build 3 [5, 3, 8, 1, 4, 7, 9, 2, 6]).node? (List.replicate k 0) = some m ∧
      m.children[0]? = some none ∧
      (⟨some (List.replicate k 0), 0⟩ : btree_iterator).deref
        { build 3 [5, 3, 8, 1, 4, 7, 9, 2, 6] with search_count := 0 } = .ok x ∧
      x ∈ (build 3 [5, 3, 8, 1, 4, 7, 9, 2, 6]).elems ∧
      ∀ y ∈ (build 3 [5, 3, 8, 1, 4, 7, 9, 2, 6]).elems, x ≤ y :=
  begin_is_minimum 3 (by decide) (build 3 [5, 3, 8, 1, 4, 7, 9, 2, 6])
    (reachable_build 3 _) (by decide)

end ForwardBegin

section PastTheRoot
variable {T : Type}

theorem sorted_le_last [LinearOrder T] {l : List T} (hs : l.Pairwise (· < ·)) {back z : T}
    (hb : l.getLast? = some back) (hz : z ∈ l) : z ≤ back := by
  rw [List.getLast?_eq_getElem?] at hb
  obtain ⟨j, hj, hjz⟩ := List.getElem_of_mem hz
  have hzj : l[j]? = some z := by rw [List.getElem?_eq_getElem hj, hjz]
  rcases Nat.lt_or_ge j (l.length - 1) with hlt | hge
  · exact le_of_lt (sorted_getElem?_lt hs hlt hzj hb)
  · have he : j = l.length - 1 := by omega
    rw [he, hb] at hzj
    exact le_of_eq (Option.some.inj hzj).symm

/-- The `insert` loop started at a full root with an element greater than the root's
last element stays at the root. -/
theorem descends_past_root [LinearOrder T] {root : Node T} {elem back : T}
    (hsorted : root.element.Pairwise (· < ·)) (hback : root.element.getLast? = some back)
    (he : back < elem) (P : Path) (hd : Descends root elem P) : P = [] := by
  rcases P with _ | ⟨i, q⟩
  · rfl
  · obtain ⟨-, ⟨y, hy, hlt⟩, -⟩ := hd [] i q root rfl rfl
    have := sorted_le_last hsorted hback (List.getElem?_mem hy)
    exact absurd (lt_of_lt_of_le hlt this) (not_lt.2 (le_of_lt he))

/-- C27: in every tree reachable by `insert` calls (capacity `c` at least 1) whose root
holds `c` elements, `back` being the last of them, any two stored elements greater
than `back` are equal; and once child slot `c` of the root is occupied, `insert` of
any element greater than `back` returns `false` and leaves the tree as it is. -/
theorem past_root_maximum_dropped [LinearOrder T] (c : Nat) (hc : 1 ≤ c) (t : btree T)
    (h : Reachable c t) (root : Node T) (hroot : t.root = some root)
    (hfull : root.element.length = c) (back : T)
    (hback : root.element.getLast? = some back) :
    (∀ x ∈ t.elems, ∀ y ∈ t.elems, back < x → back < y → x = y) ∧
    ∀ d : Node T, root.children[c]? = some (some d) → ∀ e : T, back < e →
      ∃ r, t.insert e = .ok r ∧ r.second = false ∧ r.tree = t := by
  have hs := h.shape hc
  have ho := h.ordered hc root hroot
  have hll := h.lastLeaf hc root hroot
  have hok := hs.nodes root [] root hroot rfl
  have hsorted := ho.sorted [] root rfl
  have hplace : ∀ x ∈ root.elems, back < x →
      ∃ m, root.get? [c] = some m ∧ m.element = [x] := by
    intro x hx hlt
    obtain ⟨Q, n, hQ, hxn⟩ := Node.exists_of_mem_elems root x hx
    rcases Q with _ | ⟨i, q⟩
    · simp only [Node.get?_nil, Option.some.injEq] at hQ
      subst hQ
      exact absurd hlt (not_lt.2 (sorted_le_last hsorted hback hxn))
    · obtain ⟨d, hd, hq⟩ := Node.get?_cons_some hQ
      have hi : i < c + 1 := by
        have hlen := hok.slots
        by_contra hge
        rw [List.getElem?_eq_none (by omega)] at hd
        cases hd
      rcases Nat.lt_or_ge i c with hic | hic
      · have hy : root.element[i]? = some root.element[i] :=
          List.getElem?_eq_getElem (by omega)
        have h1 := (ho.bounded [] i q root n rfl hQ x hxn).1 _ hy
        have h2 := sorted_le_last hsorted hback (List.getElem?_mem hy)
        exact absurd (lt_of_lt_of_le h1 h2) (not_lt.2 (le_of_lt hlt))
      · have hic2 : i = c := by omega
        subst hic2
        have hgd : root.get? ([] ++ [i]) = some d := by
          rw [Node.get?_snoc [] i root root rfl, hd]
          rfl
        obtain ⟨hone, hnone⟩ := hll [] d hgd
        rcases q with _ | ⟨j, q2⟩
        · simp only [Node.get?_nil, Option.some.injEq] at hq
          subst hq
          refine ⟨d, hgd, ?_⟩
          rcases hde : d.element with _ | ⟨z, _ | ⟨z2, l⟩⟩
          · rw [hde] at hone
            cases hone
          · rw [hde] at hxn
            rw [List.mem_singleton.1 hxn]
          · rw [hde] at hone
            simp at hone
        · rw [Node.no_child_of_childless hnone j q2] at hq
          cases hq
  refine ⟨?_, ?_⟩
  · intro x hx y hy hbx hby
    have hx1 : x ∈ root.elems := by simpa [btree.elems, hroot] using hx
    have hy1 : y ∈ root.elems := by simpa [btree.elems, hroot] using hy
    obtain ⟨m, hm, hmx⟩ := hplace x hx1 hbx
    obtain ⟨m2, hm2, hmy⟩ := hplace y hy1 hby
    rw [hm] at hm2
    cases hm2
    rw [hmx] at hmy
    exact (List.cons.inj hmy).1
  · intro d hd e he
    obtain ⟨r, hr, hout⟩ := insert_outcome hs root hroot e
    refine ⟨r, hr, ?_⟩
    cases hout with
    | found P n k hdesc hP hk hpass =>
      have hP0 := descends_past_root hsorted hback he P hdesc
      subst hP0
      simp only [Node.get?_nil, Option.some.injEq] at hP
      subst hP
      exact absurd he (not_lt.2 (sorted_le_last hsorted hback (List.getElem?_mem hk)))
    | dropped P n c2 hdesc hP hlen hpass hch => exact ⟨rfl, rfl⟩
    | grown P n k hdesc hP hstop hnf =>
      have hP0 := descends_past_root hsorted hback he P hdesc
      subst hP0
      simp only [Node.get?_nil, Option.some.injEq] at hP
      subst hP
      exact absurd (hfull.trans hok.capacity_eq.symm) hnf
    | attached P n k ret tl tn bk hdesc hP hstop hf hk ht htl hb =>
      have hP0 := descends_past_root hsorted hback he P hdesc
      subst hP0
      simp only [Node.get?_nil, Option.some.injEq] at hP
      subst hP
      obtain ⟨hkle, -, hgt⟩ := hstop
      rcases Nat.lt_or_ge k root.element.length with hlt | hge
      · have hy : root.element[k]? = some root.element[k] := List.getElem?_eq_getElem hlt
        have h1 := hgt _ hy
        have h2 := sorted_le_last hsorted hback (List.getElem?_mem hy)
        exact absurd (lt_of_lt_of_le h1 h2) (not_lt.2 (le_of_lt he))
      · have hkc : k = c := by omega
        rw [hkc, hd] at hk
        cases hk

/-- Witness for C27: the capacity-3 tree built from 5, 3, 8, 1, 4, 7, 9, 2, 6, whose
root 3, 5, 8 is full and has the node holding 9 in its last child slot. -/
theorem past_root_maximum_dropped_witness :
    (∀ x ∈ (build 3 [5, 3, 8, 1, 4, 7, 9, 2, 6]).elems,
      ∀ y ∈ (build 3 [5, 3, 8, 1, 4, 7, 9, 2, 6]).elems, 8 < x → 8 < y → x = y) ∧
    ∀ d : Node Nat,
      (⟨[3, 5, 8],
        [some ⟨[1, 2], [none, none, none, none], 3, 0⟩,
         some ⟨[4], [none, none, none, none], 3, 0⟩,
         some ⟨[6, 7], [none, none, none, none], 3, 0⟩,
         some ⟨[9], [none, none, none, none], 3, 0⟩], 3, 0⟩ : Node Nat).children[3]?
        = some (some d) →
      ∀ e : Nat, 8 < e →
        ∃ r, (build 3 [5, 3, 8, 1, 4, 7, 9, 2, 6]).insert e = .ok r ∧ r.second = false ∧
          r.tree = build 3 [5, 3, 8, 1, 4, 7, 9, 2, 6] :=
  past_root_maximum_dropped 3 (by decide) (build 3 [5, 3, 8, 1, 4, 7, 9, 2, 6])
    (reachable_build 3 _)
    ⟨[3, 5, 8],
      [some ⟨[1, 2], [none, none, none, none], 3, 0⟩,
       some ⟨[4], [none, none, none, none], 3, 0⟩,
       some ⟨[6, 7], [none, none, none, none], 3, 0⟩,
       some ⟨[9], [none, none, none, none], 3, 0⟩], 3, 0⟩
    (by rfl) rfl 8 rfl

end PastTheRoot

/-! ## The one place an `insert` changes -/

section InsertFrame
variable {T : Type}

theorem growsAt_of_modify [LinearOrder T] (elem : T) (root n : Node T) (P : Path) (k : Nat)
    (hP : root.get? P = some n) (hstop : StopsAt n elem k)
    (hnf : n.element.length ≠ n.capacity) :
    GrowsAt elem root
      (root.modify (fun n => { n with element := n.element.insertIdx k elem }) P) P k := by
  have hkeep := fun p => Node.get?_modify_keep
    (fun n : Node T => { n with element := n.element.insertIdx k elem }) (fun _ => rfl) P p
    root n hP
  refine ⟨n, hP, by simp [Node.full, hnf], hstop, ?_, fun p hp => (hkeep p).2 hp⟩
  intro p m hm
  obtain ⟨m1, hm1, heq, hne⟩ := (hkeep p).1 m hm
  refine ⟨m1, hm1, ?_⟩
  by_cases hp : p = P
  · rw [heq hp, if_pos hp]
    exact ⟨rfl, rfl, rfl, rfl⟩
  · obtain ⟨he, hcap, hti, hch⟩ := hne hp
    rw [if_neg hp]
    exact ⟨hcap, hti, hch, he⟩

theorem attachesAt_of_modify (elem : T) (cap : Nat) (root n : Node T) (P : Path) (k : Nat)
    (hP : root.get? P = some n) (hf : n.element.length = n.capacity)
    (hk : n.children[k]? = some none) :
    AttachesAt elem cap root
      (root.modify
        (fun n => { n with children := n.children.set k (some (Node.withElem elem cap)) }) P)
      P k := by
  have hlt : k < n.children.length := by
    by_contra hge
    rw [List.getElem?_eq_none (by omega)] at hk
    cases hk
  refine ⟨n, hP, by simp [Node.full, hf], hk,
    Node.get?_attach_self _ P k root n hP hlt, ?_, ?_⟩
  · intro p m hm
    obtain ⟨m1, hm1, he, hcap, hti, -, hne, heq⟩ :=
      Node.get?_attach_old (Node.withElem elem cap) P p k root n m hP hk hm
    refine ⟨m1, hm1, he, hcap, hti, ?_⟩
    by_cases hp : p = P
    · rw [if_pos hp, heq hp, List.map_set]
      rfl
    · rw [if_neg hp, hne hp]
  · intro p hp hne
    rcases h1 : (root.modify
        (fun n => { n with children := n.children.set k (some (Node.withElem elem cap)) })
        P).get? p with _ | m1
    · rfl
    · rcases Node.get?_attach_new (Node.withElem elem cap) (Node.withElem_leaf elem cap)
        P p k root n m1 hP h1 with ⟨hpk, -⟩ | ⟨m, hm, -⟩
      · exact absurd hpk hne
      · rw [hp] at hm
        cases hm

/-- C24 (as stated, false): `insert(7)` into the empty tree of capacity 3 returns
`true`, and the tree had no node: no node gained 7 and no child slot of a full node
received the new node, which is the root. -/
theorem first_insert_has_no_place :
    ∃ r, (btree.new 3 : btree Nat).insert 7 = .ok r ∧ r.second = true ∧
      r.tree.root.map Node.element = some [7] ∧
      ¬ ChangesOnePlace 7 (btree.new 3) r.tree := by
  refine ⟨_, rfl, rfl, rfl, ?_⟩
  rintro ⟨root, root1, P, k, hroot, -⟩
  cases hroot

/-- C24 (amended): on every tree reachable by `insert` calls (capacity `c` at least 1)
`insert` runs to completion, and when it returns `true` either the tree had no root
and the new root is a node of capacity `c` holding the element alone, or the tree
changed in one place: one node that was not full gained the element at its sorted
position, or one empty child slot of a full node received a new node holding the
element alone; every other node kept its place (hence its parent), its elements, its
capacity and its occupied child slots, and no other node appeared. -/
theorem insert_true_changes_one_place [LinearOrder T] (c : Nat) (hc : 1 ≤ c) (t : btree T)
    (h : Reachable c t) (elem : T) :
    ∃ r, t.insert elem = .ok r ∧
      (r.second = true →
        (t.root = none ∧ r.tree.root = some (Node.withElem elem c)) ∨
        ChangesOnePlace elem t r.tree) := by
  have hs := h.shape hc
  rcases hroot : t.root with _ | root
  · refine ⟨_, btree.insert_none t elem hroot, fun _ => Or.inl ⟨rfl, ?_⟩⟩
    simp only [hs.max_element_eq]
  · obtain ⟨r, hr, hout⟩ := insert_outcome hs root hroot elem
    refine ⟨r, hr, ?_⟩
    cases hout with
    | found P n k hd hP hk hpass => intro h2; cases h2
    | dropped P n c2 hd hP hlen hpass hch => intro h2; cases h2
    | grown P n k hd hP hstop hnf =>
      intro _
      exact Or.inr ⟨root, _, P, k, hroot, rfl,
        Or.inl (growsAt_of_modify elem root n P k hP hstop hnf)⟩
    | attached P n k ret tl tn back hd hP hstop hf hk ht htl hb =>
      intro _
      exact Or.inr ⟨root, _, P, k, hroot, rfl,
        Or.inr (attachesAt_of_modify elem t.max_element root n P k hP hf hk)⟩

/-- Witness for the amended C24: `insert(1)` into the capacity-3 tree built from
5, 3, 8, whose root is full. -/
theorem insert_true_changes_one_place_witness :
    ∃ r, (build 3 [5, 3, 8]).insert 1 = .ok r ∧
      (r.second = true →
        ((build 3 [5, 3, 8]).root = none ∧ r.tree.root = some (Node.withElem 1 3)) ∨
        ChangesOnePlace 1 (build 3 [5, 3, 8]) r.tree) :=
  insert_true_changes_one_place 3 (by decide) (build 3 [5, 3, 8]) (reachable_build 3 _) 1

end InsertFrame

end Btree
